import Mathlib

/-!
Verification of the mesh editor core of `shape_creator/app.py`.

The file shallowly embeds the grid geometry helpers, the `Shape` mesh
engine (add/remove/merge), the `Snowflake` composition engine and the
`StarConvex` growth algorithm as executable Lean functions, and proves
the claimed properties about them.  Rendering state (`nodes_tf`, colors,
camera) is not part of the embedding: it is write-only derived data that
no claimed property mentions.
-/

/-- Integer grid coordinate on the triangular lattice. -/
abbrev Coord := Int × Int

/-- The six unit direction vectors, counterclockwise (`DIR_VECS`). -/
def DIR_VECS : List Coord := [(1, 0), (0, 1), (-1, 1), (-1, 0), (0, -1), (1, -1)]

/-- Python list indexing semantics for a list of coordinates: nonnegative
indices count from the front, negative indices from the back, and any
other index is an `IndexError`, modelled as `none`. -/
def pyIdx (l : List Coord) (i : Int) : Option Coord :=
  if 0 ≤ i then l.get? i.toNat
  else if 0 ≤ i + (l.length : Int) then l.get? (i + (l.length : Int)).toNat
  else none

/-- `rotate_grid_point(x, y, rot)`: rotates grid coordinates by `rot`
60-degree steps counterclockwise using `DIR_VECS[rot]` and
`DIR_VECS[(rot + 1) % 6]`.  The first lookup uses raw Python indexing, so
the call raises (modelled as `none`) whenever `rot` is outside `-6..5`. -/
def rotate_grid_point (x y : Int) (rot : Int) : Option Coord :=
  match pyIdx DIR_VECS rot, pyIdx DIR_VECS ((rot + 1) % 6) with
  | some vx, some vy => some (vx.1 * x + vy.1 * y, vx.2 * x + vy.2 * y)
  | _, _ => none

/-- Total wrapper for `rotate_grid_point` used at call sites where the
source always passes a rotation in `0..5` (so the lookup succeeds). -/
def rotPt (p : Coord) (rot : Int) : Coord :=
  (rotate_grid_point p.1 p.2 rot).getD p

/-- Direction vector lookup `DIR_VECS[d]` at call sites where the source
always passes `0 ≤ d ≤ 5`. -/
def dirVec (d : Int) : Coord :=
  (pyIdx DIR_VECS d).getD (0, 0)

/-- The mesh state of a `Shape`: its global position, its node
coordinates (local to `pos`), and its edges and faces as index
tuples into `nodes`. -/
structure Mesh where
  pos : Coord
  nodes : List Coord
  edges : List (Nat × Nat)
  faces : List (Nat × Nat × Nat)
deriving DecidableEq

/-- Last index of coordinate `p` in `ns`, or `none`.  This is the result
of the source's search loops that scan the whole node list without
breaking (`add_edge`, `add_face`, `remove_edge`, `remove_face`):
a later match overwrites an earlier one. -/
def idxLast : List Coord → Coord → Option Nat
  | [], _ => none
  | a :: as, p =>
    match idxLast as p with
    | some j => some (j + 1)
    | none => if a = p then some 0 else none

/-- First index of coordinate `p` in `ns`, or `none`.  This is
`list.index` / the search loops that break on the first match. -/
def idxFirst : List Coord → Coord → Option Nat
  | [], _ => none
  | a :: as, p => if a = p then some 0 else (idxFirst as p).map (· + 1)

/-- Order-independent equality of index pairs (the comparison made by
`contains_edge`). -/
def edgeEqB (x e : Nat × Nat) : Bool :=
  (x.1 == e.1 && x.2 == e.2) || (x.1 == e.2 && x.2 == e.1)

/-- Order-independent edge membership test on an edge list
(`contains_edge` generalised to any edge list). -/
def containsEdgeL (es : List (Nat × Nat)) (e : Nat × Nat) : Bool :=
  es.any fun x => edgeEqB x e

/-- Membership of an index in a face triple. -/
def memT (a : Nat) (f : Nat × Nat × Nat) : Bool :=
  a == f.1 || a == f.2.1 || a == f.2.2

/-- Python `set(f) == set(g)` on face triples. -/
def setEqT (f g : Nat × Nat × Nat) : Bool :=
  memT f.1 g && memT f.2.1 g && memT f.2.2 g &&
  memT g.1 f && memT g.2.1 f && memT g.2.2 f

/-- Order-independent face membership test on a face list. -/
def containsFaceL (fs : List (Nat × Nat × Nat)) (f : Nat × Nat × Nat) : Bool :=
  fs.any fun x => setEqT x f

/-- `Shape.contains_edge`. -/
def contains_edge (m : Mesh) (e : Nat × Nat) : Bool :=
  containsEdgeL m.edges e

/-- `Shape.contains_face`. -/
def contains_face (m : Mesh) (f : Nat × Nat × Nat) : Bool :=
  containsFaceL m.faces f

/-- Rebase a global coordinate into a shape's local frame. -/
def toLocal (m : Mesh) (p : Coord) : Coord :=
  (p.1 - m.pos.1, p.2 - m.pos.2)

/-- `Shape.add_edge(edge)` with `edge` a pair of global coordinates. -/
def add_edge (m : Mesh) (p1g p2g : Coord) : Mesh :=
  let p1 := toLocal m p1g
  let p2 := toLocal m p2g
  match idxLast m.nodes p1, idxLast m.nodes p2 with
  | none, none => m
  | some a, some b =>
    if contains_edge m (a, b) then m else { m with edges := m.edges ++ [(a, b)] }
  | some a, none =>
    { m with nodes := m.nodes ++ [p2], edges := m.edges ++ [(a, m.nodes.length)] }
  | none, some b =>
    { m with nodes := m.nodes ++ [p1], edges := m.edges ++ [(b, m.nodes.length)] }

/-- The per-edge step of `add_face`: append the index pair unless an
order-independent equal edge is already present. -/
def addEdgeIdx (es : List (Nat × Nat)) (k l : Nat) : List (Nat × Nat) :=
  if containsEdgeL es (k, l) then es else es ++ [(k, l)]

/-- The final step of `add_face`: append the index triple unless a
set-equal face is already present. -/
def addFaceIdx (fs : List (Nat × Nat × Nat)) (f : Nat × Nat × Nat) :
    List (Nat × Nat × Nat) :=
  if containsFaceL fs f then fs else fs ++ [f]

/-- `Shape.add_face(face)` with `face` a triple of global coordinates. -/
def add_face (m : Mesh) (p1g p2g p3g : Coord) : Mesh :=
  let p1 := toLocal m p1g
  let p2 := toLocal m p2g
  let p3 := toLocal m p3g
  let j1 := idxLast m.nodes p1
  let j2 := idxLast m.nodes p2
  let j3 := idxLast m.nodes p3
  if j1 = none ∧ j2 = none ∧ j3 = none then m
  else
    let nodes1 := match j1 with | some _ => m.nodes | none => m.nodes ++ [p1]
    let k1 := match j1 with | some a => a | none => m.nodes.length
    let nodes2 := match j2 with | some _ => nodes1 | none => nodes1 ++ [p2]
    let k2 := match j2 with | some a => a | none => nodes1.length
    let nodes3 := match j3 with | some _ => nodes2 | none => nodes2 ++ [p3]
    let k3 := match j3 with | some a => a | none => nodes2.length
    let e3 := addEdgeIdx (addEdgeIdx (addEdgeIdx m.edges k1 k2) k1 k3) k2 k3
    let fs := addFaceIdx m.faces (k1, k2, k3)
    { m with nodes := nodes3, edges := e3, faces := fs }

/-- One scan of the edge list collecting the indices of edges incident to
node `i` together with the corresponding neighbor endpoints, in scan
order (the collection loop of `remove_node`). -/
def incidentEdges (es : List (Nat × Nat)) (i : Nat) : List Nat × List Nat :=
  let idx := (List.range es.length).filter fun j => ((es.getD j (0, 0)).1 == i) || ((es.getD j (0, 0)).2 == i)
  let nbrs := idx.map fun j =>
    let e := es.getD j (0, 0)
    if e.1 = i then e.2 else e.1
  (idx, nbrs)

/-- Indices of the faces containing node `i` (collection loop of
`remove_node`). -/
def incidentFaces (fs : List (Nat × Nat × Nat)) (i : Nat) : List Nat :=
  (List.range fs.length).filter fun j => memT i (fs.getD j (0, 0, 0))

/-- One round of the BFS of `_nodes_connected`: process node `n`,
scanning all edges.  Edges whose index is excluded are skipped; a
non-adjacent edge yields the sentinel neighbor `-1`, which the source
happily enqueues and marks visited the first time (it is harmless but
part of the behaviour, hence the queue holds `Int`).  Returns the updated
queue tail, visited set and target list. -/
def bfsScan (es : List (Nat × Nat)) (excludedN : List Nat) (excludedE : List Nat)
    (n : Int) (queue visited : List Int) (targets : List Nat) :
    List Int × List Int × List Nat :=
  (List.range es.length).foldl
    (fun (st : List Int × List Int × List Nat) j =>
      let (q, vis, tg) := st
      if j ∈ excludedE then st
      else
        let e := es.getD j (0, 0)
        let nbr : Int := if (e.1 : Int) = n then e.2 else if (e.2 : Int) = n then e.1 else -1
        if (excludedN.all fun x => (x : Int) ≠ nbr) ∧ nbr ∉ vis then
          let tg' := if (targets.any fun t => (t : Int) = nbr) then tg.erase nbr.toNat else tg
          (q ++ [nbr], vis ++ [nbr], tg')
        else st)
    (queue, visited, targets)

/-- The BFS loop of `_nodes_connected`, with explicit fuel.  Each loop
iteration pops one queue entry, and every value is enqueued at most once
(it is marked visited when pushed), so `2 * es.length + 3` iterations
always suffice to drain the queue. -/
def bfsLoop (es : List (Nat × Nat)) (excludedN excludedE : List Nat) :
    Nat → List Int → List Int → List Nat → Bool
  | 0, _, _, targets => targets.isEmpty
  | fuel + 1, queue, visited, targets =>
    if targets.isEmpty then true
    else
      match queue with
      | [] => false
      | n :: qs =>
        let (q', vis', tg') := bfsScan es excludedN excludedE n qs visited targets
        bfsLoop es excludedN excludedE fuel q' vis' tg'

/-- `Shape._nodes_connected(n1, target_nodes, excluded_nodes,
excluded_edges)`.  The source returns `None` (falsy at both call sites)
when the target list is empty after dropping `n1`; that early exit is
modelled as `false`. -/
def nodes_connected (es : List (Nat × Nat)) (n1 : Nat)
    (targets0 excludedN excludedE : List Nat) : Bool :=
  let targets := if n1 ∈ targets0 then targets0.erase n1 else targets0
  if targets.isEmpty then false
  else bfsLoop es excludedN excludedE (es.length * 2 + 3) [(n1 : Int)] [(n1 : Int)] targets

/-- `Shape._remove_node_direct(idx)`: drop node `idx` and shift all edge
and face indices `≥ idx` down by one. -/
def remove_node_direct (m : Mesh) (idx : Nat) : Mesh :=
  let dec := fun a => if idx ≤ a then a - 1 else a
  { m with
    nodes := m.nodes.eraseIdx idx
    edges := m.edges.map fun e => (dec e.1, dec e.2)
    faces := m.faces.map fun f => (dec f.1, dec f.2.1, dec f.2.2) }

/-- `Shape.remove_node(node)` with `node` a global coordinate. -/
def remove_node (m : Mesh) (g : Coord) : Mesh :=
  let p := toLocal m g
  match idxFirst m.nodes p with
  | none => m
  | some i =>
    if p = (0, 0) then m
    else
      let eidx := (incidentEdges m.edges i).1
      let nbrs := (incidentEdges m.edges i).2
      let fidx := incidentFaces m.faces i
      let blocked :=
        match nbrs with
        | [] => false
        | [_] => false
        | n0 :: rest => !nodes_connected m.edges n0 rest [i] eidx
      if blocked then m
      else
        let edgeVals := eidx.map fun j => m.edges.getD j (0, 0)
        let faceVals := fidx.map fun j => m.faces.getD j (0, 0, 0)
        let m1 := { m with
          edges := edgeVals.foldl (fun es e => es.erase e) m.edges
          faces := faceVals.foldl (fun fs f => fs.erase f) m.faces }
        remove_node_direct m1 i

/-- The edge-index search loop of `remove_edge`: first index whose edge
equals `(j1, j2)` in either orientation, scanning in order and breaking
on the first match. -/
def findEdgeIdx : List (Nat × Nat) → Nat → Nat → Option Nat
  | [], _, _ => none
  | e :: es, j1, j2 =>
    if e = (j1, j2) ∨ e = (j2, j1) then some 0
    else (findEdgeIdx es j1 j2).map (· + 1)

/-- `Shape.remove_edge(edge)` with `edge` a pair of global coordinates. -/
def remove_edge (m : Mesh) (g1 g2 : Coord) : Mesh :=
  let p1 := toLocal m g1
  let p2 := toLocal m g2
  match idxLast m.nodes p1, idxLast m.nodes p2 with
  | some j1, some j2 =>
    match findEdgeIdx m.edges j1 j2 with
    | none => m
    | some k =>
      if nodes_connected m.edges j1 [j2] [] [k] then
        let incf := m.faces.filter fun f => memT j1 f && memT j2 f
        { m with
          faces := incf.foldl (fun fs f => fs.erase f) m.faces
          edges := m.edges.eraseIdx k }
      else m
  | _, _ => m

/-- `Shape.remove_face(face)` with `face` a triple of global
coordinates. -/
def remove_face (m : Mesh) (g1 g2 g3 : Coord) : Mesh :=
  let p1 := toLocal m g1
  let p2 := toLocal m g2
  let p3 := toLocal m g3
  match idxLast m.nodes p1, idxLast m.nodes p2, idxLast m.nodes p3 with
  | some j1, some j2, some j3 =>
    if contains_face m (j1, j2, j3) then
      match m.faces.find? (fun f => setEqT f (j1, j2, j3)) with
      | some f => { m with faces := m.faces.erase f }
      | none => m
    else m
  | _, _, _ => m

/-- The index in the merged node list that node `i` of the rebased other
mesh is mapped to by `merge_with`: its first index in `self`'s node list
when shared, else `self`'s length plus the number of earlier new nodes
(the `shared_dict` / `new_dict` construction). -/
def mergeResolve (sn : List Coord) (bs : List Coord) (i : Nat) : Nat :=
  match idxFirst sn (bs.getD i (0, 0)) with
  | some j => j
  | none => sn.length + ((bs.take i).filter (fun c => idxFirst sn c = none)).length

/-- Whether node `i` of the rebased other mesh is shared with `self`. -/
def mergeShared (sn : List Coord) (bs : List Coord) (i : Nat) : Bool :=
  (idxFirst sn (bs.getD i (0, 0))).isSome

/-- The other mesh's nodes rebased into `self`'s frame (the first step
of `merge_with`). -/
def mergeBs (m other : Mesh) : List Coord :=
  other.nodes.map fun p =>
    (p.1 + (other.pos.1 - m.pos.1), p.2 + (other.pos.2 - m.pos.2))

/-- The rebased nodes not already present in `self` (the `new_nodes`
list of `merge_with`, in rebased order). -/
def mergeNewNodes (sn : List Coord) (bs : List Coord) : List Coord :=
  bs.filter fun c => idxFirst sn c = none

/-- The per-edge step of `merge_with`: remap the endpoints through the
node substitution and drop the edge when both endpoints are shared and
`self` already contains it. -/
def mergeEdgeMap (m : Mesh) (bs : List Coord) (e : Nat × Nat) : Option (Nat × Nat) :=
  let an := mergeResolve m.nodes bs e.1
  let bn := mergeResolve m.nodes bs e.2
  if mergeShared m.nodes bs e.1 ∧ mergeShared m.nodes bs e.2 ∧
      contains_edge m (an, bn) then none
  else some (an, bn)

/-- The per-face step of `merge_with`: remap the corners through the
node substitution and drop the face when all corners are shared and
`self` already contains it. -/
def mergeFaceMap (m : Mesh) (bs : List Coord) (f : Nat × Nat × Nat) :
    Option (Nat × Nat × Nat) :=
  let fn := (mergeResolve m.nodes bs f.1, mergeResolve m.nodes bs f.2.1,
    mergeResolve m.nodes bs f.2.2)
  if mergeShared m.nodes bs f.1 ∧ mergeShared m.nodes bs f.2.1 ∧
      mergeShared m.nodes bs f.2.2 ∧ contains_face m fn then none
  else some fn

/-- `Shape.merge_with(other)`: rebase the other mesh's nodes into this
mesh's frame, deduplicate nodes by coordinate, remap the other mesh's
edges and faces through that substitution, and append everything not
already present.  All membership checks run against `self`'s original
lists, exactly as in the source (the extensions happen at the end). -/
def merge_with (m other : Mesh) : Mesh :=
  let bs := mergeBs m other
  { m with
    nodes := m.nodes ++ mergeNewNodes m.nodes bs
    edges := m.edges ++ other.edges.filterMap (mergeEdgeMap m bs)
    faces := m.faces ++ other.faces.filterMap (mergeFaceMap m bs) }

/-! ### Basic lemmas about the search helpers -/

theorem idxFirst_eq_none {ns : List Coord} {p : Coord} :
    idxFirst ns p = none ↔ p ∉ ns := by
  induction ns with
  | nil => simp [idxFirst]
  | cons a as ih =>
    by_cases h : a = p
    · simp [idxFirst, h]
    · simp [idxFirst, h, ih, Option.map_eq_none', Ne.symm h]

theorem idxFirst_isSome_of_mem {ns : List Coord} {p : Coord} (h : p ∈ ns) :
    (idxFirst ns p).isSome := by
  cases hq : idxFirst ns p with
  | none => exact absurd (idxFirst_eq_none.mp hq) (by simp [h])
  | some j => rfl

theorem idxFirst_get? {ns : List Coord} {p : Coord} {j : Nat}
    (h : idxFirst ns p = some j) : ns.get? j = some p := by
  induction ns generalizing j with
  | nil => simp [idxFirst] at h
  | cons a as ih =>
    by_cases ha : a = p
    · simp [idxFirst, ha] at h
      subst h; simp [ha]
    · simp [idxFirst, ha] at h
      obtain ⟨j', hj', rfl⟩ := h
      simpa using ih hj'

theorem idxFirst_lt_length {ns : List Coord} {p : Coord} {j : Nat}
    (h : idxFirst ns p = some j) : j < ns.length := by
  have := idxFirst_get? h
  exact List.get?_eq_some.mp this |>.1

theorem idxFirst_append_left {ns ts : List Coord} {p : Coord} {j : Nat}
    (h : idxFirst ns p = some j) : idxFirst (ns ++ ts) p = some j := by
  induction ns generalizing j with
  | nil => simp [idxFirst] at h
  | cons a as ih =>
    by_cases ha : a = p
    · simp [idxFirst, ha] at h ⊢
      exact h
    · simp only [idxFirst, ha, if_false, Option.map_eq_some'] at h
      obtain ⟨j', hj', rfl⟩ := h
      simp [List.cons_append, idxFirst, ha, ih hj']

theorem idxFirst_append_right {ns ts : List Coord} {p : Coord}
    (h : idxFirst ns p = none) : idxFirst (ns ++ ts) p = (idxFirst ts p).map (· + ns.length) := by
  induction ns with
  | nil => simp [idxFirst]
  | cons a as ih =>
    by_cases ha : a = p
    · simp [idxFirst, ha] at h
    · simp only [idxFirst, ha, if_false, Option.map_eq_none'] at h
      simp only [List.cons_append, idxFirst, ha, if_false, List.length_cons,
        List.append_eq]
      rw [ih h]
      cases ht : idxFirst ts p with
      | none => simp
      | some j => simp [Nat.add_assoc]

theorem idxLast_eq_none {ns : List Coord} {p : Coord} :
    idxLast ns p = none ↔ p ∉ ns := by
  induction ns with
  | nil => simp [idxLast]
  | cons a as ih =>
    cases hq : idxLast as p with
    | some j =>
      have hmem : p ∈ as := by
        by_contra hn
        rw [ih.mpr hn] at hq
        exact Option.noConfusion hq
      simp [idxLast, hq, hmem]
    | none =>
      by_cases h : a = p
      · simp [idxLast, hq, h]
      · simp [idxLast, hq, h, Ne.symm h, ih.mp hq]

theorem idxLast_get? {ns : List Coord} {p : Coord} {j : Nat}
    (h : idxLast ns p = some j) : ns.get? j = some p := by
  induction ns generalizing j with
  | nil => simp [idxLast] at h
  | cons a as ih =>
    cases hq : idxLast as p with
    | some j' =>
      simp [idxLast, hq] at h
      subst h
      simpa using ih hq
    | none =>
      by_cases ha : a = p
      · simp [idxLast, hq, ha] at h
        subst h; simp [ha]
      · simp [idxLast, hq, ha] at h

theorem idxLast_lt_length {ns : List Coord} {p : Coord} {j : Nat}
    (h : idxLast ns p = some j) : j < ns.length := by
  have := idxLast_get? h
  exact List.get?_eq_some.mp this |>.1

theorem edgeEqB_refl (e : Nat × Nat) : edgeEqB e e = true := by
  simp [edgeEqB]

theorem containsEdgeL_append {es ts : List (Nat × Nat)} {e : Nat × Nat} :
    containsEdgeL (es ++ ts) e = (containsEdgeL es e || containsEdgeL ts e) := by
  simp [containsEdgeL, List.any_append]

theorem containsEdgeL_of_mem {es : List (Nat × Nat)} {e : Nat × Nat}
    (h : e ∈ es) : containsEdgeL es e = true := by
  simp only [containsEdgeL, List.any_eq_true]
  exact ⟨e, h, edgeEqB_refl e⟩

theorem containsEdgeL_iff {es : List (Nat × Nat)} {e : Nat × Nat} :
    containsEdgeL es e = true ↔ ∃ x ∈ es, edgeEqB x e = true := by
  simp [containsEdgeL, List.any_eq_true]

theorem setEqT_refl (f : Nat × Nat × Nat) : setEqT f f = true := by
  simp [setEqT, memT]

theorem containsFaceL_append {fs ts : List (Nat × Nat × Nat)} {f : Nat × Nat × Nat} :
    containsFaceL (fs ++ ts) f = (containsFaceL fs f || containsFaceL ts f) := by
  simp [containsFaceL, List.any_append]

theorem containsFaceL_of_mem {fs : List (Nat × Nat × Nat)} {f : Nat × Nat × Nat}
    (h : f ∈ fs) : containsFaceL fs f = true := by
  simp only [containsFaceL, List.any_eq_true]
  exact ⟨f, h, setEqT_refl f⟩

theorem containsFaceL_iff {fs : List (Nat × Nat × Nat)} {f : Nat × Nat × Nat} :
    containsFaceL fs f = true ↔ ∃ x ∈ fs, setEqT x f = true := by
  simp [containsFaceL, List.any_eq_true]

/-! ### C8: rotation and its step count -/

/-- C8, counterexample: the claim says `rotate(x, y, k)` is defined for
every integer `k` and equals the rotation by `k mod 6`.  But the source
indexes `DIR_VECS[rot]` directly, so `rotate_grid_point(1, 0, 6)` raises
an IndexError (modelled as `none`) instead of returning the rotation by
`6 mod 6 = 0`, which is defined and equals `(1, 0)`. -/
theorem c8_counterexample :
    rotate_grid_point 1 0 6 = none ∧
    rotate_grid_point 1 0 (6 % 6) = some (1, 0) := by
  decide

/-- C8, amended: for every lattice coordinate `(x, y)` and every integer
`k` in the range `-6 ≤ k ≤ 5` where Python list indexing is defined,
`rotate(x, y, k)` is defined and equals `rotate(x, y, k mod 6)`, the
counterclockwise rotation built from the two direction vectors bounding
the sector.  (Outside that range the call raises; every call site of the
source passes `0 ≤ k ≤ 5`.) -/
theorem c8_rotate_mod6 (x y : Int) (k : Int) (hk1 : -6 ≤ k) (hk2 : k ≤ 5) :
    rotate_grid_point x y k = rotate_grid_point x y (k % 6) ∧
    (rotate_grid_point x y (k % 6)).isSome := by
  interval_cases k <;> exact ⟨rfl, rfl⟩

/-- C8, witness: the amended theorem applied at `x = 3`, `y = 5`,
`k = -2`, where the rotation equals the one by `-2 mod 6 = 4`. -/
theorem c8_rotate_mod6_witness :
    ((-6 : Int) ≤ -2 ∧ (-2 : Int) ≤ 5) ∧
    (rotate_grid_point 3 5 (-2) = rotate_grid_point 3 5 ((-2) % 6) ∧
      (rotate_grid_point 3 5 ((-2) % 6)).isSome) :=
  ⟨⟨by decide, by decide⟩, c8_rotate_mod6 3 5 (-2) (by decide) (by decide)⟩

/-! ### C3: removals that would disconnect the mesh abort unchanged -/

/-- C3: if removing a node would disconnect its neighbor set (more than
one neighbor and the breadth-first search that excludes the removed node
and its incident edges fails to reach all of them), `remove_node`
returns the mesh unchanged; and if removing an edge would disconnect its
two endpoints (same search, excluding only that edge), `remove_edge`
returns the mesh unchanged.  In both cases the node, edge and face lists
are identical to the ones before the call. -/
theorem c3_disconnect_abort :
    (∀ (m : Mesh) (g : Coord) (i n0 : Nat) (rest : List Nat),
      idxFirst m.nodes (toLocal m g) = some i →
      (incidentEdges m.edges i).2 = n0 :: rest →
      rest ≠ [] →
      nodes_connected m.edges n0 rest [i] (incidentEdges m.edges i).1 = false →
      remove_node m g = m) ∧
    (∀ (m : Mesh) (g1 g2 : Coord) (j1 j2 k : Nat),
      idxLast m.nodes (toLocal m g1) = some j1 →
      idxLast m.nodes (toLocal m g2) = some j2 →
      findEdgeIdx m.edges j1 j2 = some k →
      nodes_connected m.edges j1 [j2] [] [k] = false →
      remove_edge m g1 g2 = m) := by
  constructor
  · intro m g i n0 rest h1 h2 h3 h4
    obtain ⟨r, rs, rfl⟩ := List.exists_cons_of_ne_nil h3
    unfold remove_node
    simp only [h1, h2, h4]
    by_cases hp : toLocal m g = (0, 0) <;> simp [hp]
  · intro m g1 g2 j1 j2 k h1 h2 h3 h4
    unfold remove_edge
    simp only [h1, h2, h3, h4]
    simp

/-- C3, witness: in the path mesh `(0,0) - (1,0) - (2,0)`, removing the
middle node would disconnect its two neighbors and removing either edge
would disconnect its endpoints; both calls leave the mesh unchanged. -/
theorem c3_disconnect_abort_witness :
    remove_node
      { pos := (0, 0), nodes := [(0, 0), (1, 0), (2, 0)],
        edges := [(0, 1), (1, 2)], faces := [] } (1, 0) =
      { pos := (0, 0), nodes := [(0, 0), (1, 0), (2, 0)],
        edges := [(0, 1), (1, 2)], faces := [] } ∧
    remove_edge
      { pos := (0, 0), nodes := [(0, 0), (1, 0), (2, 0)],
        edges := [(0, 1), (1, 2)], faces := [] } (1, 0) (2, 0) =
      { pos := (0, 0), nodes := [(0, 0), (1, 0), (2, 0)],
        edges := [(0, 1), (1, 2)], faces := [] } :=
  ⟨c3_disconnect_abort.1 _ (1, 0) 1 0 [2] (by decide) (by decide) (by decide)
    (by decide),
   c3_disconnect_abort.2 _ (1, 0) (2, 0) 1 2 1 (by decide) (by decide) (by decide)
    (by decide)⟩

/-! ### C2: merge idempotence -/

theorem getD_of_get? {α : Type} {l : List α} {i : Nat} {c d : α}
    (h : l.get? i = some c) : l.getD i d = c := by
  induction l generalizing i with
  | nil => simp at h
  | cons a as ih =>
    cases i with
    | zero =>
      simp only [List.get?, Option.some.injEq] at h
      exact h
    | succ n => exact ih h

theorem idxFirst_filter_of_nodup {bs : List Coord} {P : Coord → Bool} {i : Nat} {c : Coord}
    (hnd : bs.Nodup) (hg : bs.get? i = some c) (hc : P c = true) :
    idxFirst (bs.filter P) c = some ((bs.take i).filter P).length := by
  induction bs generalizing i with
  | nil => simp at hg
  | cons a as ih =>
    cases i with
    | zero =>
      simp only [List.get?] at hg
      injection hg with hg
      subst hg
      rw [List.filter_cons_of_pos hc]
      simp [idxFirst]
    | succ n =>
      have hga : as.get? n = some c := hg
      have hmem : c ∈ as := List.get?_mem hga
      have hane : a ≠ c := fun h => (List.nodup_cons.mp hnd).1 (h ▸ hmem)
      have ihn := ih (List.nodup_cons.mp hnd).2 hga
      cases hPa : P a with
      | true =>
        simp [List.filter_cons, hPa, idxFirst, hane, ihn, List.take_succ_cons]
      | false =>
        simp [List.filter_cons, hPa, ihn, List.take_succ_cons]

theorem mergeResolve_stable (sn : List Coord) {bs : List Coord} (hnd : bs.Nodup)
    {i : Nat} {c : Coord} (hg : bs.get? i = some c) :
    idxFirst (sn ++ mergeNewNodes sn bs) c = some (mergeResolve sn bs i) := by
  have hD : bs.getD i (0, 0) = c := getD_of_get? hg
  cases h : idxFirst sn c with
  | some j =>
    rw [idxFirst_append_left h]
    simp only [mergeResolve, hD, h]
  | none =>
    rw [idxFirst_append_right h]
    rw [mergeNewNodes, idxFirst_filter_of_nodup hnd hg (by simp [h])]
    simp only [mergeResolve, hD, h, Option.map_some']
    congr 1
    omega

theorem mesh_append_nil (m : Mesh) :
    ({ m with
      nodes := m.nodes ++ []
      edges := m.edges ++ []
      faces := m.faces ++ [] } : Mesh) = m := by
  cases m
  simp

theorem merge_resolve_eq (A B : Mesh) (hnd : (mergeBs A B).Nodup) {i : Nat}
    (hi : i < (mergeBs A B).length) :
    mergeResolve (merge_with A B).nodes (mergeBs A B) i =
      mergeResolve A.nodes (mergeBs A B) i ∧
    mergeShared (merge_with A B).nodes (mergeBs A B) i = true := by
  obtain ⟨c, hc⟩ : ∃ c, (mergeBs A B).get? i = some c := by
    cases hq : (mergeBs A B).get? i with
    | none => exact absurd (List.get?_eq_none.mp hq) (by omega)
    | some v => exact ⟨v, rfl⟩
  have hst := mergeResolve_stable A.nodes hnd hc
  have hD : (mergeBs A B).getD i (0, 0) = c := getD_of_get? hc
  have hnodes : (merge_with A B).nodes = A.nodes ++ mergeNewNodes A.nodes (mergeBs A B) := rfl
  constructor
  · conv_lhs => rw [mergeResolve, hD, hnodes, hst]
  · rw [mergeShared, hD, hnodes, hst]
    rfl

theorem merge_newNodes_idem (A B : Mesh) :
    mergeNewNodes (merge_with A B).nodes (mergeBs A B) = [] := by
  rw [mergeNewNodes, List.filter_eq_nil_iff]
  intro c hc
  have hmem : c ∈ (merge_with A B).nodes := by
    show c ∈ A.nodes ++ mergeNewNodes A.nodes (mergeBs A B)
    rw [List.mem_append]
    by_cases h : idxFirst A.nodes c = none
    · exact Or.inr (List.mem_filter.mpr ⟨hc, by simp [h]⟩)
    · cases hq : idxFirst A.nodes c with
      | none => exact absurd hq h
      | some j =>
        refine Or.inl ?_
        have := idxFirst_get? hq
        exact List.get?_mem this
  simp only [decide_eq_true_eq]
  intro hnone
  exact (idxFirst_eq_none.mp hnone) hmem

/-- C2: `mergeWith` is idempotent.  For meshes `A` and `B`, where `B`
satisfies the data model (duplicate-free node coordinates, edge and face
indices in range), merging `B` into `A` twice yields exactly the mesh
obtained by merging once: the second call finds every rebased node
shared, every remapped edge and face already present, and adds
nothing. -/
theorem c2_merge_idempotent (A B : Mesh) (hnd : B.nodes.Nodup)
    (hev : ∀ e ∈ B.edges, e.1 < B.nodes.length ∧ e.2 < B.nodes.length)
    (hfv : ∀ f ∈ B.faces, f.1 < B.nodes.length ∧ f.2.1 < B.nodes.length ∧
      f.2.2 < B.nodes.length) :
    merge_with (merge_with A B) B = merge_with A B := by
  have hbnd : (mergeBs A B).Nodup := by
    refine List.Nodup.map ?_ hnd
    intro x y hxy
    have h1 : x.1 + (B.pos.1 - A.pos.1) = y.1 + (B.pos.1 - A.pos.1) := congrArg Prod.fst hxy
    have h2 : x.2 + (B.pos.2 - A.pos.2) = y.2 + (B.pos.2 - A.pos.2) := congrArg Prod.snd hxy
    exact Prod.ext (by omega) (by omega)
  have hlen : (mergeBs A B).length = B.nodes.length := List.length_map _ _
  have hbs' : mergeBs (merge_with A B) B = mergeBs A B := rfl
  have hedges : B.edges.filterMap (mergeEdgeMap (merge_with A B) (mergeBs A B)) = [] := by
    rw [List.filterMap_eq_nil_iff]
    intro e he
    have h1 := merge_resolve_eq A B hbnd (i := e.1) (by rw [hlen]; exact (hev e he).1)
    have h2 := merge_resolve_eq A B hbnd (i := e.2) (by rw [hlen]; exact (hev e he).2)
    rw [mergeEdgeMap, h1.1, h2.1, if_pos]
    refine ⟨by rw [h1.2], by rw [h2.2], ?_⟩
    by_cases hc : mergeShared A.nodes (mergeBs A B) e.1 = true ∧
        mergeShared A.nodes (mergeBs A B) e.2 = true ∧
        contains_edge A (mergeResolve A.nodes (mergeBs A B) e.1,
          mergeResolve A.nodes (mergeBs A B) e.2) = true
    · show containsEdgeL ((merge_with A B).edges) _ = true
      have heq : (merge_with A B).edges = A.edges ++
          B.edges.filterMap (mergeEdgeMap A (mergeBs A B)) := rfl
      rw [heq, containsEdgeL_append, Bool.or_eq_true]
      exact Or.inl hc.2.2
    · have hsome : mergeEdgeMap A (mergeBs A B) e =
          some (mergeResolve A.nodes (mergeBs A B) e.1,
            mergeResolve A.nodes (mergeBs A B) e.2) := by
        rw [mergeEdgeMap, if_neg]
        intro hcon
        exact hc ⟨by simp [hcon.1], by simp [hcon.2.1], hcon.2.2⟩
      have hmem : (mergeResolve A.nodes (mergeBs A B) e.1,
          mergeResolve A.nodes (mergeBs A B) e.2) ∈ (merge_with A B).edges := by
        show _ ∈ A.edges ++ B.edges.filterMap (mergeEdgeMap A (mergeBs A B))
        exact List.mem_append.mpr (Or.inr (List.mem_filterMap.mpr ⟨e, he, hsome⟩))
      exact containsEdgeL_of_mem hmem
  have hfaces : B.faces.filterMap (mergeFaceMap (merge_with A B) (mergeBs A B)) = [] := by
    rw [List.filterMap_eq_nil_iff]
    intro f hf
    have h1 := merge_resolve_eq A B hbnd (i := f.1) (by rw [hlen]; exact (hfv f hf).1)
    have h2 := merge_resolve_eq A B hbnd (i := f.2.1) (by rw [hlen]; exact (hfv f hf).2.1)
    have h3 := merge_resolve_eq A B hbnd (i := f.2.2) (by rw [hlen]; exact (hfv f hf).2.2)
    rw [mergeFaceMap, h1.1, h2.1, h3.1, if_pos]
    refine ⟨by rw [h1.2], by rw [h2.2], by rw [h3.2], ?_⟩
    by_cases hc : mergeShared A.nodes (mergeBs A B) f.1 = true ∧
        mergeShared A.nodes (mergeBs A B) f.2.1 = true ∧
        mergeShared A.nodes (mergeBs A B) f.2.2 = true ∧
        contains_face A (mergeResolve A.nodes (mergeBs A B) f.1,
          mergeResolve A.nodes (mergeBs A B) f.2.1,
          mergeResolve A.nodes (mergeBs A B) f.2.2) = true
    · show containsFaceL ((merge_with A B).faces) _ = true
      have heq : (merge_with A B).faces = A.faces ++
          B.faces.filterMap (mergeFaceMap A (mergeBs A B)) := rfl
      rw [heq, containsFaceL_append, Bool.or_eq_true]
      exact Or.inl hc.2.2.2
    · have hsome : mergeFaceMap A (mergeBs A B) f =
          some (mergeResolve A.nodes (mergeBs A B) f.1,
            mergeResolve A.nodes (mergeBs A B) f.2.1,
            mergeResolve A.nodes (mergeBs A B) f.2.2) := by
        rw [mergeFaceMap, if_neg]
        intro hcon
        exact hc ⟨by simp [hcon.1], by simp [hcon.2.1], by simp [hcon.2.2.1], hcon.2.2.2⟩
      have hmem : (mergeResolve A.nodes (mergeBs A B) f.1,
          mergeResolve A.nodes (mergeBs A B) f.2.1,
          mergeResolve A.nodes (mergeBs A B) f.2.2) ∈ (merge_with A B).faces := by
        show _ ∈ A.faces ++ B.faces.filterMap (mergeFaceMap A (mergeBs A B))
        exact List.mem_append.mpr (Or.inr (List.mem_filterMap.mpr ⟨f, hf, hsome⟩))
      exact containsFaceL_of_mem hmem
  show ({ merge_with A B with
    nodes := (merge_with A B).nodes ++ mergeNewNodes (merge_with A B).nodes (mergeBs A B)
    edges := (merge_with A B).edges ++
      B.edges.filterMap (mergeEdgeMap (merge_with A B) (mergeBs A B))
    faces := (merge_with A B).faces ++
      B.faces.filterMap (mergeFaceMap (merge_with A B) (mergeBs A B)) } : Mesh) =
    merge_with A B
  rw [merge_newNodes_idem A B, hedges, hfaces]
  exact mesh_append_nil (merge_with A B)

/-- C2, witness: the idempotence theorem applied to the triangle mesh
and a two-node path positioned one unit to the right. -/
theorem c2_merge_idempotent_witness :
    merge_with
      (merge_with
        { pos := (0, 0), nodes := [(0, 0), (1, 0), (0, 1)],
          edges := [(0, 1), (0, 2), (1, 2)], faces := [(0, 1, 2)] }
        { pos := (1, 0), nodes := [(0, 0), (1, 0)], edges := [(0, 1)], faces := [] })
      { pos := (1, 0), nodes := [(0, 0), (1, 0)], edges := [(0, 1)], faces := [] } =
    merge_with
      { pos := (0, 0), nodes := [(0, 0), (1, 0), (0, 1)],
        edges := [(0, 1), (0, 2), (1, 2)], faces := [(0, 1, 2)] }
      { pos := (1, 0), nodes := [(0, 0), (1, 0)], edges := [(0, 1)], faces := [] } :=
  c2_merge_idempotent _ _ (by decide) (by decide) (by decide)

/-! ### C1: the mesh data-model invariant -/

/-- The data-model invariant of the mesh: no two nodes share a
coordinate, the head of the node list is the origin `(0, 0)`, every
edge's endpoints are valid node indices, there are no duplicate edges or
faces under order-independent equality, and each of every face's three
edges is present in the edge list. -/
def MeshInv (m : Mesh) : Prop :=
  m.nodes.Nodup ∧
  m.nodes.head? = some (0, 0) ∧
  (∀ e ∈ m.edges, e.1 < m.nodes.length ∧ e.2 < m.nodes.length) ∧
  m.edges.Pairwise (fun a b => edgeEqB a b = false) ∧
  m.faces.Pairwise (fun a b => setEqT a b = false) ∧
  (∀ f ∈ m.faces, containsEdgeL m.edges (f.1, f.2.1) = true ∧
    containsEdgeL m.edges (f.1, f.2.2) = true ∧
    containsEdgeL m.edges (f.2.1, f.2.2) = true)

instance (m : Mesh) : Decidable (MeshInv m) := by
  unfold MeshInv
  infer_instance

/-- One call to a mutation entry point of the mesh engine, with its
arguments. -/
inductive MeshOp where
  | addE (p1 p2 : Coord)
  | addF (p1 p2 p3 : Coord)
  | remN (p : Coord)
  | remE (p1 p2 : Coord)
  | remF (p1 p2 p3 : Coord)
  | merge (other : Mesh)

/-- Apply one mutation call to a mesh. -/
def applyOp (m : Mesh) : MeshOp → Mesh
  | .addE p1 p2 => add_edge m p1 p2
  | .addF p1 p2 p3 => add_face m p1 p2 p3
  | .remN p => remove_node m p
  | .remE p1 p2 => remove_edge m p1 p2
  | .remF p1 p2 p3 => remove_face m p1 p2 p3
  | .merge other => merge_with m other

/-- The restriction forced by the counterexample: an `addFace` call must
name three pairwise-distinct coordinates, and a `mergeWith` argument must
itself satisfy the data-model invariant. -/
def opValid : MeshOp → Prop
  | .addF p1 p2 p3 => p1 ≠ p2 ∧ p1 ≠ p3 ∧ p2 ≠ p3
  | .merge other => MeshInv other
  | _ => True

/-- C1, counterexample: the claim quantifies over every sequence of
calls, but an `add_face` call whose triple repeats a coordinate breaks
the invariant.  On the freshly created shape (origin node only),
`add_face((1,0), (1,0), (0,0))` appends the node `(1, 0)` twice, so two
nodes share a coordinate afterwards. -/
theorem c1_counterexample :
    MeshInv { pos := (0, 0), nodes := [(0, 0)], edges := [], faces := [] } ∧
    ¬ MeshInv (applyOp { pos := (0, 0), nodes := [(0, 0)], edges := [], faces := [] }
      (MeshOp.addF (1, 0) (1, 0) (0, 0))) := by
  constructor
  · decide
  · decide

/-! Small equivalence lemmas about the order-independent comparisons. -/

theorem edgeEqB_iff {x e : Nat × Nat} :
    edgeEqB x e = true ↔ (x.1 = e.1 ∧ x.2 = e.2) ∨ (x.1 = e.2 ∧ x.2 = e.1) := by
  simp [edgeEqB]

theorem edgeEqB_comm {x e : Nat × Nat} : edgeEqB x e = edgeEqB e x := by
  rw [Bool.eq_iff_iff, edgeEqB_iff, edgeEqB_iff]
  tauto

theorem edgeEqB_trans {x y z : Nat × Nat} (h1 : edgeEqB x y = true)
    (h2 : edgeEqB y z = true) : edgeEqB x z = true := by
  rw [edgeEqB_iff] at h1 h2 ⊢
  rcases h1 with ⟨a1, a2⟩ | ⟨a1, a2⟩ <;> rcases h2 with ⟨b1, b2⟩ | ⟨b1, b2⟩ <;>
    simp [a1, a2, b1, b2]

theorem memT_iff {a : Nat} {f : Nat × Nat × Nat} :
    memT a f = true ↔ a = f.1 ∨ a = f.2.1 ∨ a = f.2.2 := by
  simp [memT, or_assoc]

theorem memT_self1 (f : Nat × Nat × Nat) : memT f.1 f = true := by
  rw [memT_iff]; left; rfl

theorem memT_self2 (f : Nat × Nat × Nat) : memT f.2.1 f = true := by
  rw [memT_iff]; right; left; rfl

theorem memT_self3 (f : Nat × Nat × Nat) : memT f.2.2 f = true := by
  rw [memT_iff]; right; right; rfl

theorem setEqT_unfold {f g : Nat × Nat × Nat} :
    setEqT f g = true ↔ memT f.1 g = true ∧ memT f.2.1 g = true ∧
      memT f.2.2 g = true ∧ memT g.1 f = true ∧ memT g.2.1 f = true ∧
      memT g.2.2 f = true := by
  simp [setEqT, Bool.and_eq_true, and_assoc]

theorem setEqT_iff {f g : Nat × Nat × Nat} :
    setEqT f g = true ↔ ∀ a, memT a f = memT a g := by
  constructor
  · intro h a
    obtain ⟨h1, h2, h3, h4, h5, h6⟩ := setEqT_unfold.mp h
    cases hf : memT a f with
    | true =>
      rw [memT_iff] at hf
      rcases hf with rfl | rfl | rfl
      · exact h1.symm
      · exact h2.symm
      · exact h3.symm
    | false =>
      cases hg : memT a g with
      | false => rfl
      | true =>
        exfalso
        rw [memT_iff] at hg
        rcases hg with rfl | rfl | rfl
        · rw [h4] at hf; exact Bool.noConfusion hf
        · rw [h5] at hf; exact Bool.noConfusion hf
        · rw [h6] at hf; exact Bool.noConfusion hf
  · intro h
    rw [setEqT_unfold]
    exact ⟨by rw [← h]; exact memT_self1 f, by rw [← h]; exact memT_self2 f,
      by rw [← h]; exact memT_self3 f, by rw [h]; exact memT_self1 g,
      by rw [h]; exact memT_self2 g, by rw [h]; exact memT_self3 g⟩

theorem setEqT_comm {f g : Nat × Nat × Nat} : setEqT f g = setEqT g f := by
  rw [Bool.eq_iff_iff, setEqT_iff, setEqT_iff]
  constructor <;> intro h a <;> exact (h a).symm

theorem setEqT_trans {f g h : Nat × Nat × Nat} (h1 : setEqT f g = true)
    (h2 : setEqT g h = true) : setEqT f h = true := by
  rw [setEqT_iff] at h1 h2 ⊢
  intro a
  rw [h1 a, h2 a]

theorem containsEdgeL_eq_false_iff {es : List (Nat × Nat)} {e : Nat × Nat} :
    containsEdgeL es e = false ↔ ∀ x ∈ es, edgeEqB x e = false := by
  simp [containsEdgeL, List.any_eq_false]

theorem containsFaceL_eq_false_iff {fs : List (Nat × Nat × Nat)} {f : Nat × Nat × Nat} :
    containsFaceL fs f = false ↔ ∀ x ∈ fs, setEqT x f = false := by
  simp [containsFaceL, List.any_eq_false]

theorem containsEdgeL_mono {es ts : List (Nat × Nat)} {e : Nat × Nat}
    (h : containsEdgeL es e = true) : containsEdgeL (es ++ ts) e = true := by
  rw [containsEdgeL_append, h]
  rfl

theorem containsFaceL_mono {fs ts : List (Nat × Nat × Nat)} {f : Nat × Nat × Nat}
    (h : containsFaceL fs f = true) : containsFaceL (fs ++ ts) f = true := by
  rw [containsFaceL_append, h]
  rfl

theorem head?_append_of_eq {ns ts : List Coord} {c : Coord}
    (h : ns.head? = some c) : (ns ++ ts).head? = some c := by
  cases ns with
  | nil => simp at h
  | cons a as => simpa using h

/-- Appending one fresh node and one edge from a valid index to the
fresh index preserves the invariant (the one-endpoint-missing branch of
`add_edge`). -/
theorem meshInv_extend_node_edge {m : Mesh} (h : MeshInv m) {p : Coord} {a : Nat}
    (hnew : p ∉ m.nodes) (ha : a < m.nodes.length) :
    MeshInv { m with
      nodes := m.nodes ++ [p]
      edges := m.edges ++ [(a, m.nodes.length)] } := by
  obtain ⟨hnd, hor, hev, hen, hfn, hfe⟩ := h
  refine ⟨?_, ?_, ?_, ?_, hfn, ?_⟩
  · rw [List.nodup_append]
    refine ⟨hnd, List.nodup_singleton p, fun x hx hp => ?_⟩
    simp only [List.mem_singleton] at hp
    subst hp
    exact hnew hx
  · exact head?_append_of_eq hor
  · intro e he
    rw [List.mem_append] at he
    simp only [List.length_append, List.length_singleton]
    rcases he with he | he
    · have := hev e he
      omega
    · simp only [List.mem_singleton] at he
      subst he
      simp only
      omega
  · rw [List.pairwise_append]
    refine ⟨hen, List.pairwise_singleton _ _, ?_⟩
    intro x hx y hy
    simp only [List.mem_singleton] at hy
    subst hy
    have hb := hev x hx
    cases hq : edgeEqB x (a, m.nodes.length) with
    | false => rfl
    | true =>
      rw [edgeEqB_iff] at hq
      simp only at hq
      omega
  · intro f hf
    obtain ⟨c1, c2, c3⟩ := hfe f hf
    exact ⟨containsEdgeL_mono c1, containsEdgeL_mono c2, containsEdgeL_mono c3⟩

/-- Appending a new edge between two valid indices, guarded by the
containment check, preserves the invariant (the both-endpoints-present
branch of `add_edge`). -/
theorem meshInv_push_edge {m : Mesh} (h : MeshInv m) {a b : Nat}
    (ha : a < m.nodes.length) (hb : b < m.nodes.length)
    (hc : containsEdgeL m.edges (a, b) = false) :
    MeshInv { m with edges := m.edges ++ [(a, b)] } := by
  obtain ⟨hnd, hor, hev, hen, hfn, hfe⟩ := h
  refine ⟨hnd, hor, ?_, ?_, hfn, ?_⟩
  · intro e he
    rw [List.mem_append] at he
    rcases he with he | he
    · exact hev e he
    · simp only [List.mem_singleton] at he
      subst he
      exact ⟨ha, hb⟩
  · rw [List.pairwise_append]
    refine ⟨hen, List.pairwise_singleton _ _, ?_⟩
    intro x hx y hy
    simp only [List.mem_singleton] at hy
    subst hy
    exact containsEdgeL_eq_false_iff.mp hc x hx
  · intro f hf
    obtain ⟨c1, c2, c3⟩ := hfe f hf
    exact ⟨containsEdgeL_mono c1, containsEdgeL_mono c2, containsEdgeL_mono c3⟩

/-- `add_edge` preserves the invariant for arbitrary inputs. -/
theorem meshInv_add_edge {m : Mesh} (h : MeshInv m) (p1g p2g : Coord) :
    MeshInv (add_edge m p1g p2g) := by
  simp only [add_edge]
  split
  · exact h
  · next a b h1 h2 =>
    split
    · exact h
    · next hc =>
      exact meshInv_push_edge h (idxLast_lt_length h1) (idxLast_lt_length h2)
        (Bool.not_eq_true _ ▸ hc)
  · next a h1 h2 =>
    exact meshInv_extend_node_edge h (idxLast_eq_none.mp h2) (idxLast_lt_length h1)
  · next b h1 h2 =>
    exact meshInv_extend_node_edge h (idxLast_eq_none.mp h1) (idxLast_lt_length h2)

/-- `remove_face` preserves the invariant: it only drops a face. -/
theorem meshInv_remove_face {m : Mesh} (h : MeshInv m) (g1 g2 g3 : Coord) :
    MeshInv (remove_face m g1 g2 g3) := by
  simp only [remove_face]
  split
  · split
    · split
      · next f hq =>
        obtain ⟨hnd, hor, hev, hen, hfn, hfe⟩ := h
        refine ⟨hnd, hor, hev, hen, ?_, ?_⟩
        · exact hfn.sublist (List.erase_sublist f m.faces)
        · intro f' hf'
          exact hfe f' ((List.erase_sublist f m.faces).mem hf')
      · exact h
    · exact h
  · exact h

/-! Lemmas about the `add_face` steps. -/

theorem addEdgeIdx_append (es : List (Nat × Nat)) (k l : Nat) :
    ∃ ts, addEdgeIdx es k l = es ++ ts := by
  unfold addEdgeIdx
  split
  · exact ⟨[], (List.append_nil es).symm⟩
  · exact ⟨[(k, l)], rfl⟩

theorem addEdgeIdx_valid {es : List (Nat × Nat)} {n : Nat}
    (hok : ∀ e ∈ es, e.1 < n ∧ e.2 < n) {k l : Nat} (hk : k < n) (hl : l < n) :
    ∀ e ∈ addEdgeIdx es k l, e.1 < n ∧ e.2 < n := by
  unfold addEdgeIdx
  split
  · exact hok
  · intro e he
    rw [List.mem_append] at he
    rcases he with he | he
    · exact hok e he
    · simp only [List.mem_singleton] at he
      subst he
      exact ⟨hk, hl⟩

theorem addEdgeIdx_pairwise {es : List (Nat × Nat)}
    (hp : es.Pairwise fun a b => edgeEqB a b = false) (k l : Nat) :
    (addEdgeIdx es k l).Pairwise fun a b => edgeEqB a b = false := by
  unfold addEdgeIdx
  split
  · exact hp
  · next hc =>
    rw [List.pairwise_append]
    refine ⟨hp, List.pairwise_singleton _ _, ?_⟩
    intro x hx y hy
    simp only [List.mem_singleton] at hy
    subst hy
    exact containsEdgeL_eq_false_iff.mp (Bool.not_eq_true _ ▸ hc) x hx

theorem addEdgeIdx_contains (es : List (Nat × Nat)) (k l : Nat) :
    containsEdgeL (addEdgeIdx es k l) (k, l) = true := by
  unfold addEdgeIdx
  split
  · next hc => exact hc
  · exact containsEdgeL_iff.mpr ⟨(k, l), by simp, edgeEqB_refl _⟩

theorem addEdgeIdx_mono {es : List (Nat × Nat)} {x : Nat × Nat}
    (h : containsEdgeL es x = true) (k l : Nat) :
    containsEdgeL (addEdgeIdx es k l) x = true := by
  obtain ⟨ts, ht⟩ := addEdgeIdx_append es k l
  rw [ht]
  exact containsEdgeL_mono h

theorem addFaceIdx_pairwise {fs : List (Nat × Nat × Nat)}
    (hp : fs.Pairwise fun a b => setEqT a b = false) (f : Nat × Nat × Nat) :
    (addFaceIdx fs f).Pairwise fun a b => setEqT a b = false := by
  unfold addFaceIdx
  split
  · exact hp
  · next hc =>
    rw [List.pairwise_append]
    refine ⟨hp, List.pairwise_singleton _ _, ?_⟩
    intro x hx y hy
    simp only [List.mem_singleton] at hy
    subst hy
    exact containsFaceL_eq_false_iff.mp (Bool.not_eq_true _ ▸ hc) x hx

theorem addFaceIdx_mem {fs : List (Nat × Nat × Nat)} {x : Nat × Nat × Nat}
    (hx : x ∈ addFaceIdx fs f) : x ∈ fs ∨ x = f := by
  unfold addFaceIdx at hx
  split at hx
  · exact Or.inl hx
  · rw [List.mem_append] at hx
    rcases hx with hx | hx
    · exact Or.inl hx
    · simp only [List.mem_singleton] at hx
      exact Or.inr hx

/-- The common core of the `add_face` invariant proof: with the extended
node list in hand and the three indices in range, the edge chain and the
face append preserve every invariant field. -/
theorem meshInv_add_face_core {m : Mesh} (h : MeshInv m) (ns : List Coord)
    (k1 k2 k3 : Nat) (hext : ∃ ts, ns = m.nodes ++ ts) (hnd : ns.Nodup)
    (hhd : ns.head? = some (0, 0)) (hk1 : k1 < ns.length) (hk2 : k2 < ns.length)
    (hk3 : k3 < ns.length) :
    MeshInv { m with
      nodes := ns
      edges := addEdgeIdx (addEdgeIdx (addEdgeIdx m.edges k1 k2) k1 k3) k2 k3
      faces := addFaceIdx m.faces (k1, k2, k3) } := by
  obtain ⟨hnd0, hor, hev, hen, hfn, hfe⟩ := h
  obtain ⟨ts, hts⟩ := hext
  have hlen : m.nodes.length ≤ ns.length := by
    rw [hts, List.length_append]
    omega
  have hev' : ∀ e ∈ m.edges, e.1 < ns.length ∧ e.2 < ns.length := by
    intro e he
    have := hev e he
    omega
  have hemono : ∀ x, containsEdgeL m.edges x = true →
      containsEdgeL (addEdgeIdx (addEdgeIdx (addEdgeIdx m.edges k1 k2) k1 k3) k2 k3)
        x = true := by
    intro x hx
    exact addEdgeIdx_mono (addEdgeIdx_mono (addEdgeIdx_mono hx k1 k2) k1 k3) k2 k3
  refine ⟨hnd, hhd, ?_, ?_, ?_, ?_⟩
  · exact addEdgeIdx_valid (addEdgeIdx_valid (addEdgeIdx_valid hev' hk1 hk2) hk1 hk3)
      hk2 hk3
  · exact addEdgeIdx_pairwise (addEdgeIdx_pairwise (addEdgeIdx_pairwise hen _ _) _ _) _ _
  · exact addFaceIdx_pairwise hfn _
  · intro f hf
    rcases addFaceIdx_mem hf with hf | hf
    · obtain ⟨c1, c2, c3⟩ := hfe f hf
      exact ⟨hemono _ c1, hemono _ c2, hemono _ c3⟩
    · subst hf
      refine ⟨?_, ?_, ?_⟩
      · exact addEdgeIdx_mono (addEdgeIdx_mono (addEdgeIdx_contains m.edges k1 k2)
          k1 k3) k2 k3
      · exact addEdgeIdx_mono (addEdgeIdx_contains (addEdgeIdx m.edges k1 k2) k1 k3)
          k2 k3
      · exact addEdgeIdx_contains _ k2 k3

theorem toLocal_inj {m : Mesh} {a b : Coord} (h : a ≠ b) :
    toLocal m a ≠ toLocal m b := by
  intro hc
  apply h
  unfold toLocal at hc
  rw [Prod.ext_iff] at hc ⊢
  simp only at hc
  omega

theorem nodup_append_singleton {ns : List Coord} {p : Coord}
    (hnd : ns.Nodup) (hp : p ∉ ns) : (ns ++ [p]).Nodup := by
  rw [List.nodup_append]
  refine ⟨hnd, List.nodup_singleton p, fun x hx hq => ?_⟩
  simp only [List.mem_singleton] at hq
  subst hq
  exact hp hx

theorem not_mem_append_singleton {ns : List Coord} {p q : Coord}
    (hp : p ∉ ns) (hpq : p ≠ q) : p ∉ ns ++ [q] := by
  rw [List.mem_append]
  rintro (hc | hc)
  · exact hp hc
  · simp only [List.mem_singleton] at hc
    exact hpq hc

/-- `add_face` preserves the invariant when the three corner coordinates
are pairwise distinct (the restriction forced by the counterexample). -/
theorem meshInv_add_face {m : Mesh} (h : MeshInv m) {p1g p2g p3g : Coord}
    (h12 : p1g ≠ p2g) (h13 : p1g ≠ p3g) (h23 : p2g ≠ p3g) :
    MeshInv (add_face m p1g p2g p3g) := by
  have q12 := toLocal_inj (m := m) h12
  have q13 := toLocal_inj (m := m) h13
  have q23 := toLocal_inj (m := m) h23
  have hnd0 := h.1
  have hor0 := h.2.1
  simp only [add_face]
  split
  · exact h
  · cases hj1 : idxLast m.nodes (toLocal m p1g) with
    | some a1 =>
      cases hj2 : idxLast m.nodes (toLocal m p2g) with
      | some a2 =>
        cases hj3 : idxLast m.nodes (toLocal m p3g) with
        | some a3 =>
          exact meshInv_add_face_core h m.nodes a1 a2 a3
            ⟨[], (List.append_nil _).symm⟩ hnd0 hor0
            (idxLast_lt_length hj1) (idxLast_lt_length hj2) (idxLast_lt_length hj3)
        | none =>
          have hm3 := idxLast_eq_none.mp hj3
          have hb1 := idxLast_lt_length hj1
          have hb2 := idxLast_lt_length hj2
          exact meshInv_add_face_core h (m.nodes ++ [toLocal m p3g]) a1 a2
            m.nodes.length ⟨_, rfl⟩ (nodup_append_singleton hnd0 hm3)
            (head?_append_of_eq hor0)
            (by simp only [List.length_append, List.length_singleton]; omega)
            (by simp only [List.length_append, List.length_singleton]; omega)
            (by simp only [List.length_append, List.length_singleton]; omega)
      | none =>
        have hm2 := idxLast_eq_none.mp hj2
        cases hj3 : idxLast m.nodes (toLocal m p3g) with
        | some a3 =>
          have hb1 := idxLast_lt_length hj1
          have hb3 := idxLast_lt_length hj3
          exact meshInv_add_face_core h (m.nodes ++ [toLocal m p2g]) a1
            m.nodes.length a3 ⟨_, rfl⟩ (nodup_append_singleton hnd0 hm2)
            (head?_append_of_eq hor0)
            (by simp only [List.length_append, List.length_singleton]; omega)
            (by simp only [List.length_append, List.length_singleton]; omega)
            (by simp only [List.length_append, List.length_singleton]; omega)
        | none =>
          have hm3 := idxLast_eq_none.mp hj3
          have hb1 := idxLast_lt_length hj1
          exact meshInv_add_face_core h ((m.nodes ++ [toLocal m p2g]) ++ [toLocal m p3g])
            a1 m.nodes.length (m.nodes ++ [toLocal m p2g]).length ⟨_, by
              rw [List.append_assoc]⟩
            (nodup_append_singleton (nodup_append_singleton hnd0 hm2)
              (not_mem_append_singleton hm3 (Ne.symm q23)))
            (head?_append_of_eq (head?_append_of_eq hor0))
            (by simp only [List.length_append, List.length_singleton]; omega)
            (by simp only [List.length_append, List.length_singleton]; omega)
            (by simp only [List.length_append, List.length_singleton]; omega)
    | none =>
      have hm1 := idxLast_eq_none.mp hj1
      cases hj2 : idxLast m.nodes (toLocal m p2g) with
      | some a2 =>
        cases hj3 : idxLast m.nodes (toLocal m p3g) with
        | some a3 =>
          have hb2 := idxLast_lt_length hj2
          have hb3 := idxLast_lt_length hj3
          exact meshInv_add_face_core h (m.nodes ++ [toLocal m p1g]) m.nodes.length
            a2 a3 ⟨_, rfl⟩ (nodup_append_singleton hnd0 hm1)
            (head?_append_of_eq hor0)
            (by simp only [List.length_append, List.length_singleton]; omega)
            (by simp only [List.length_append, List.length_singleton]; omega)
            (by simp only [List.length_append, List.length_singleton]; omega)
        | none =>
          have hm3 := idxLast_eq_none.mp hj3
          have hb2 := idxLast_lt_length hj2
          exact meshInv_add_face_core h ((m.nodes ++ [toLocal m p1g]) ++ [toLocal m p3g])
            m.nodes.length a2 (m.nodes ++ [toLocal m p1g]).length ⟨_, by
              rw [List.append_assoc]⟩
            (nodup_append_singleton (nodup_append_singleton hnd0 hm1)
              (not_mem_append_singleton hm3 (Ne.symm q13)))
            (head?_append_of_eq (head?_append_of_eq hor0))
            (by simp only [List.length_append, List.length_singleton]; omega)
            (by simp only [List.length_append, List.length_singleton]; omega)
            (by simp only [List.length_append, List.length_singleton]; omega)
      | none =>
        have hm2 := idxLast_eq_none.mp hj2
        cases hj3 : idxLast m.nodes (toLocal m p3g) with
        | some a3 =>
          have hb3 := idxLast_lt_length hj3
          exact meshInv_add_face_core h ((m.nodes ++ [toLocal m p1g]) ++ [toLocal m p2g])
            m.nodes.length (m.nodes ++ [toLocal m p1g]).length a3 ⟨_, by
              rw [List.append_assoc]⟩
            (nodup_append_singleton (nodup_append_singleton hnd0 hm1)
              (not_mem_append_singleton hm2 (Ne.symm q12)))
            (head?_append_of_eq (head?_append_of_eq hor0))
            (by simp only [List.length_append, List.length_singleton]; omega)
            (by simp only [List.length_append, List.length_singleton]; omega)
            (by simp only [List.length_append, List.length_singleton]; omega)
        | none =>
          next hng =>
            exact absurd ⟨hj1, hj2, hj3⟩ hng

/-! Lemmas about value-wise erasure, used by the removal operations. -/

theorem findEdgeIdx_spec {es : List (Nat × Nat)} {j1 j2 k : Nat}
    (h : findEdgeIdx es j1 j2 = some k) :
    ∃ v, es.get? k = some v ∧ (v = (j1, j2) ∨ v = (j2, j1)) := by
  induction es generalizing k with
  | nil => simp [findEdgeIdx] at h
  | cons e es ih =>
    by_cases hp : e = (j1, j2) ∨ e = (j2, j1)
    · rw [findEdgeIdx, if_pos hp] at h
      injection h with h
      subst h
      exact ⟨e, rfl, hp⟩
    · rw [findEdgeIdx, if_neg hp, Option.map_eq_some'] at h
      obtain ⟨k', hk', rfl⟩ := h
      obtain ⟨v, hv, hpv⟩ := ih hk'
      exact ⟨v, hv, hpv⟩

theorem mem_eraseIdx_of_ne {α : Type} {l : List α} {k : Nat} {v x : α}
    (hv : l.get? k = some v) (hx : x ∈ l) (hne : x ≠ v) : x ∈ l.eraseIdx k := by
  induction l generalizing k with
  | nil => simp at hx
  | cons a as ih =>
    cases k with
    | zero =>
      injection hv with hv
      subst hv
      rw [List.eraseIdx_cons_zero]
      rcases List.mem_cons.mp hx with rfl | hx
      · exact absurd rfl hne
      · exact hx
    | succ n =>
      rw [List.eraseIdx_cons_succ]
      rcases List.mem_cons.mp hx with rfl | hx
      · exact List.mem_cons_self _ _
      · exact List.mem_cons_of_mem _ (ih hv hx)

theorem foldl_erase_cons {α : Type} [BEq α] [LawfulBEq α] (ts : List α) (a : α)
    (l : List α) (h : ∀ x ∈ ts, x ≠ a) :
    ts.foldl (fun acc x => acc.erase x) (a :: l) =
      a :: ts.foldl (fun acc x => acc.erase x) l := by
  induction ts generalizing l with
  | nil => rfl
  | cons t ts ih =>
    simp only [List.foldl_cons]
    rw [List.erase_cons_tail (by simp [Ne.symm (h t (List.mem_cons_self t ts))])]
    exact ih _ fun x hx => h x (List.mem_cons_of_mem t hx)

theorem foldl_erase_filter {α : Type} [BEq α] [LawfulBEq α] {l : List α}
    (hnd : l.Nodup) (P : α → Bool) :
    (l.filter P).foldl (fun acc x => acc.erase x) l = l.filter (fun x => !P x) := by
  induction l with
  | nil => rfl
  | cons a as ih =>
    have hna : a ∉ as := (List.nodup_cons.mp hnd).1
    have hnd2 : as.Nodup := (List.nodup_cons.mp hnd).2
    cases hPa : P a with
    | true =>
      rw [List.filter_cons_of_pos hPa]
      simp only [List.foldl_cons, List.erase_cons_head]
      rw [ih hnd2, List.filter_cons_of_neg (by simp [hPa])]
    | false =>
      rw [List.filter_cons_of_neg (by simp [hPa])]
      rw [foldl_erase_cons _ _ _ fun x hx hxa => by
        subst hxa
        exact hna (List.mem_of_mem_filter hx)]
      rw [ih hnd2, List.filter_cons_of_pos (by simp [hPa])]

theorem edges_nodup_of_pairwise {es : List (Nat × Nat)}
    (hp : es.Pairwise fun a b => edgeEqB a b = false) : es.Nodup :=
  hp.imp fun {a b} hab heq => by
    subst heq
    rw [edgeEqB_refl] at hab
    exact Bool.noConfusion hab

theorem faces_nodup_of_pairwise {fs : List (Nat × Nat × Nat)}
    (hp : fs.Pairwise fun a b => setEqT a b = false) : fs.Nodup :=
  hp.imp fun {a b} hab heq => by
    subst heq
    rw [setEqT_refl] at hab
    exact Bool.noConfusion hab

/-- `remove_edge` preserves the invariant. -/
theorem meshInv_remove_edge {m : Mesh} (h : MeshInv m) (g1 g2 : Coord) :
    MeshInv (remove_edge m g1 g2) := by
  simp only [remove_edge]
  split
  · next j1 j2 h1 h2 =>
    split
    · exact h
    · next k hk =>
      split
      · obtain ⟨hnd, hor, hev, hen, hfn, hfe⟩ := h
        obtain ⟨v, hv, hveq⟩ := findEdgeIdx_spec hk
        have hfaces : (m.faces.filter fun f => memT j1 f && memT j2 f).foldl
            (fun fs f => fs.erase f) m.faces =
            m.faces.filter fun f => !(memT j1 f && memT j2 f) :=
          foldl_erase_filter (faces_nodup_of_pairwise hfn) _
        rw [hfaces]
        refine ⟨hnd, hor, ?_, ?_, ?_, ?_⟩
        · intro e he
          exact hev e ((List.eraseIdx_sublist m.edges k).mem he)
        · exact hen.sublist (List.eraseIdx_sublist m.edges k)
        · exact hfn.sublist (List.filter_sublist m.faces)
        · intro f hf
          have hmem : f ∈ m.faces := List.mem_of_mem_filter hf
          have hnboth : ¬(memT j1 f = true ∧ memT j2 f = true) := by
            have := List.of_mem_filter hf
            simp only [Bool.not_eq_true', Bool.and_eq_false_iff] at this
            rintro ⟨c1, c2⟩
            rcases this with hc | hc
            · rw [c1] at hc; exact Bool.noConfusion hc
            · rw [c2] at hc; exact Bool.noConfusion hc
          obtain ⟨c1, c2, c3⟩ := hfe f hmem
          have keep : ∀ fe : Nat × Nat, (memT fe.1 f = true ∧ memT fe.2 f = true) →
              containsEdgeL m.edges fe = true →
              containsEdgeL (m.edges.eraseIdx k) fe = true := by
            intro fe hcor hce
            obtain ⟨x, hxm, hxe⟩ := containsEdgeL_iff.mp hce
            have hxv : x ≠ v := by
              intro hxeq
              subst hxeq
              apply hnboth
              rw [edgeEqB_iff] at hxe
              rcases hveq with rfl | rfl <;>
                simp only at hxe <;>
                simp only [memT_iff] at hcor ⊢ <;>
                omega
            exact containsEdgeL_iff.mpr ⟨x, mem_eraseIdx_of_ne hv hxm hxv, hxe⟩
          refine ⟨?_, ?_, ?_⟩
          · exact keep (f.1, f.2.1) ⟨memT_self1 f, memT_self2 f⟩ c1
          · exact keep (f.1, f.2.2) ⟨memT_self1 f, memT_self3 f⟩ c2
          · exact keep (f.2.1, f.2.2) ⟨memT_self2 f, memT_self3 f⟩ c3
      · exact h
  · exact h

/-! ### `remove_node` preserves the invariant -/

theorem range_filter_map_getD {α : Type} (l : List α) (d : α) (P : α → Bool) :
    (((List.range l.length).filter fun j => P (l.getD j d)).map fun j => l.getD j d)
      = l.filter P := by
  induction l with
  | nil => rfl
  | cons a as ih =>
    rw [List.length_cons, List.range_succ_eq_map, List.filter_cons]
    cases hPa : P a with
    | true =>
      rw [if_pos (by simp [hPa])]
      simp only [List.map_cons, List.getD_cons_zero, List.filter_map, List.map_map,
        Function.comp_def, List.getD_cons_succ, List.filter_cons_of_pos hPa]
      rw [ih]
    | false =>
      rw [if_neg (by simp [hPa]), List.filter_cons, if_neg (by simp [hPa])]
      simp only [List.filter_map, List.map_map, Function.comp_def, List.getD_cons_succ]
      rw [ih]

/-- The index shift of `_remove_node_direct`, as a named function. -/
def decIdx (i a : Nat) : Nat :=
  if i ≤ a then a - 1 else a

theorem remove_node_direct_eq (m : Mesh) (idx : Nat) :
    remove_node_direct m idx = { m with
      nodes := m.nodes.eraseIdx idx
      edges := m.edges.map fun e => (decIdx idx e.1, decIdx idx e.2)
      faces := m.faces.map fun f => (decIdx idx f.1, decIdx idx f.2.1, decIdx idx f.2.2) } :=
  rfl

theorem decIdx_lt {i a n : Nat} (ha : a ≠ i) (hi : i < n) (h : a < n) :
    decIdx i a < n - 1 := by
  simp only [decIdx]
  split <;> omega

theorem edgeEqB_decIdx {i : Nat} (x y : Nat × Nat)
    (hx : x.1 ≠ i ∧ x.2 ≠ i) (hy : y.1 ≠ i ∧ y.2 ≠ i) :
    edgeEqB (decIdx i x.1, decIdx i x.2) (decIdx i y.1, decIdx i y.2) = edgeEqB x y := by
  obtain ⟨hx1, hx2⟩ := hx
  obtain ⟨hy1, hy2⟩ := hy
  rw [Bool.eq_iff_iff, edgeEqB_iff, edgeEqB_iff]
  simp only [decIdx]
  split_ifs <;> omega

theorem memT_decIdx {i : Nat} (a : Nat) (g : Nat × Nat × Nat) (ha : a ≠ i)
    (hg : g.1 ≠ i ∧ g.2.1 ≠ i ∧ g.2.2 ≠ i) :
    memT (decIdx i a) (decIdx i g.1, decIdx i g.2.1, decIdx i g.2.2) = memT a g := by
  obtain ⟨h1, h2, h3⟩ := hg
  rw [Bool.eq_iff_iff, memT_iff, memT_iff]
  simp only [decIdx]
  split_ifs <;> omega

theorem setEqT_decIdx {i : Nat} (f g : Nat × Nat × Nat)
    (hf : f.1 ≠ i ∧ f.2.1 ≠ i ∧ f.2.2 ≠ i) (hg : g.1 ≠ i ∧ g.2.1 ≠ i ∧ g.2.2 ≠ i) :
    setEqT (decIdx i f.1, decIdx i f.2.1, decIdx i f.2.2)
      (decIdx i g.1, decIdx i g.2.1, decIdx i g.2.2) = setEqT f g := by
  obtain ⟨hf1, hf2, hf3⟩ := hf
  obtain ⟨hg1, hg2, hg3⟩ := hg
  simp only [setEqT]
  rw [memT_decIdx f.1 g hf1 ⟨hg1, hg2, hg3⟩, memT_decIdx f.2.1 g hf2 ⟨hg1, hg2, hg3⟩,
    memT_decIdx f.2.2 g hf3 ⟨hg1, hg2, hg3⟩, memT_decIdx g.1 f hg1 ⟨hf1, hf2, hf3⟩,
    memT_decIdx g.2.1 f hg2 ⟨hf1, hf2, hf3⟩, memT_decIdx g.2.2 f hg3 ⟨hf1, hf2, hf3⟩]

theorem pairwise_map_of_mem {α β : Type} {l : List α} {R : α → α → Prop}
    {S : β → β → Prop} (f : α → β) {Q : α → Prop} (hq : ∀ x ∈ l, Q x)
    (hp : l.Pairwise R) (himp : ∀ a b, Q a → Q b → R a b → S (f a) (f b)) :
    (l.map f).Pairwise S := by
  induction l with
  | nil => exact List.Pairwise.nil
  | cons a as ih =>
    rw [List.map_cons]
    rcases List.pairwise_cons.mp hp with ⟨hra, hpas⟩
    refine List.pairwise_cons.mpr
      ⟨?_, ih (fun x hx => hq x (List.mem_cons_of_mem a hx)) hpas⟩
    intro b hb
    obtain ⟨x, hx, rfl⟩ := List.mem_map.mp hb
    exact himp a x (hq a (List.mem_cons_self a as)) (hq x (List.mem_cons_of_mem a hx))
      (hra x hx)

theorem containsEdgeL_filter_of_ne {es : List (Nat × Nat)} {i a b : Nat}
    (ha : a ≠ i) (hb : b ≠ i) (h : containsEdgeL es (a, b) = true) :
    containsEdgeL (es.filter fun e => !(e.1 == i || e.2 == i)) (a, b) = true := by
  obtain ⟨x, hx, hxe⟩ := containsEdgeL_iff.mp h
  refine containsEdgeL_iff.mpr ⟨x, List.mem_filter.mpr ⟨hx, ?_⟩, hxe⟩
  rw [edgeEqB_iff] at hxe
  simp only [Bool.not_eq_true', Bool.or_eq_false_iff, beq_eq_false_iff_ne]
  simp only at hxe
  omega

/-- `_remove_node_direct` preserves the invariant once every edge and
face incident to the removed index is already gone and the index is not
the origin's. -/
theorem meshInv_remove_node_direct {m : Mesh} {i : Nat}
    (hnd : m.nodes.Nodup) (hor : m.nodes.head? = some (0, 0))
    (hlen : i < m.nodes.length) (hi0 : i ≠ 0)
    (hev : ∀ e ∈ m.edges, e.1 < m.nodes.length ∧ e.2 < m.nodes.length)
    (hei : ∀ e ∈ m.edges, e.1 ≠ i ∧ e.2 ≠ i)
    (hen : m.edges.Pairwise fun a b => edgeEqB a b = false)
    (hfn : m.faces.Pairwise fun a b => setEqT a b = false)
    (hfi : ∀ f ∈ m.faces, f.1 ≠ i ∧ f.2.1 ≠ i ∧ f.2.2 ≠ i)
    (hfe : ∀ f ∈ m.faces, containsEdgeL m.edges (f.1, f.2.1) = true ∧
      containsEdgeL m.edges (f.1, f.2.2) = true ∧
      containsEdgeL m.edges (f.2.1, f.2.2) = true) :
    MeshInv (remove_node_direct m i) := by
  rw [remove_node_direct_eq]
  have hlen2 : (m.nodes.eraseIdx i).length = m.nodes.length - 1 := by
    rw [List.length_eraseIdx]
    simp [hlen]
  refine ⟨?_, ?_, ?_, ?_, ?_, ?_⟩
  · exact hnd.sublist (List.eraseIdx_sublist m.nodes i)
  · cases hcn : m.nodes with
    | nil => rw [hcn] at hor; exact absurd hor (by simp)
    | cons n0 rest =>
      rw [hcn] at hor
      cases i with
      | zero => exact absurd rfl hi0
      | succ k =>
        show ((n0 :: rest).eraseIdx (k + 1)).head? = some (0, 0)
        rw [List.eraseIdx_cons_succ]
        simpa using hor
  · intro e' he'
    obtain ⟨e, he, rfl⟩ := List.mem_map.mp he'
    obtain ⟨h1, h2⟩ := hev e he
    obtain ⟨n1, n2⟩ := hei e he
    rw [hlen2]
    exact ⟨decIdx_lt n1 hlen h1, decIdx_lt n2 hlen h2⟩
  · refine pairwise_map_of_mem _ hei hen ?_
    intro a b ha hb hr
    show edgeEqB (decIdx i a.1, decIdx i a.2) (decIdx i b.1, decIdx i b.2) = false
    rw [edgeEqB_decIdx a b ha hb]
    exact hr
  · refine pairwise_map_of_mem _ hfi hfn ?_
    intro a b ha hb hr
    show setEqT (decIdx i a.1, decIdx i a.2.1, decIdx i a.2.2)
      (decIdx i b.1, decIdx i b.2.1, decIdx i b.2.2) = false
    rw [setEqT_decIdx a b ha hb]
    exact hr
  · intro f' hf'
    obtain ⟨f, hf, rfl⟩ := List.mem_map.mp hf'
    obtain ⟨c1, c2, c3⟩ := hfe f hf
    obtain ⟨q1, q2, q3⟩ := hfi f hf
    have step : ∀ a b : Nat, a ≠ i → b ≠ i → containsEdgeL m.edges (a, b) = true →
        containsEdgeL (m.edges.map fun e => (decIdx i e.1, decIdx i e.2))
          (decIdx i a, decIdx i b) = true := by
      intro a b ha hb hc
      obtain ⟨x, hx, hxe⟩ := containsEdgeL_iff.mp hc
      refine containsEdgeL_iff.mpr
        ⟨(decIdx i x.1, decIdx i x.2), List.mem_map_of_mem _ hx, ?_⟩
      rw [edgeEqB_decIdx x (a, b) (hei x hx) ⟨ha, hb⟩]
      exact hxe
    exact ⟨step f.1 f.2.1 q1 q2 c1, step f.1 f.2.2 q1 q3 c2, step f.2.1 f.2.2 q2 q3 c3⟩

/-- `remove_node` preserves the invariant. -/
theorem meshInv_remove_node {m : Mesh} (h : MeshInv m) (g : Coord) :
    MeshInv (remove_node m g) := by
  obtain ⟨hnd, hor, hev, hen, hfn, hfe⟩ := h
  simp only [remove_node]
  split
  · exact ⟨hnd, hor, hev, hen, hfn, hfe⟩
  · next i hip =>
    split
    · exact ⟨hnd, hor, hev, hen, hfn, hfe⟩
    · next hp =>
      split
      · exact ⟨hnd, hor, hev, hen, hfn, hfe⟩
      · have hi0 : i ≠ 0 := by
          intro h0
          subst h0
          have hg := idxFirst_get? hip
          rw [List.get?_zero m.nodes, hor] at hg
          injection hg with hg
          exact hp hg.symm
        have hcole : (incidentEdges m.edges i).1.map (fun j => m.edges.getD j (0, 0))
            = m.edges.filter fun e => (e.1 == i) || (e.2 == i) :=
          range_filter_map_getD m.edges (0, 0) fun e => (e.1 == i) || (e.2 == i)
        have hcolf : (incidentFaces m.faces i).map (fun j => m.faces.getD j (0, 0, 0))
            = m.faces.filter fun f => memT i f :=
          range_filter_map_getD m.faces (0, 0, 0) fun f => memT i f
        rw [hcole, hcolf,
          foldl_erase_filter (edges_nodup_of_pairwise hen) _,
          foldl_erase_filter (faces_nodup_of_pairwise hfn) _]
        refine meshInv_remove_node_direct hnd hor (idxFirst_lt_length hip) hi0
          ?_ ?_ ?_ ?_ ?_ ?_
        · intro e he
          exact hev e (List.mem_of_mem_filter he)
        · intro e he
          have hq := List.of_mem_filter he
          simp only [Bool.not_eq_true', Bool.or_eq_false_iff, beq_eq_false_iff_ne] at hq
          exact hq
        · exact hen.sublist (List.filter_sublist m.edges)
        · exact hfn.sublist (List.filter_sublist m.faces)
        · intro f hf
          have hq := List.of_mem_filter hf
          simp only [Bool.not_eq_true'] at hq
          have hq2 : ¬(i = f.1 ∨ i = f.2.1 ∨ i = f.2.2) := by
            rw [← memT_iff, hq]
            simp
          exact ⟨fun hc => hq2 (Or.inl hc.symm), fun hc => hq2 (Or.inr (Or.inl hc.symm)),
            fun hc => hq2 (Or.inr (Or.inr hc.symm))⟩
        · intro f hf
          obtain ⟨c1, c2, c3⟩ := hfe f (List.mem_of_mem_filter hf)
          have hq := List.of_mem_filter hf
          simp only [Bool.not_eq_true'] at hq
          have hq2 : ¬(i = f.1 ∨ i = f.2.1 ∨ i = f.2.2) := by
            rw [← memT_iff, hq]
            simp
          have q1 : f.1 ≠ i := fun hc => hq2 (Or.inl hc.symm)
          have q2 : f.2.1 ≠ i := fun hc => hq2 (Or.inr (Or.inl hc.symm))
          have q3 : f.2.2 ≠ i := fun hc => hq2 (Or.inr (Or.inr hc.symm))
          exact ⟨containsEdgeL_filter_of_ne q1 q2 c1,
            containsEdgeL_filter_of_ne q1 q3 c2,
            containsEdgeL_filter_of_ne q2 q3 c3⟩

/-! ### `merge_with` preserves the invariant -/

theorem filter_take_lt_of_lt {α : Type} {l : List α} (P : α → Bool) (d : α) {i j : Nat}
    (hij : i < j) (hi : i < l.length) (hP : P (l.getD i d) = true) :
    ((l.take i).filter P).length < ((l.take j).filter P).length := by
  have hv : l.get? i = some l[i] := by
    rw [List.get?_eq_getElem?]
    exact List.getElem?_eq_getElem hi
  have hgd : l.getD i d = l[i] := getD_of_get? hv
  have h1 : (l.take (i + 1)).filter P = (l.take i).filter P ++ [l[i]] := by
    rw [List.take_succ, ← List.get?_eq_getElem?, hv]
    rw [List.filter_append]
    congr 1
    rw [Option.toList_some, List.filter_cons_of_pos (by rw [← hgd]; exact hP)]
    rfl
  have h2 : ((l.take (i + 1)).filter P).length ≤ ((l.take j).filter P).length := by
    have hsub : l.take (i + 1) = (l.take j).take (i + 1) := by
      rw [List.take_take]
      congr 1
      omega
    rw [hsub]
    exact ((List.take_sublist (i + 1) (l.take j)).filter P).length_le
  rw [h1, List.length_append] at h2
  simp only [List.length_singleton] at h2
  omega

theorem filter_take_length_lt {α : Type} {l : List α} (P : α → Bool) (d : α) {i : Nat}
    (hi : i < l.length) (hP : P (l.getD i d) = true) :
    ((l.take i).filter P).length < (l.filter P).length := by
  have := filter_take_lt_of_lt P d (Nat.lt_succ_of_lt hi) hi hP
  have htk : l.take (l.length + 1) = l := List.take_of_length_le (by omega)
  rw [htk] at this
  exact this

theorem mergeResolve_lt {sn bs : List Coord} {i : Nat} (hi : i < bs.length) :
    mergeResolve sn bs i < sn.length + (mergeNewNodes sn bs).length := by
  cases hD : idxFirst sn (bs.getD i (0, 0)) with
  | some j =>
    simp only [mergeResolve, hD]
    have := idxFirst_lt_length hD
    omega
  | none =>
    simp only [mergeResolve, hD]
    have := filter_take_length_lt (fun c => decide (idxFirst sn c = none)) (0, 0) hi
      (by show decide (idxFirst sn (bs.getD i (0, 0)) = none) = true; rw [hD]; rfl)
    rw [mergeNewNodes]
    omega

theorem mergeResolve_ge_of_new {sn bs : List Coord} {i : Nat}
    (hD : idxFirst sn (bs.getD i (0, 0)) = none) :
    sn.length ≤ mergeResolve sn bs i := by
  simp only [mergeResolve, hD]
  omega

theorem mergeShared_of_lt {sn bs : List Coord} {i : Nat}
    (h : mergeResolve sn bs i < sn.length) : mergeShared sn bs i = true := by
  rw [mergeShared]
  cases hD : idxFirst sn (bs.getD i (0, 0)) with
  | some j => rfl
  | none =>
    have := mergeResolve_ge_of_new hD
    omega

theorem mergeResolve_inj {sn bs : List Coord} (hnd : bs.Nodup) {i j : Nat}
    (hi : i < bs.length) (hj : j < bs.length)
    (h : mergeResolve sn bs i = mergeResolve sn bs j) : i = j := by
  cases hDi : idxFirst sn (bs.getD i (0, 0)) with
  | some ji =>
    cases hDj : idxFirst sn (bs.getD j (0, 0)) with
    | some jj =>
      simp only [mergeResolve, hDi, hDj] at h
      subst h
      have g1 := idxFirst_get? hDi
      have g2 := idxFirst_get? hDj
      rw [g1] at g2
      injection g2 with g2
      have e1 : bs.get? i = bs.get? j := by
        rw [List.get?_eq_get hi, List.get?_eq_get hj]
        have a1 : bs.getD i (0, 0) = bs.get ⟨i, hi⟩ := getD_of_get? (List.get?_eq_get hi)
        have a2 : bs.getD j (0, 0) = bs.get ⟨j, hj⟩ := getD_of_get? (List.get?_eq_get hj)
        rw [← a1, ← a2, g2]
      exact List.get?_inj hi hnd e1
    | none =>
      simp only [mergeResolve, hDi, hDj] at h
      have := idxFirst_lt_length hDi
      omega
  | none =>
    cases hDj : idxFirst sn (bs.getD j (0, 0)) with
    | some jj =>
      simp only [mergeResolve, hDi, hDj] at h
      have := idxFirst_lt_length hDj
      omega
    | none =>
      simp only [mergeResolve, hDi, hDj] at h
      by_contra hne
      rcases Nat.lt_or_ge i j with hlt | hge
      · have := filter_take_lt_of_lt (fun c => decide (idxFirst sn c = none)) (0, 0) hlt hi
          (by show decide (idxFirst sn (bs.getD i (0, 0)) = none) = true; rw [hDi]; rfl)
        omega
      · have hgt : j < i := by omega
        have := filter_take_lt_of_lt (fun c => decide (idxFirst sn c = none)) (0, 0) hgt hj
          (by show decide (idxFirst sn (bs.getD j (0, 0)) = none) = true; rw [hDj]; rfl)
        omega

theorem mergeEdgeMap_some {m : Mesh} {bs : List Coord} {x e : Nat × Nat}
    (h : mergeEdgeMap m bs x = some e) :
    e = (mergeResolve m.nodes bs x.1, mergeResolve m.nodes bs x.2) ∧
    ¬(mergeShared m.nodes bs x.1 = true ∧ mergeShared m.nodes bs x.2 = true ∧
      contains_edge m e = true) := by
  simp only [mergeEdgeMap] at h
  split at h
  · exact absurd h (by simp)
  · next hcond =>
    injection h with h
    subst h
    exact ⟨rfl, hcond⟩

theorem mergeEdgeMap_none {m : Mesh} {bs : List Coord} {x : Nat × Nat}
    (h : mergeEdgeMap m bs x = none) :
    mergeShared m.nodes bs x.1 = true ∧ mergeShared m.nodes bs x.2 = true ∧
      contains_edge m (mergeResolve m.nodes bs x.1, mergeResolve m.nodes bs x.2) = true := by
  simp only [mergeEdgeMap] at h
  split at h
  · next hcond => exact hcond
  · exact absurd h (by simp)

theorem mergeFaceMap_some {m : Mesh} {bs : List Coord} {x e : Nat × Nat × Nat}
    (h : mergeFaceMap m bs x = some e) :
    e = (mergeResolve m.nodes bs x.1, mergeResolve m.nodes bs x.2.1,
      mergeResolve m.nodes bs x.2.2) ∧
    ¬(mergeShared m.nodes bs x.1 = true ∧ mergeShared m.nodes bs x.2.1 = true ∧
      mergeShared m.nodes bs x.2.2 = true ∧ contains_face m e = true) := by
  simp only [mergeFaceMap] at h
  split at h
  · exact absurd h (by simp)
  · next hcond =>
    injection h with h
    subst h
    exact ⟨rfl, hcond⟩

theorem edgeEqB_resolve_congr {sn bs : List Coord} {x : Nat × Nat} {a b : Nat}
    (h : edgeEqB x (a, b) = true) :
    edgeEqB (mergeResolve sn bs x.1, mergeResolve sn bs x.2)
      (mergeResolve sn bs a, mergeResolve sn bs b) = true := by
  rw [edgeEqB_iff] at h ⊢
  simp only at h ⊢
  rcases h with ⟨h1, h2⟩ | ⟨h1, h2⟩
  · exact Or.inl ⟨by rw [h1], by rw [h2]⟩
  · exact Or.inr ⟨by rw [h1], by rw [h2]⟩

theorem memT_resolve_iff {sn bs : List Coord} (hnd : bs.Nodup) {a : Nat}
    {g : Nat × Nat × Nat} (ha : a < bs.length)
    (hg : g.1 < bs.length ∧ g.2.1 < bs.length ∧ g.2.2 < bs.length) :
    memT (mergeResolve sn bs a) (mergeResolve sn bs g.1, mergeResolve sn bs g.2.1,
      mergeResolve sn bs g.2.2) = memT a g := by
  rw [Bool.eq_iff_iff, memT_iff, memT_iff]
  simp only
  constructor
  · rintro (h | h | h)
    · exact Or.inl (mergeResolve_inj hnd ha hg.1 h)
    · exact Or.inr (Or.inl (mergeResolve_inj hnd ha hg.2.1 h))
    · exact Or.inr (Or.inr (mergeResolve_inj hnd ha hg.2.2 h))
  · rintro (h | h | h)
    · exact Or.inl (by rw [h])
    · exact Or.inr (Or.inl (by rw [h]))
    · exact Or.inr (Or.inr (by rw [h]))

theorem setEqT_resolve {sn bs : List Coord} (hnd : bs.Nodup) (f g : Nat × Nat × Nat)
    (hf : f.1 < bs.length ∧ f.2.1 < bs.length ∧ f.2.2 < bs.length)
    (hg : g.1 < bs.length ∧ g.2.1 < bs.length ∧ g.2.2 < bs.length) :
    setEqT (mergeResolve sn bs f.1, mergeResolve sn bs f.2.1, mergeResolve sn bs f.2.2)
      (mergeResolve sn bs g.1, mergeResolve sn bs g.2.1, mergeResolve sn bs g.2.2)
      = setEqT f g := by
  simp only [setEqT]
  rw [memT_resolve_iff hnd hf.1 hg, memT_resolve_iff hnd hf.2.1 hg,
    memT_resolve_iff hnd hf.2.2 hg, memT_resolve_iff hnd hg.1 hf,
    memT_resolve_iff hnd hg.2.1 hf, memT_resolve_iff hnd hg.2.2 hf]

theorem face_corners_lt {n : Nat} {es : List (Nat × Nat)} {fs : List (Nat × Nat × Nat)}
    (hev : ∀ e ∈ es, e.1 < n ∧ e.2 < n)
    (hfe : ∀ f ∈ fs, containsEdgeL es (f.1, f.2.1) = true ∧
      containsEdgeL es (f.1, f.2.2) = true ∧ containsEdgeL es (f.2.1, f.2.2) = true)
    {f : Nat × Nat × Nat} (hf : f ∈ fs) : f.1 < n ∧ f.2.1 < n ∧ f.2.2 < n := by
  obtain ⟨c1, _, c3⟩ := hfe f hf
  obtain ⟨x, hx, hxe⟩ := containsEdgeL_iff.mp c1
  obtain ⟨y, hy, hye⟩ := containsEdgeL_iff.mp c3
  have hxb := hev x hx
  have hyb := hev y hy
  rw [edgeEqB_iff] at hxe hye
  simp only at hxe hye
  refine ⟨?_, ?_, ?_⟩ <;> omega

theorem pairwise_filterMap_of_mem {α β : Type} {l : List α} {R : α → α → Prop}
    {S : β → β → Prop} (f : α → Option β) {Q : α → Prop} (hq : ∀ x ∈ l, Q x)
    (hp : l.Pairwise R)
    (himp : ∀ a b a' b', Q a → Q b → R a b → f a = some a' → f b = some b' → S a' b') :
    (l.filterMap f).Pairwise S := by
  induction l with
  | nil => exact List.Pairwise.nil
  | cons a as ih =>
    rcases List.pairwise_cons.mp hp with ⟨hra, hpas⟩
    have ihs := ih (fun x hx => hq x (List.mem_cons_of_mem a hx)) hpas
    cases hfa : f a with
    | none =>
      simp only [List.filterMap_cons, hfa]
      exact ihs
    | some a' =>
      simp only [List.filterMap_cons, hfa]
      refine List.pairwise_cons.mpr ⟨?_, ihs⟩
      intro b' hb'
      obtain ⟨x, hx, hfx⟩ := List.mem_filterMap.mp hb'
      exact himp a x a' b' (hq a (List.mem_cons_self a as))
        (hq x (List.mem_cons_of_mem a hx)) (hra x hx) hfa hfx

/-- `merge_with` preserves the invariant when the other mesh also
satisfies it. -/
theorem meshInv_merge_with {m other : Mesh} (hM : MeshInv m) (hO : MeshInv other) :
    MeshInv (merge_with m other) := by
  obtain ⟨hnd, hor, hev, hen, hfn, hfe⟩ := hM
  obtain ⟨hOnd, hOor, hOev, hOen, hOfn, hOfe⟩ := hO
  have hOfc : ∀ f ∈ other.faces, f.1 < other.nodes.length ∧ f.2.1 < other.nodes.length ∧
      f.2.2 < other.nodes.length := fun f hf => face_corners_lt hOev hOfe hf
  have hbslen : (mergeBs m other).length = other.nodes.length := by
    simp [mergeBs]
  have hbsnd : (mergeBs m other).Nodup := by
    refine hOnd.map ?_
    intro p q hpq
    obtain ⟨p1, p2⟩ := p
    obtain ⟨q1, q2⟩ := q
    simp only [Prod.mk.injEq] at hpq ⊢
    omega
  simp only [merge_with]
  refine ⟨?_, ?_, ?_, ?_, ?_, ?_⟩
  · refine hnd.append (hbsnd.filter _) ?_
    intro x hx hx2
    have hq := List.of_mem_filter hx2
    simp only [decide_eq_true_eq] at hq
    exact idxFirst_eq_none.mp hq hx
  · exact head?_append_of_eq hor
  · intro e he
    rw [List.mem_append] at he
    rw [List.length_append]
    rcases he with he | he
    · have := hev e he
      omega
    · obtain ⟨x, hx, hfx⟩ := List.mem_filterMap.mp he
      obtain ⟨hxeq, -⟩ := mergeEdgeMap_some hfx
      obtain ⟨hb1, hb2⟩ := hOev x hx
      rw [← hbslen] at hb1 hb2
      subst hxeq
      exact ⟨mergeResolve_lt hb1, mergeResolve_lt hb2⟩
  · rw [List.pairwise_append]
    refine ⟨hen, ?_, ?_⟩
    · refine pairwise_filterMap_of_mem (mergeEdgeMap m (mergeBs m other))
        (fun x hx => hOev x hx) hOen ?_
      intro a b a' b' Qa Qb Rab hfa hfb
      obtain ⟨haeq, -⟩ := mergeEdgeMap_some hfa
      obtain ⟨hbeq, -⟩ := mergeEdgeMap_some hfb
      subst haeq
      subst hbeq
      cases hE : edgeEqB (mergeResolve m.nodes (mergeBs m other) a.1,
          mergeResolve m.nodes (mergeBs m other) a.2)
          (mergeResolve m.nodes (mergeBs m other) b.1,
          mergeResolve m.nodes (mergeBs m other) b.2) with
      | false => rfl
      | true =>
        exfalso
        rw [edgeEqB_iff] at hE
        simp only at hE
        have ha1 : a.1 < (mergeBs m other).length := by rw [hbslen]; exact Qa.1
        have ha2 : a.2 < (mergeBs m other).length := by rw [hbslen]; exact Qa.2
        have hb1 : b.1 < (mergeBs m other).length := by rw [hbslen]; exact Qb.1
        have hb2 : b.2 < (mergeBs m other).length := by rw [hbslen]; exact Qb.2
        have : edgeEqB a b = true := by
          rw [edgeEqB_iff]
          rcases hE with ⟨e1, e2⟩ | ⟨e1, e2⟩
          · exact Or.inl ⟨mergeResolve_inj hbsnd ha1 hb1 e1,
              mergeResolve_inj hbsnd ha2 hb2 e2⟩
          · exact Or.inr ⟨mergeResolve_inj hbsnd ha1 hb2 e1,
              mergeResolve_inj hbsnd ha2 hb1 e2⟩
        rw [Rab] at this
        exact Bool.noConfusion this
    · intro x hx e' he'
      obtain ⟨a, ha, hfa⟩ := List.mem_filterMap.mp he'
      obtain ⟨haeq, hkept⟩ := mergeEdgeMap_some hfa
      cases hE : edgeEqB x e' with
      | false => rfl
      | true =>
        exfalso
        apply hkept
        obtain ⟨hx1, hx2⟩ := hev x hx
        have he1 : e'.1 < m.nodes.length ∧ e'.2 < m.nodes.length := by
          rw [edgeEqB_iff] at hE
          rcases hE with ⟨e1, e2⟩ | ⟨e1, e2⟩ <;> omega
        rw [haeq] at he1
        simp only at he1
        refine ⟨mergeShared_of_lt he1.1, mergeShared_of_lt he1.2, ?_⟩
        exact containsEdgeL_iff.mpr ⟨x, hx, hE⟩
  · rw [List.pairwise_append]
    refine ⟨hfn, ?_, ?_⟩
    · refine pairwise_filterMap_of_mem (mergeFaceMap m (mergeBs m other))
        (fun x hx => hOfc x hx) hOfn ?_
      intro a b a' b' Qa Qb Rab hfa hfb
      obtain ⟨haeq, -⟩ := mergeFaceMap_some hfa
      obtain ⟨hbeq, -⟩ := mergeFaceMap_some hfb
      subst haeq
      subst hbeq
      have ha' : a.1 < (mergeBs m other).length ∧ a.2.1 < (mergeBs m other).length ∧
          a.2.2 < (mergeBs m other).length := by rw [hbslen]; exact Qa
      have hb' : b.1 < (mergeBs m other).length ∧ b.2.1 < (mergeBs m other).length ∧
          b.2.2 < (mergeBs m other).length := by rw [hbslen]; exact Qb
      rw [setEqT_resolve hbsnd a b ha' hb']
      exact Rab
    · intro x hx f' hf'
      obtain ⟨b, hb, hfb⟩ := List.mem_filterMap.mp hf'
      obtain ⟨hbeq, hkept⟩ := mergeFaceMap_some hfb
      cases hE : setEqT x f' with
      | false => rfl
      | true =>
        exfalso
        apply hkept
        have hxc : x.1 < m.nodes.length ∧ x.2.1 < m.nodes.length ∧
            x.2.2 < m.nodes.length := face_corners_lt hev hfe hx
        obtain ⟨-, -, -, m1, m2, m3⟩ := setEqT_unfold.mp hE
        rw [memT_iff] at m1 m2 m3
        have hc : f'.1 < m.nodes.length ∧ f'.2.1 < m.nodes.length ∧
            f'.2.2 < m.nodes.length := by
          refine ⟨?_, ?_, ?_⟩ <;> [rcases m1 with h | h | h; rcases m2 with h | h | h;
            rcases m3 with h | h | h] <;> rw [h] <;> omega
        rw [hbeq] at hc
        simp only at hc
        refine ⟨mergeShared_of_lt hc.1, mergeShared_of_lt hc.2.1,
          mergeShared_of_lt hc.2.2, ?_⟩
        exact containsFaceL_iff.mpr ⟨x, hx, hE⟩
  · intro f hf
    rw [List.mem_append] at hf
    rcases hf with hf | hf
    · obtain ⟨c1, c2, c3⟩ := hfe f hf
      exact ⟨containsEdgeL_mono c1, containsEdgeL_mono c2, containsEdgeL_mono c3⟩
    · obtain ⟨b, hb, hfb⟩ := List.mem_filterMap.mp hf
      obtain ⟨hbeq, -⟩ := mergeFaceMap_some hfb
      obtain ⟨c1, c2, c3⟩ := hOfe b hb
      have step : ∀ a c : Nat, containsEdgeL other.edges (a, c) = true →
          containsEdgeL (m.edges ++ other.edges.filterMap (mergeEdgeMap m (mergeBs m other)))
            (mergeResolve m.nodes (mergeBs m other) a,
             mergeResolve m.nodes (mergeBs m other) c) = true := by
        intro a c hc
        obtain ⟨x, hx, hxe⟩ := containsEdgeL_iff.mp hc
        rw [containsEdgeL_append, Bool.or_eq_true]
        cases hmx : mergeEdgeMap m (mergeBs m other) x with
        | some x' =>
          right
          have hx' : x' ∈ other.edges.filterMap (mergeEdgeMap m (mergeBs m other)) :=
            List.mem_filterMap.mpr ⟨x, hx, hmx⟩
          obtain ⟨hxeq, -⟩ := mergeEdgeMap_some hmx
          refine containsEdgeL_iff.mpr ⟨x', hx', ?_⟩
          rw [hxeq]
          exact edgeEqB_resolve_congr hxe
        | none =>
          left
          obtain ⟨-, -, hce⟩ := mergeEdgeMap_none hmx
          obtain ⟨y, hy, hye⟩ := containsEdgeL_iff.mp hce
          exact containsEdgeL_iff.mpr ⟨y, hy, edgeEqB_trans hye (edgeEqB_resolve_congr hxe)⟩
      rw [hbeq]
      exact ⟨step b.1 b.2.1 c1, step b.1 b.2.2 c2, step b.2.1 b.2.2 c3⟩

instance (op : MeshOp) : Decidable (opValid op) := by
  cases op <;> simp only [opValid] <;> infer_instance

/-- C1 (amended): starting from a mesh satisfying the data-model
invariant, any sequence of mesh-mutation calls preserves it — no
duplicate node coordinates, origin node first, edge endpoints valid,
no duplicate edges or faces up to orientation, and every face's three
edges present — provided every `add_face` call names three distinct
coordinates and every `merge_with` argument itself satisfies the
invariant.  The unamended claim is refuted by `c1_counterexample`. -/
theorem c1_invariant_preserved (ops : List MeshOp) :
    ∀ m : Mesh, MeshInv m → (∀ op ∈ ops, opValid op) →
      MeshInv (ops.foldl applyOp m) := by
  induction ops with
  | nil =>
    intro m hm _
    exact hm
  | cons op ops ih =>
    intro m hm hops
    rw [List.foldl_cons]
    refine ih _ ?_ fun o ho => hops o (List.mem_cons_of_mem op ho)
    have hv := hops op (List.mem_cons_self op ops)
    cases op with
    | addE p1 p2 => exact meshInv_add_edge hm p1 p2
    | addF p1 p2 p3 => exact meshInv_add_face hm hv.1 hv.2.1 hv.2.2
    | remN p => exact meshInv_remove_node hm p
    | remE p1 p2 => exact meshInv_remove_edge hm p1 p2
    | remF p1 p2 p3 => exact meshInv_remove_face hm p1 p2 p3
    | merge o => exact meshInv_merge_with hm hv

theorem c1_invariant_preserved_witness :
    MeshInv { pos := (0, 0), nodes := [(0, 0)], edges := [], faces := [] } ∧
    (∀ op ∈ [MeshOp.addF (0, 0) (1, 0) (0, 1), MeshOp.addE (1, 0) (1, 1),
        MeshOp.merge { pos := (1, 0), nodes := [(0, 0), (1, 0)], edges := [(0, 1)], faces := [] },
        MeshOp.remF (0, 0) (1, 0) (0, 1), MeshOp.remN (1, 1)], opValid op) ∧
    MeshInv ([MeshOp.addF (0, 0) (1, 0) (0, 1), MeshOp.addE (1, 0) (1, 1),
        MeshOp.merge { pos := (1, 0), nodes := [(0, 0), (1, 0)], edges := [(0, 1)], faces := [] },
        MeshOp.remF (0, 0) (1, 0) (0, 1), MeshOp.remN (1, 1)].foldl applyOp
      { pos := (0, 0), nodes := [(0, 0)], edges := [], faces := [] }) :=
  ⟨by decide, by decide,
    c1_invariant_preserved _ _ (by decide) (by decide)⟩

/-! ### C4/C7: `StarConvex.add_node_convex` -/

/-- The sector classification at the top of `add_node_convex` (the
`if`/`elif` chain; the final `else` is sector 5). -/
def sectorOf (x y : Int) : Nat :=
  if x > 0 ∧ y ≥ 0 then 0
  else if x ≤ 0 ∧ y > 0 ∧ x + y > 0 then 1
  else if x ≤ 0 ∧ y > 0 ∧ x + y ≤ 0 then 2
  else if y ≤ 0 ∧ x < 0 then 3
  else if x ≥ 0 ∧ y < 0 ∧ x + y < 0 then 4
  else 5

/-- The lattice point `ix * dir1 + iy * dir2`: the running `(x, y)` of
the fill loop of `add_node_convex`. -/
def cellXY (dir1 dir2 : Coord) (ix iy : Int) : Coord :=
  (ix * dir1.1 + iy * dir2.1, ix * dir1.2 + iy * dir2.2)

/-- One iteration of the fill loop of `add_node_convex`: append the cell
node when missing, then wire it to its already-visited neighbors.  The
node lookups and the direct node append use local coordinates, but the
`add_edge`/`add_face` calls hand those same local coordinates to entry
points that subtract `pos` again. -/
def convexCellStep (dist2 : Int) (dir1 dir2 : Coord) (ix iy : Int) (m : Mesh) : Mesh :=
  let node := cellXY dir1 dir2 ix iy
  let m1 := if node ∈ m.nodes then m else { m with nodes := m.nodes ++ [node] }
  let nbr_down := (node.1 - dir2.1, node.2 - dir2.2)
  let downFound := 0 < iy ∧ nbr_down ∈ m1.nodes
  let m2 := if downFound then add_edge m1 nbr_down node else m1
  let nbr_left := (node.1 - dir1.1, node.2 - dir1.2)
  let leftFound := 0 < ix ∧ nbr_left ∈ m2.nodes
  let m3 := if leftFound then add_edge m2 nbr_left node else m2
  let nbr_up := (nbr_left.1 + dir2.1, nbr_left.2 + dir2.2)
  let upFound := 0 < ix ∧ iy < dist2 - 1 ∧ nbr_up ∈ m3.nodes
  let m4 := if upFound then add_edge m3 nbr_up node else m3
  let m5 := if downFound ∧ leftFound then add_face m4 nbr_left nbr_down node else m4
  if leftFound ∧ upFound then add_face m5 nbr_left node nbr_up else m5

/-- `StarConvex.add_node_convex(node)` with `node` a global coordinate:
rebase, classify the sector, rotate into sector 0 to obtain the two
distances, and fill the whole parallelogram cell by cell.  The rotation
amount `(6 - sector) % 6` always lies in `0..5`, so the total wrapper
`rotPt` coincides with `rotate_grid_point` here. -/
def add_node_convex (m : Mesh) (g : Coord) : Mesh :=
  let x := g.1 - m.pos.1
  let y := g.2 - m.pos.2
  if (x, y) ∈ m.nodes then m
  else
    let sector := sectorOf x y
    let r := rotPt (x, y) ((6 - (sector : Int)) % 6)
    let dist1 := r.1 + 1
    let dist2 := r.2 + 1
    let dir1 := dirVec (sector : Int)
    let dir2 := dirVec (((sector : Int) + 1) % 6)
    (List.range dist1.toNat).foldl (fun acc (ix : Nat) =>
      (List.range dist2.toNat).foldl (fun acc2 (iy : Nat) =>
        convexCellStep dist2 dir1 dir2 (ix : Int) (iy : Int) acc2) acc) m

/-- Rotated coordinates of a local point within its own sector: the
`(dist1, dist2)` pair of `add_node_convex` before the `+ 1`. -/
def sectorDist (p : Coord) : Coord :=
  rotPt p ((6 - (sectorOf p.1 p.2 : Int)) % 6)

/-- The cell `a * DIR_VECS[s] + b * DIR_VECS[(s+1) % 6]` of sector `s`. -/
def cellPt (s : Nat) (a b : Int) : Coord :=
  cellXY (dirVec (s : Int)) (dirVec (((s : Int) + 1) % 6)) a b

/-- The star-convexity invariant on nodes: for every node, the whole
origin-anchored sector parallelogram up to that node is present. -/
def SCInv (m : Mesh) : Prop :=
  ∀ p ∈ m.nodes, ∀ a b : Int, 0 ≤ a → 0 ≤ b →
    a ≤ (sectorDist p).1 → b ≤ (sectorDist p).2 →
    cellPt (sectorOf p.1 p.2) a b ∈ m.nodes

/-- Whether the mesh has an edge between the nodes at the two given
local coordinates (resolved like the mutation entry points resolve
coordinates, by last index). -/
def hasEdgeB (m : Mesh) (p q : Coord) : Bool :=
  match idxLast m.nodes p, idxLast m.nodes q with
  | some a, some b => containsEdgeL m.edges (a, b)
  | _, _ => false

/-- Whether the mesh has a face on the three given local coordinates. -/
def hasFaceB (m : Mesh) (p q r : Coord) : Bool :=
  match idxLast m.nodes p, idxLast m.nodes q, idxLast m.nodes r with
  | some a, some b, some c => containsFaceL m.faces (a, b, c)
  | _, _, _ => false

/-- The filled-parallelogram property of the `add_node_convex` loop:
all cells present, each cell wired to its down, left and upper-left
neighbors, and both triangles of each unit cell present. -/
def parFilled (m : Mesh) (s : Nat) (d1 d2 : Int) : Prop :=
  ∀ a b : Int, 0 ≤ a → a < d1 → 0 ≤ b → b < d2 →
    cellPt s a b ∈ m.nodes ∧
    (0 < b → hasEdgeB m (cellPt s a (b - 1)) (cellPt s a b) = true) ∧
    (0 < a → hasEdgeB m (cellPt s (a - 1) b) (cellPt s a b) = true) ∧
    (0 < a → b < d2 - 1 → hasEdgeB m (cellPt s (a - 1) (b + 1)) (cellPt s a b) = true) ∧
    (0 < a → 0 < b →
      hasFaceB m (cellPt s (a - 1) b) (cellPt s a (b - 1)) (cellPt s a b) = true) ∧
    (0 < a → b < d2 - 1 →
      hasFaceB m (cellPt s (a - 1) b) (cellPt s a b) (cellPt s (a - 1) (b + 1)) = true)

/-- C7: the claimed rebasing equivalence fails for `add_node_convex`.
The fill loop passes local coordinates to `add_edge`/`add_face`, which
subtract the position again, so a `StarConvex` at position `(1, 0)`
given the global node `(2, 0)` produces a stray node `(-1, 0)` and an
edge attached to it, while the identical shape at the origin given
`(1, 0)` produces the correct local sets. -/
theorem c7_rebase_bug :
    (add_node_convex { pos := (1, 0), nodes := [(0, 0)], edges := [], faces := [] }
      (2, 0)).nodes = [(0, 0), (1, 0), (-1, 0)] ∧
    (add_node_convex { pos := (1, 0), nodes := [(0, 0)], edges := [], faces := [] }
      (2, 0)).edges = [(0, 2)] ∧
    (add_node_convex { pos := (0, 0), nodes := [(0, 0)], edges := [], faces := [] }
      (1, 0)).nodes = [(0, 0), (1, 0)] ∧
    (add_node_convex { pos := (0, 0), nodes := [(0, 0)], edges := [], faces := [] }
      (1, 0)).edges = [(0, 1)] := by
  refine ⟨?_, ?_, ?_, ?_⟩ <;> decide

/-- C4, counterexample: on a `StarConvex` positioned away from the
origin, `add_node_convex` does not fill the parallelogram of the added
node — here the new node's local parallelogram must contain the edge
from `(0, 0)` to `(1, 0)`, but the double rebase attaches the edge to a
stray node instead. -/
theorem c4_counterexample :
    SCInv { pos := (1, 0), nodes := [(0, 0)], edges := [], faces := [] } ∧
    ¬ parFilled (add_node_convex
        { pos := (1, 0), nodes := [(0, 0)], edges := [], faces := [] } (2, 0))
      (sectorOf 1 0) 2 1 := by
  constructor
  · intro p hp a b ha hb hA hB
    simp only [List.mem_singleton] at hp
    subst hp
    have h1 : (sectorDist ((0 : Int), (0 : Int))).1 = 0 := by decide
    have h2 : (sectorDist ((0 : Int), (0 : Int))).2 = 0 := by decide
    rw [h1] at hA
    rw [h2] at hB
    have ha0 : a = 0 := by omega
    have hb0 : b = 0 := by omega
    subst ha0
    subst hb0
    show cellPt (sectorOf 0 0) 0 0 ∈ [((0 : Int), (0 : Int))]
    decide
  · intro h
    have := (h 1 0 (by decide) (by decide) (by decide) (by decide)).2.2.1 (by decide)
    exact absurd this (by decide)

/-! Monotone-extension machinery for the fill loop. -/

theorem idxLast_append_of_not_mem {ns ts : List Coord} {p : Coord} (h : p ∉ ts) :
    idxLast (ns ++ ts) p = idxLast ns p := by
  induction ns with
  | nil =>
    show idxLast ts p = idxLast [] p
    rw [idxLast_eq_none.mpr h]
    rfl
  | cons a as ih =>
    show idxLast (a :: (as ++ ts)) p = idxLast (a :: as) p
    rw [idxLast, idxLast, ih]

/-- One mesh extends another by fresh nodes and appended edges and
faces, at the same position. -/
def MonoExt (M N : Mesh) : Prop :=
  N.pos = M.pos ∧
  (∃ ts, N.nodes = M.nodes ++ ts ∧ ∀ t ∈ ts, t ∉ M.nodes) ∧
  (∃ es, N.edges = M.edges ++ es) ∧
  (∃ fs, N.faces = M.faces ++ fs)

theorem monoExt_refl (M : Mesh) : MonoExt M M :=
  ⟨rfl, ⟨[], by simp, by simp⟩, ⟨[], by simp⟩, ⟨[], by simp⟩⟩

theorem monoExt_trans {M N P : Mesh} (h1 : MonoExt M N) (h2 : MonoExt N P) :
    MonoExt M P := by
  obtain ⟨hp1, ⟨ts1, hn1, hf1⟩, ⟨es1, he1⟩, ⟨fs1, hq1⟩⟩ := h1
  obtain ⟨hp2, ⟨ts2, hn2, hf2⟩, ⟨es2, he2⟩, ⟨fs2, hq2⟩⟩ := h2
  refine ⟨hp2.trans hp1, ⟨ts1 ++ ts2, ?_, ?_⟩, ⟨es1 ++ es2, ?_⟩, ⟨fs1 ++ fs2, ?_⟩⟩
  · rw [hn2, hn1, List.append_assoc]
  · intro t ht
    rw [List.mem_append] at ht
    rcases ht with ht | ht
    · exact hf1 t ht
    · intro hmem
      exact hf2 t ht (hn1 ▸ List.mem_append_left ts1 hmem)
  · rw [he2, he1, List.append_assoc]
  · rw [hq2, hq1, List.append_assoc]

theorem monoExt_mem {M N : Mesh} (h : MonoExt M N) {p : Coord}
    (hp : p ∈ M.nodes) : p ∈ N.nodes := by
  obtain ⟨-, ⟨ts, hn, -⟩, -, -⟩ := h
  rw [hn]
  exact List.mem_append_left ts hp

theorem monoExt_idxLast {M N : Mesh} (h : MonoExt M N) {p : Coord}
    (hp : p ∈ M.nodes) : idxLast N.nodes p = idxLast M.nodes p := by
  obtain ⟨-, ⟨ts, hn, hf⟩, -, -⟩ := h
  rw [hn]
  exact idxLast_append_of_not_mem fun ht => hf p ht hp

theorem hasEdgeB_iff {m : Mesh} {p q : Coord} :
    hasEdgeB m p q = true ↔ ∃ a b, idxLast m.nodes p = some a ∧
      idxLast m.nodes q = some b ∧ containsEdgeL m.edges (a, b) = true := by
  unfold hasEdgeB
  cases h1 : idxLast m.nodes p <;> cases h2 : idxLast m.nodes q <;> simp

theorem hasFaceB_iff {m : Mesh} {p q r : Coord} :
    hasFaceB m p q r = true ↔ ∃ a b c, idxLast m.nodes p = some a ∧
      idxLast m.nodes q = some b ∧ idxLast m.nodes r = some c ∧
      containsFaceL m.faces (a, b, c) = true := by
  unfold hasFaceB
  cases h1 : idxLast m.nodes p <;> cases h2 : idxLast m.nodes q <;>
    cases h3 : idxLast m.nodes r <;> simp

theorem monoExt_hasEdgeB {M N : Mesh} (h : MonoExt M N) {p q : Coord}
    (hp : p ∈ M.nodes) (hq : q ∈ M.nodes)
    (he : hasEdgeB M p q = true) : hasEdgeB N p q = true := by
  rw [hasEdgeB_iff] at he ⊢
  obtain ⟨a, b, h1, h2, h3⟩ := he
  refine ⟨a, b, ?_, ?_, ?_⟩
  · rw [monoExt_idxLast h hp]
    exact h1
  · rw [monoExt_idxLast h hq]
    exact h2
  · obtain ⟨-, -, ⟨es, hes⟩, -⟩ := h
    rw [hes]
    exact containsEdgeL_mono h3

theorem monoExt_hasFaceB {M N : Mesh} (h : MonoExt M N) {p q r : Coord}
    (hp : p ∈ M.nodes) (hq : q ∈ M.nodes) (hr : r ∈ M.nodes)
    (he : hasFaceB M p q r = true) : hasFaceB N p q r = true := by
  rw [hasFaceB_iff] at he ⊢
  obtain ⟨a, b, c, h1, h2, h3, h4⟩ := he
  refine ⟨a, b, c, ?_, ?_, ?_, ?_⟩
  · rw [monoExt_idxLast h hp]
    exact h1
  · rw [monoExt_idxLast h hq]
    exact h2
  · rw [monoExt_idxLast h hr]
    exact h3
  · obtain ⟨-, -, -, ⟨fs, hfs⟩⟩ := h
    rw [hfs]
    exact containsFaceL_mono h4

theorem idxLast_isSome_of_mem {ns : List Coord} {p : Coord} (h : p ∈ ns) :
    ∃ a, idxLast ns p = some a := by
  cases hx : idxLast ns p with
  | some a => exact ⟨a, rfl⟩
  | none => exact absurd (idxLast_eq_none.mp hx) (by simpa using h)

theorem toLocal_origin {M : Mesh} (hpos : M.pos = (0, 0)) (p : Coord) :
    toLocal M p = p := by
  simp [toLocal, hpos]

/-- `add_edge` at position `(0, 0)` with both (local) endpoints present:
the nodes and faces do not change, the edges are only appended to, and
the edge between the two points is present afterwards. -/
theorem add_edge_spec0 {M : Mesh} (hpos : M.pos = (0, 0)) {p q : Coord}
    (hp : p ∈ M.nodes) (hq : q ∈ M.nodes) :
    (add_edge M p q).pos = M.pos ∧ (add_edge M p q).nodes = M.nodes ∧
    (∃ es, (add_edge M p q).edges = M.edges ++ es) ∧
    (add_edge M p q).faces = M.faces ∧
    hasEdgeB (add_edge M p q) p q = true := by
  obtain ⟨a, hA⟩ := idxLast_isSome_of_mem hp
  obtain ⟨b, hB⟩ := idxLast_isSome_of_mem hq
  simp only [add_edge, toLocal_origin hpos, hA, hB]
  split
  · next hc =>
    refine ⟨rfl, rfl, ⟨[], by simp⟩, rfl, ?_⟩
    rw [hasEdgeB_iff]
    exact ⟨a, b, hA, hB, hc⟩
  · next hc =>
    refine ⟨rfl, rfl, ⟨[(a, b)], rfl⟩, rfl, ?_⟩
    rw [hasEdgeB_iff]
    refine ⟨a, b, hA, hB, ?_⟩
    rw [containsEdgeL_append, Bool.or_eq_true]
    right
    exact containsEdgeL_of_mem (by simp)

theorem addFaceIdx_contains (fs : List (Nat × Nat × Nat)) (f : Nat × Nat × Nat) :
    containsFaceL (addFaceIdx fs f) f = true := by
  unfold addFaceIdx
  split
  · next hc => exact hc
  · exact containsFaceL_iff.mpr ⟨f, by simp, setEqT_refl _⟩

theorem addFaceIdx_append (fs : List (Nat × Nat × Nat)) (f : Nat × Nat × Nat) :
    ∃ ts, addFaceIdx fs f = fs ++ ts := by
  unfold addFaceIdx
  split
  · exact ⟨[], (List.append_nil fs).symm⟩
  · exact ⟨[f], rfl⟩

/-- `add_face` at position `(0, 0)` with all three (local) corners
present: the nodes do not change, edges and faces are only appended to,
and the face on the three points is present afterwards. -/
theorem add_face_spec0 {M : Mesh} (hpos : M.pos = (0, 0)) {p q r : Coord}
    (hp : p ∈ M.nodes) (hq : q ∈ M.nodes) (hr : r ∈ M.nodes) :
    (add_face M p q r).pos = M.pos ∧ (add_face M p q r).nodes = M.nodes ∧
    (∃ es, (add_face M p q r).edges = M.edges ++ es) ∧
    (∃ fs, (add_face M p q r).faces = M.faces ++ fs) ∧
    hasFaceB (add_face M p q r) p q r = true := by
  obtain ⟨a, hA⟩ := idxLast_isSome_of_mem hp
  obtain ⟨b, hB⟩ := idxLast_isSome_of_mem hq
  obtain ⟨c, hC⟩ := idxLast_isSome_of_mem hr
  simp only [add_face, toLocal_origin hpos, hA, hB, hC]
  rw [if_neg (by simp)]
  obtain ⟨ts1, ht1⟩ := addEdgeIdx_append M.edges a b
  obtain ⟨ts2, ht2⟩ := addEdgeIdx_append (addEdgeIdx M.edges a b) a c
  obtain ⟨ts3, ht3⟩ := addEdgeIdx_append (addEdgeIdx (addEdgeIdx M.edges a b) a c) b c
  refine ⟨rfl, rfl, ⟨ts1 ++ (ts2 ++ ts3), ?_⟩, addFaceIdx_append M.faces (a, b, c), ?_⟩
  · rw [ht3, ht2, ht1, List.append_assoc, List.append_assoc]
  · rw [hasFaceB_iff]
    exact ⟨a, b, c, hA, hB, hC, addFaceIdx_contains M.faces (a, b, c)⟩

theorem cellXY_down (dir1 dir2 : Coord) (ix iy : Int) :
    ((cellXY dir1 dir2 ix iy).1 - dir2.1, (cellXY dir1 dir2 ix iy).2 - dir2.2)
      = cellXY dir1 dir2 ix (iy - 1) := by
  simp only [cellXY, Prod.mk.injEq]
  constructor <;> ring

theorem cellXY_left (dir1 dir2 : Coord) (ix iy : Int) :
    ((cellXY dir1 dir2 ix iy).1 - dir1.1, (cellXY dir1 dir2 ix iy).2 - dir1.2)
      = cellXY dir1 dir2 (ix - 1) iy := by
  simp only [cellXY, Prod.mk.injEq]
  constructor <;> ring

theorem cellXY_upleft (dir1 dir2 : Coord) (ix iy : Int) :
    ((cellXY dir1 dir2 ix iy).1 - dir1.1 + dir2.1, (cellXY dir1 dir2 ix iy).2 - dir1.2 + dir2.2)
      = cellXY dir1 dir2 (ix - 1) (iy + 1) := by
  simp only [cellXY, Prod.mk.injEq]
  constructor <;> ring

theorem monoExt_of_parts {M N : Mesh} (hpos : N.pos = M.pos) (hn : N.nodes = M.nodes)
    (he : ∃ es, N.edges = M.edges ++ es) (hf : ∃ fs, N.faces = M.faces ++ fs) :
    MonoExt M N :=
  ⟨hpos, ⟨[], by rw [hn, List.append_nil], fun t ht => absurd ht (List.not_mem_nil t)⟩,
    he, hf⟩

theorem guarded_add_edge {M : Mesh} (hpos : M.pos = (0, 0)) {c : Prop} [Decidable c]
    {p q : Coord} (hpm : c → p ∈ M.nodes) (hqm : c → q ∈ M.nodes) :
    (if c then add_edge M p q else M).pos = M.pos ∧
    (if c then add_edge M p q else M).nodes = M.nodes ∧
    (∃ es, (if c then add_edge M p q else M).edges = M.edges ++ es) ∧
    (if c then add_edge M p q else M).faces = M.faces ∧
    (c → hasEdgeB (if c then add_edge M p q else M) p q = true) := by
  by_cases hc : c
  · rw [if_pos hc]
    obtain ⟨a1, a2, a3, a4, a5⟩ := add_edge_spec0 hpos (hpm hc) (hqm hc)
    exact ⟨a1, a2, a3, a4, fun _ => a5⟩
  · rw [if_neg hc]
    exact ⟨rfl, rfl, ⟨[], by simp⟩, rfl, fun h => absurd h hc⟩

theorem guarded_add_face {M : Mesh} (hpos : M.pos = (0, 0)) {c : Prop} [Decidable c]
    {p q r : Coord} (hpm : c → p ∈ M.nodes) (hqm : c → q ∈ M.nodes)
    (hrm : c → r ∈ M.nodes) :
    (if c then add_face M p q r else M).pos = M.pos ∧
    (if c then add_face M p q r else M).nodes = M.nodes ∧
    (∃ es, (if c then add_face M p q r else M).edges = M.edges ++ es) ∧
    (∃ fs, (if c then add_face M p q r else M).faces = M.faces ++ fs) ∧
    (c → hasFaceB (if c then add_face M p q r else M) p q r = true) := by
  by_cases hc : c
  · rw [if_pos hc]
    obtain ⟨a1, a2, a3, a4, a5⟩ := add_face_spec0 hpos (hpm hc) (hqm hc) (hrm hc)
    exact ⟨a1, a2, a3, a4, fun _ => a5⟩
  · rw [if_neg hc]
    exact ⟨rfl, rfl, ⟨[], by simp⟩, ⟨[], by simp⟩, fun h => absurd h hc⟩

/-- What one fill-loop iteration guarantees at position `(0, 0)` when
the already-visited neighbor cells are present: monotone extension, the
cell node present, no nodes beyond the cell added, and all edge and face
obligations of the cell established. -/
theorem convexCellStep_spec {d2 : Int} (dir1 dir2 : Coord) (ix iy : Int) {M : Mesh}
    (hpos : M.pos = (0, 0))
    (hdown : 0 < iy → cellXY dir1 dir2 ix (iy - 1) ∈ M.nodes)
    (hleft : 0 < ix → cellXY dir1 dir2 (ix - 1) iy ∈ M.nodes)
    (hup : 0 < ix → iy < d2 - 1 → cellXY dir1 dir2 (ix - 1) (iy + 1) ∈ M.nodes) :
    MonoExt M (convexCellStep d2 dir1 dir2 ix iy M) ∧
    cellXY dir1 dir2 ix iy ∈ (convexCellStep d2 dir1 dir2 ix iy M).nodes ∧
    (∀ t ∈ (convexCellStep d2 dir1 dir2 ix iy M).nodes,
      t ∈ M.nodes ∨ t = cellXY dir1 dir2 ix iy) ∧
    (0 < iy → hasEdgeB (convexCellStep d2 dir1 dir2 ix iy M)
      (cellXY dir1 dir2 ix (iy - 1)) (cellXY dir1 dir2 ix iy) = true) ∧
    (0 < ix → hasEdgeB (convexCellStep d2 dir1 dir2 ix iy M)
      (cellXY dir1 dir2 (ix - 1) iy) (cellXY dir1 dir2 ix iy) = true) ∧
    (0 < ix → iy < d2 - 1 → hasEdgeB (convexCellStep d2 dir1 dir2 ix iy M)
      (cellXY dir1 dir2 (ix - 1) (iy + 1)) (cellXY dir1 dir2 ix iy) = true) ∧
    (0 < ix → 0 < iy → hasFaceB (convexCellStep d2 dir1 dir2 ix iy M)
      (cellXY dir1 dir2 (ix - 1) iy) (cellXY dir1 dir2 ix (iy - 1))
      (cellXY dir1 dir2 ix iy) = true) ∧
    (0 < ix → iy < d2 - 1 → hasFaceB (convexCellStep d2 dir1 dir2 ix iy M)
      (cellXY dir1 dir2 (ix - 1) iy) (cellXY dir1 dir2 ix iy)
      (cellXY dir1 dir2 (ix - 1) (iy + 1)) = true) := by
  let nd := cellXY dir1 dir2 ix iy
  let M1 := if nd ∈ M.nodes then M else { M with nodes := M.nodes ++ [nd] }
  let dn : Coord := (nd.1 - dir2.1, nd.2 - dir2.2)
  let M2 := if 0 < iy ∧ dn ∈ M1.nodes then add_edge M1 dn nd else M1
  let lf : Coord := (nd.1 - dir1.1, nd.2 - dir1.2)
  let M3 := if 0 < ix ∧ lf ∈ M2.nodes then add_edge M2 lf nd else M2
  let up : Coord := (lf.1 + dir2.1, lf.2 + dir2.2)
  let M4 := if 0 < ix ∧ iy < d2 - 1 ∧ up ∈ M3.nodes then add_edge M3 up nd else M3
  let M5 := if (0 < iy ∧ dn ∈ M1.nodes) ∧ (0 < ix ∧ lf ∈ M2.nodes) then
    add_face M4 lf dn nd else M4
  let M6 := if (0 < ix ∧ lf ∈ M2.nodes) ∧ (0 < ix ∧ iy < d2 - 1 ∧ up ∈ M3.nodes) then
    add_face M5 lf nd up else M5
  have hM6 : convexCellStep d2 dir1 dir2 ix iy M = M6 := rfl
  rw [hM6]
  have hdn : dn = cellXY dir1 dir2 ix (iy - 1) := cellXY_down dir1 dir2 ix iy
  have hlf : lf = cellXY dir1 dir2 (ix - 1) iy := cellXY_left dir1 dir2 ix iy
  have hupc : up = cellXY dir1 dir2 (ix - 1) (iy + 1) := cellXY_upleft dir1 dir2 ix iy
  have h1 : MonoExt M M1 ∧ nd ∈ M1.nodes ∧ M1.pos = M.pos ∧ M1.edges = M.edges ∧
      M1.faces = M.faces ∧ (∀ t ∈ M1.nodes, t ∈ M.nodes ∨ t = nd) := by
    by_cases h : nd ∈ M.nodes
    · have hM1 : M1 = M := if_pos h
      rw [hM1]
      exact ⟨monoExt_refl M, h, rfl, rfl, rfl, fun t ht => Or.inl ht⟩
    · have hM1 : M1 = { M with nodes := M.nodes ++ [nd] } := if_neg h
      rw [hM1]
      refine ⟨⟨rfl, ⟨[nd], rfl, ?_⟩, ⟨[], by simp⟩, ⟨[], by simp⟩⟩, ?_, rfl, rfl, rfl, ?_⟩
      · intro t ht
        simp only [List.mem_singleton] at ht
        subst ht
        exact h
      · show nd ∈ M.nodes ++ [nd]
        simp
      · intro t ht
        simp only [List.mem_append, List.mem_singleton] at ht
        exact ht
  obtain ⟨e1, h1mem, h1pos, h1e, h1f, h1char⟩ := h1
  have hpos1 : M1.pos = (0, 0) := h1pos.trans hpos
  have g2 := guarded_add_edge hpos1 (fun (h : 0 < iy ∧ dn ∈ M1.nodes) => h.2)
    (fun _ => h1mem)
  obtain ⟨g2pos, g2n, g2e, g2f, g2edge⟩ := g2
  have e2 : MonoExt M1 M2 := monoExt_of_parts g2pos g2n g2e ⟨[], by rw [g2f, List.append_nil]⟩
  have hpos2 : M2.pos = (0, 0) := g2pos.trans hpos1
  have h2mem : nd ∈ M2.nodes := by rw [g2n]; exact h1mem
  have g3 := guarded_add_edge hpos2 (fun (h : 0 < ix ∧ lf ∈ M2.nodes) => h.2)
    (fun _ => h2mem)
  obtain ⟨g3pos, g3n, g3e, g3f, g3edge⟩ := g3
  have e3 : MonoExt M2 M3 := monoExt_of_parts g3pos g3n g3e ⟨[], by rw [g3f, List.append_nil]⟩
  have hpos3 : M3.pos = (0, 0) := g3pos.trans hpos2
  have h3mem : nd ∈ M3.nodes := by rw [g3n]; exact h2mem
  have g4 := guarded_add_edge hpos3 (fun (h : 0 < ix ∧ iy < d2 - 1 ∧ up ∈ M3.nodes) => h.2.2)
    (fun _ => h3mem)
  obtain ⟨g4pos, g4n, g4e, g4f, g4edge⟩ := g4
  have e4 : MonoExt M3 M4 := monoExt_of_parts g4pos g4n g4e ⟨[], by rw [g4f, List.append_nil]⟩
  have hpos4 : M4.pos = (0, 0) := g4pos.trans hpos3
  have h4lf : ∀ h : (0 < iy ∧ dn ∈ M1.nodes) ∧ (0 < ix ∧ lf ∈ M2.nodes), lf ∈ M4.nodes := by
    intro h
    rw [g4n, g3n]
    exact h.2.2
  have g5 := guarded_add_face hpos4 h4lf
    (fun (h : (0 < iy ∧ dn ∈ M1.nodes) ∧ (0 < ix ∧ lf ∈ M2.nodes)) => by
      rw [g4n, g3n, g2n]
      exact h.1.2)
    (fun _ => by rw [g4n]; exact h3mem)
  obtain ⟨g5pos, g5n, g5e, g5f, g5face⟩ := g5
  have e5 : MonoExt M4 M5 := monoExt_of_parts g5pos g5n g5e g5f
  have hpos5 : M5.pos = (0, 0) := g5pos.trans hpos4
  have h5lf : ∀ h : (0 < ix ∧ lf ∈ M2.nodes) ∧ (0 < ix ∧ iy < d2 - 1 ∧ up ∈ M3.nodes),
      lf ∈ M5.nodes := by
    intro h
    rw [g5n, g4n, g3n]
    exact h.1.2
  have g6 := guarded_add_face hpos5 h5lf
    (fun _ => by rw [g5n, g4n]; exact h3mem)
    (fun (h : (0 < ix ∧ lf ∈ M2.nodes) ∧ (0 < ix ∧ iy < d2 - 1 ∧ up ∈ M3.nodes)) => by
      rw [g5n, g4n]
      exact h.2.2.2)
  obtain ⟨g6pos, g6n, g6e, g6f, g6face⟩ := g6
  have e6 : MonoExt M5 M6 := monoExt_of_parts g6pos g6n g6e g6f
  have e26 : MonoExt M2 M6 := monoExt_trans e3 (monoExt_trans e4 (monoExt_trans e5 e6))
  have e36 : MonoExt M3 M6 := monoExt_trans e4 (monoExt_trans e5 e6)
  have e46 : MonoExt M4 M6 := monoExt_trans e5 e6
  have e16 : MonoExt M1 M6 := monoExt_trans e2 e26
  have eAll : MonoExt M M6 := monoExt_trans e1 e16
  have hndM6 : nd ∈ M6.nodes := monoExt_mem e16 h1mem
  have hchar : ∀ t ∈ M6.nodes, t ∈ M.nodes ∨ t = nd := by
    intro t ht
    rw [g6n, g5n, g4n, g3n, g2n] at ht
    exact h1char t ht
  have hdownM1 : 0 < iy → dn ∈ M1.nodes := by
    intro hiy
    rw [hdn]
    exact monoExt_mem e1 (hdown hiy)
  have hleftM2 : 0 < ix → lf ∈ M2.nodes := by
    intro hix
    rw [hlf, g2n]
    exact monoExt_mem e1 (hleft hix)
  have hupM3 : 0 < ix → iy < d2 - 1 → up ∈ M3.nodes := by
    intro hix hud
    rw [hupc, g3n, g2n]
    exact monoExt_mem e1 (hup hix hud)
  refine ⟨eAll, hndM6, hchar, ?_, ?_, ?_, ?_, ?_⟩
  · intro hiy
    have hc : 0 < iy ∧ dn ∈ M1.nodes := ⟨hiy, hdownM1 hiy⟩
    have h := g2edge hc
    have hm := monoExt_hasEdgeB e26 (by rw [g2n]; exact hc.2) h2mem h
    rw [hdn] at hm
    exact hm
  · intro hix
    have hc : 0 < ix ∧ lf ∈ M2.nodes := ⟨hix, hleftM2 hix⟩
    have h := g3edge hc
    have hm := monoExt_hasEdgeB e36 (by rw [g3n]; exact hc.2) h3mem h
    rw [hlf] at hm
    exact hm
  · intro hix hud
    have hc : 0 < ix ∧ iy < d2 - 1 ∧ up ∈ M3.nodes := ⟨hix, hud, hupM3 hix hud⟩
    have h := g4edge hc
    have hm := monoExt_hasEdgeB e46 (by rw [g4n]; exact hc.2.2) (by rw [g4n]; exact h3mem) h
    rw [hupc] at hm
    exact hm
  · intro hix hiy
    have hc : (0 < iy ∧ dn ∈ M1.nodes) ∧ (0 < ix ∧ lf ∈ M2.nodes) :=
      ⟨⟨hiy, hdownM1 hiy⟩, ⟨hix, hleftM2 hix⟩⟩
    have h := g5face hc
    have hlf5 : lf ∈ M5.nodes := by
      rw [g5n, g4n, g3n]
      exact hc.2.2
    have hdn5 : dn ∈ M5.nodes := by
      rw [g5n, g4n, g3n, g2n]
      exact hc.1.2
    have hnd5 : nd ∈ M5.nodes := by
      rw [g5n, g4n]
      exact h3mem
    have hm := monoExt_hasFaceB e6 hlf5 hdn5 hnd5 h
    rw [hlf, hdn] at hm
    exact hm
  · intro hix hud
    have hc : (0 < ix ∧ lf ∈ M2.nodes) ∧ (0 < ix ∧ iy < d2 - 1 ∧ up ∈ M3.nodes) :=
      ⟨⟨hix, hleftM2 hix⟩, ⟨hix, hud, hupM3 hix hud⟩⟩
    have hm : hasFaceB M6 lf nd up = true := g6face hc
    rw [← hlf, ← hupc]
    exact hm

/-- The obligations of one processed cell of the fill loop. -/
def cellObl (dir1 dir2 : Coord) (d2 : Int) (m : Mesh) (a b : Int) : Prop :=
  cellXY dir1 dir2 a b ∈ m.nodes ∧
  (0 < b → hasEdgeB m (cellXY dir1 dir2 a (b - 1)) (cellXY dir1 dir2 a b) = true) ∧
  (0 < a → hasEdgeB m (cellXY dir1 dir2 (a - 1) b) (cellXY dir1 dir2 a b) = true) ∧
  (0 < a → b < d2 - 1 → hasEdgeB m (cellXY dir1 dir2 (a - 1) (b + 1))
    (cellXY dir1 dir2 a b) = true) ∧
  (0 < a → 0 < b → hasFaceB m (cellXY dir1 dir2 (a - 1) b) (cellXY dir1 dir2 a (b - 1))
    (cellXY dir1 dir2 a b) = true) ∧
  (0 < a → b < d2 - 1 → hasFaceB m (cellXY dir1 dir2 (a - 1) b) (cellXY dir1 dir2 a b)
    (cellXY dir1 dir2 (a - 1) (b + 1)) = true)

theorem cellObl_mono {dir1 dir2 : Coord} {d2 : Int} {M N : Mesh} {a b : Int}
    (hmono : MonoExt M N)
    (hd : 0 < b → cellXY dir1 dir2 a (b - 1) ∈ M.nodes)
    (hl : 0 < a → cellXY dir1 dir2 (a - 1) b ∈ M.nodes)
    (hu : 0 < a → b < d2 - 1 → cellXY dir1 dir2 (a - 1) (b + 1) ∈ M.nodes)
    (h : cellObl dir1 dir2 d2 M a b) : cellObl dir1 dir2 d2 N a b := by
  obtain ⟨c1, c2, c3, c4, c5, c6⟩ := h
  refine ⟨monoExt_mem hmono c1, ?_, ?_, ?_, ?_, ?_⟩
  · intro hb
    exact monoExt_hasEdgeB hmono (hd hb) c1 (c2 hb)
  · intro ha
    exact monoExt_hasEdgeB hmono (hl ha) c1 (c3 ha)
  · intro ha hb
    exact monoExt_hasEdgeB hmono (hu ha hb) c1 (c4 ha hb)
  · intro ha hb
    exact monoExt_hasFaceB hmono (hl ha) (hd hb) c1 (c5 ha hb)
  · intro ha hb
    exact monoExt_hasFaceB hmono (hl ha) c1 (hu ha hb) (c6 ha hb)

/-- What processing one whole column `I` of the parallelogram (the inner
`for iy` loop) guarantees, given that column `I - 1` is fully present. -/
theorem convexColSpec {d2 : Int} (dir1 dir2 : Coord) (I : Int) (J : Nat)
    (hJ : (J : Int) ≤ d2) {M : Mesh} (hpos : M.pos = (0, 0))
    (hprevcol : 0 < I → ∀ b : Int, 0 ≤ b → b < d2 → cellXY dir1 dir2 (I - 1) b ∈ M.nodes) :
    MonoExt M ((List.range J).foldl
      (fun acc2 (iy : Nat) => convexCellStep d2 dir1 dir2 I (iy : Int) acc2) M) ∧
    (∀ b : Int, 0 ≤ b → b < (J : Int) → cellObl dir1 dir2 d2
      ((List.range J).foldl (fun acc2 (iy : Nat) => convexCellStep d2 dir1 dir2 I (iy : Int) acc2) M)
      I b) ∧
    (∀ t ∈ ((List.range J).foldl
        (fun acc2 (iy : Nat) => convexCellStep d2 dir1 dir2 I (iy : Int) acc2) M).nodes,
      t ∈ M.nodes ∨ ∃ b : Int, 0 ≤ b ∧ b < (J : Int) ∧ t = cellXY dir1 dir2 I b) := by
  induction J with
  | zero =>
    refine ⟨monoExt_refl M, ?_, fun t ht => Or.inl ht⟩
    intro b hb1 hb2
    omega
  | succ J ih =>
    have hJ' : (J : Int) ≤ d2 := by push_cast at hJ ⊢; omega
    obtain ⟨mJ, oblJ, charJ⟩ := ih hJ'
    rw [List.range_succ, List.foldl_append, List.foldl_cons, List.foldl_nil]
    have hposJ : ((List.range J).foldl
        (fun acc2 (iy : Nat) => convexCellStep d2 dir1 dir2 I (iy : Int) acc2) M).pos = (0, 0) :=
      mJ.1.trans hpos
    have hdown : 0 < (J : Int) → cellXY dir1 dir2 I ((J : Int) - 1) ∈
        ((List.range J).foldl
          (fun acc2 (iy : Nat) => convexCellStep d2 dir1 dir2 I (iy : Int) acc2) M).nodes := by
      intro hj
      exact (oblJ ((J : Int) - 1) (by omega) (by omega)).1
    have hleft : 0 < I → cellXY dir1 dir2 (I - 1) (J : Int) ∈
        ((List.range J).foldl
          (fun acc2 (iy : Nat) => convexCellStep d2 dir1 dir2 I (iy : Int) acc2) M).nodes := by
      intro hI
      exact monoExt_mem mJ (hprevcol hI (J : Int) (by omega) (by push_cast at hJ; omega))
    have hup : 0 < I → (J : Int) < d2 - 1 → cellXY dir1 dir2 (I - 1) ((J : Int) + 1) ∈
        ((List.range J).foldl
          (fun acc2 (iy : Nat) => convexCellStep d2 dir1 dir2 I (iy : Int) acc2) M).nodes := by
      intro hI hd
      exact monoExt_mem mJ (hprevcol hI ((J : Int) + 1) (by omega) (by omega))
    obtain ⟨mS, memS, charS, s4, s5, s6, s7, s8⟩ :=
      convexCellStep_spec dir1 dir2 I (J : Int) hposJ hdown hleft hup
    refine ⟨monoExt_trans mJ mS, ?_, ?_⟩
    · intro b hb1 hb2
      by_cases hbJ : b = (J : Int)
      · subst hbJ
        exact ⟨memS, s4, s5, s6, s7, s8⟩
      · have hbJ' : b < (J : Int) := by omega
        refine cellObl_mono mS ?_ ?_ ?_ (oblJ b hb1 hbJ')
        · intro hb
          exact (oblJ (b - 1) (by omega) (by omega)).1
        · intro ha
          exact monoExt_mem mJ (hprevcol ha b hb1 (by omega))
        · intro ha hb
          exact monoExt_mem mJ (hprevcol ha (b + 1) (by omega) (by omega))
    · intro t ht
      rcases charS t ht with ht' | ht'
      · rcases charJ t ht' with h | ⟨b, hb1, hb2, hb3⟩
        · exact Or.inl h
        · exact Or.inr ⟨b, hb1, by omega, hb3⟩
      · exact Or.inr ⟨(J : Int), by omega, by omega, ht'⟩

/-- What the whole fill loop of `add_node_convex` (both nested `for`
loops) guarantees at the origin. -/
theorem convexFillSpec {d2 : Int} (dir1 dir2 : Coord) (K : Nat) (hd2 : 0 < d2)
    {M : Mesh} (hpos : M.pos = (0, 0)) :
    MonoExt M ((List.range K).foldl (fun acc (ix : Nat) =>
      (List.range d2.toNat).foldl
        (fun acc2 (iy : Nat) => convexCellStep d2 dir1 dir2 (ix : Int) (iy : Int) acc2) acc) M) ∧
    (∀ a b : Int, 0 ≤ a → a < (K : Int) → 0 ≤ b → b < d2 → cellObl dir1 dir2 d2
      ((List.range K).foldl (fun acc (ix : Nat) =>
        (List.range d2.toNat).foldl
          (fun acc2 (iy : Nat) => convexCellStep d2 dir1 dir2 (ix : Int) (iy : Int) acc2) acc) M)
      a b) ∧
    (∀ t ∈ ((List.range K).foldl (fun acc (ix : Nat) =>
        (List.range d2.toNat).foldl
          (fun acc2 (iy : Nat) => convexCellStep d2 dir1 dir2 (ix : Int) (iy : Int) acc2) acc) M).nodes,
      t ∈ M.nodes ∨ ∃ a b : Int, 0 ≤ a ∧ a < (K : Int) ∧ 0 ≤ b ∧ b < d2 ∧
        t = cellXY dir1 dir2 a b) := by
  have htn : ((d2.toNat : Int)) = d2 := Int.toNat_of_nonneg (by omega)
  induction K with
  | zero =>
    refine ⟨monoExt_refl M, ?_, fun t ht => Or.inl ht⟩
    intro a b ha1 ha2
    omega
  | succ K ih =>
    obtain ⟨mK, oblK, charK⟩ := ih
    rw [List.range_succ, List.foldl_append, List.foldl_cons, List.foldl_nil]
    have hposK : ((List.range K).foldl (fun acc (ix : Nat) =>
        (List.range d2.toNat).foldl
          (fun acc2 (iy : Nat) => convexCellStep d2 dir1 dir2 (ix : Int) (iy : Int) acc2) acc) M).pos
        = (0, 0) := mK.1.trans hpos
    have hprevcol : 0 < (K : Int) → ∀ b : Int, 0 ≤ b → b < d2 →
        cellXY dir1 dir2 ((K : Int) - 1) b ∈ ((List.range K).foldl (fun acc (ix : Nat) =>
          (List.range d2.toNat).foldl
            (fun acc2 (iy : Nat) => convexCellStep d2 dir1 dir2 (ix : Int) (iy : Int) acc2) acc)
          M).nodes := by
      intro hK b hb1 hb2
      exact (oblK ((K : Int) - 1) b (by omega) (by omega) hb1 hb2).1
    obtain ⟨mS, oblS, charS⟩ :=
      convexColSpec dir1 dir2 (K : Int) d2.toNat (by omega) hposK hprevcol
    refine ⟨monoExt_trans mK mS, ?_, ?_⟩
    · intro a b ha1 ha2 hb1 hb2
      by_cases haK : a = (K : Int)
      · subst haK
        exact oblS b hb1 (by omega)
      · have haK' : a < (K : Int) := by omega
        refine cellObl_mono mS ?_ ?_ ?_ (oblK a b ha1 haK' hb1 hb2)
        · intro hb
          exact (oblK a (b - 1) ha1 haK' (by omega) (by omega)).1
        · intro ha
          exact (oblK (a - 1) b (by omega) (by omega) hb1 hb2).1
        · intro ha hb
          exact (oblK (a - 1) (b + 1) (by omega) (by omega) (by omega) (by omega)).1
    · intro t ht
      rcases charS t ht with ht' | ⟨b, hb1, hb2, hb3⟩
      · rcases charK t ht' with h | ⟨a, b, ha1, ha2, hb1, hb2, hb3⟩
        · exact Or.inl h
        · exact Or.inr ⟨a, b, ha1, by omega, hb1, hb2, hb3⟩
      · exact Or.inr ⟨(K : Int), b, by omega, by omega, hb1, by omega, hb3⟩

/-- A cell strictly inside sector `s` (first coordinate at least 1) is
classified into sector `s`, and rotating it back into sector 0 recovers
its cell coordinates. -/
theorem cellPt_sector (s : Nat) (hs : s < 6) (a b : Int) (ha : 1 ≤ a) (hb : 0 ≤ b) :
    sectorOf (cellPt s a b).1 (cellPt s a b).2 = s ∧ sectorDist (cellPt s a b) = (a, b) := by
  interval_cases s
  · have hc : cellPt 0 a b = (a, b) := by
      simp only [cellPt, cellXY, dirVec, pyIdx, DIR_VECS]
      norm_num [show Int.toNat 2 = 2 by decide, show Int.toNat 3 = 3 by decide,
        show Int.toNat 4 = 4 by decide, show Int.toNat 5 = 5 by decide]
    rw [hc]
    have hsec : sectorOf ((a, b)).1 ((a, b)).2 = 0 := by
      simp only [sectorOf]
      split_ifs <;> omega
    refine ⟨hsec, ?_⟩
    simp only [sectorDist, hsec]
    norm_num
    simp only [rotPt, rotate_grid_point, pyIdx, DIR_VECS]
    norm_num [show Int.toNat 2 = 2 by decide, show Int.toNat 3 = 3 by decide,
      show Int.toNat 4 = 4 by decide, show Int.toNat 5 = 5 by decide]
  · have hc : cellPt 1 a b = (-b, a + b) := by
      simp only [cellPt, cellXY, dirVec, pyIdx, DIR_VECS]
      norm_num [show Int.toNat 2 = 2 by decide, show Int.toNat 3 = 3 by decide,
        show Int.toNat 4 = 4 by decide, show Int.toNat 5 = 5 by decide]
    rw [hc]
    have hsec : sectorOf ((-b, a + b)).1 ((-b, a + b)).2 = 1 := by
      simp only [sectorOf]
      split_ifs <;> omega
    refine ⟨hsec, ?_⟩
    simp only [sectorDist, hsec]
    norm_num
    simp only [rotPt, rotate_grid_point, pyIdx, DIR_VECS]
    norm_num [show Int.toNat 2 = 2 by decide, show Int.toNat 3 = 3 by decide,
      show Int.toNat 4 = 4 by decide, show Int.toNat 5 = 5 by decide]
  · have hc : cellPt 2 a b = (-a - b, a) := by
      simp only [cellPt, cellXY, dirVec, pyIdx, DIR_VECS]
      norm_num [show Int.toNat 2 = 2 by decide, show Int.toNat 3 = 3 by decide,
        show Int.toNat 4 = 4 by decide, show Int.toNat 5 = 5 by decide]
      ring
    rw [hc]
    have hsec : sectorOf ((-a - b, a)).1 ((-a - b, a)).2 = 2 := by
      simp only [sectorOf]
      split_ifs <;> omega
    refine ⟨hsec, ?_⟩
    simp only [sectorDist, hsec]
    norm_num
    simp only [rotPt, rotate_grid_point, pyIdx, DIR_VECS]
    norm_num [show Int.toNat 2 = 2 by decide, show Int.toNat 3 = 3 by decide,
      show Int.toNat 4 = 4 by decide, show Int.toNat 5 = 5 by decide]
  · have hc : cellPt 3 a b = (-a, -b) := by
      simp only [cellPt, cellXY, dirVec, pyIdx, DIR_VECS]
      norm_num [show Int.toNat 2 = 2 by decide, show Int.toNat 3 = 3 by decide,
        show Int.toNat 4 = 4 by decide, show Int.toNat 5 = 5 by decide]
    rw [hc]
    have hsec : sectorOf ((-a, -b)).1 ((-a, -b)).2 = 3 := by
      simp only [sectorOf]
      split_ifs <;> omega
    refine ⟨hsec, ?_⟩
    simp only [sectorDist, hsec]
    norm_num
    simp only [rotPt, rotate_grid_point, pyIdx, DIR_VECS]
    norm_num [show Int.toNat 2 = 2 by decide, show Int.toNat 3 = 3 by decide,
      show Int.toNat 4 = 4 by decide, show Int.toNat 5 = 5 by decide]
  · have hc : cellPt 4 a b = (b, -a - b) := by
      simp only [cellPt, cellXY, dirVec, pyIdx, DIR_VECS]
      norm_num [show Int.toNat 2 = 2 by decide, show Int.toNat 3 = 3 by decide,
        show Int.toNat 4 = 4 by decide, show Int.toNat 5 = 5 by decide]
      ring
    rw [hc]
    have hsec : sectorOf ((b, -a - b)).1 ((b, -a - b)).2 = 4 := by
      simp only [sectorOf]
      split_ifs <;> omega
    refine ⟨hsec, ?_⟩
    simp only [sectorDist, hsec]
    norm_num
    simp only [rotPt, rotate_grid_point, pyIdx, DIR_VECS]
    norm_num [show Int.toNat 2 = 2 by decide, show Int.toNat 3 = 3 by decide,
      show Int.toNat 4 = 4 by decide, show Int.toNat 5 = 5 by decide]
  · have hc : cellPt 5 a b = (a + b, -a) := by
      simp only [cellPt, cellXY, dirVec, pyIdx, DIR_VECS]
      norm_num [show Int.toNat 2 = 2 by decide, show Int.toNat 3 = 3 by decide,
        show Int.toNat 4 = 4 by decide, show Int.toNat 5 = 5 by decide]
    rw [hc]
    have hsec : sectorOf ((a + b, -a)).1 ((a + b, -a)).2 = 5 := by
      simp only [sectorOf]
      split_ifs <;> omega
    refine ⟨hsec, ?_⟩
    simp only [sectorDist, hsec]
    norm_num
    simp only [rotPt, rotate_grid_point, pyIdx, DIR_VECS]
    norm_num [show Int.toNat 2 = 2 by decide, show Int.toNat 3 = 3 by decide,
      show Int.toNat 4 = 4 by decide, show Int.toNat 5 = 5 by decide]

theorem sectorOf_lt (x y : Int) : sectorOf x y < 6 := by
  simp only [sectorOf]
  split_ifs <;> omega

theorem cellPt_zero (s : Nat) : cellPt s 0 0 = (0, 0) := by
  simp [cellPt, cellXY]

/-- A cell on the upper boundary axis of sector `s` is the same point as
a cell on the lower axis of the next sector. -/
theorem cellPt_axis (s : Nat) (b : Int) :
    cellPt s 0 b = cellPt ((s + 1) % 6) b 0 := by
  have harg : ((((s + 1) % 6 : Nat)) : Int) = ((s : Int) + 1) % 6 := by push_cast; ring
  simp only [cellPt, cellXY, harg, Prod.mk.injEq]
  constructor <;> ring

/-- Any local point has nonnegative rotated sector coordinates and is
recovered from them as a cell of its sector. -/
theorem sectorDist_cell (x y : Int) :
    0 ≤ (sectorDist (x, y)).1 ∧ 0 ≤ (sectorDist (x, y)).2 ∧
    cellPt (sectorOf x y) (sectorDist (x, y)).1 (sectorDist (x, y)).2 = (x, y) := by
  have d0 : dirVec 0 = (1, 0) := by decide
  have d1 : dirVec 1 = (0, 1) := by decide
  have d2 : dirVec 2 = (-1, 1) := by decide
  have d3 : dirVec 3 = (-1, 0) := by decide
  have d4 : dirVec 4 = (0, -1) := by decide
  have d5 : dirVec 5 = (1, -1) := by decide
  simp only [sectorDist, sectorOf]
  split_ifs with h0 h1 h2 h3 h4 <;>
    simp only [rotPt, rotate_grid_point, pyIdx, DIR_VECS, cellPt, cellXY] <;>
    norm_num [show Int.toNat 2 = 2 by decide, show Int.toNat 3 = 3 by decide,
      show Int.toNat 4 = 4 by decide, show Int.toNat 5 = 5 by decide,
      d0, d1, d2, d3, d4, d5] <;>
    omega

/-- C4 (amended): on a `StarConvex` positioned at the origin — the only
position at which the application ever mutates one — `add_node_convex`
preserves the star-convexity invariant, and fills in the entire
`dist1 x dist2` parallelogram of nodes, edges and unit-cell triangles
for the added node.  Positioned away from the origin the property fails
(`c4_counterexample`). -/
theorem c4_convex_preserved {m : Mesh} (g : Coord) (hpos : m.pos = (0, 0))
    (hinv : SCInv m) :
    SCInv (add_node_convex m g) ∧
    (g ∉ m.nodes → parFilled (add_node_convex m g) (sectorOf g.1 g.2)
      ((sectorDist g).1 + 1) ((sectorDist g).2 + 1)) := by
  obtain ⟨hi0, hj0, hrec⟩ := sectorDist_cell g.1 g.2
  rw [Prod.mk.eta] at hi0 hj0 hrec
  simp only [add_node_convex, hpos]
  norm_num
  have hsd : rotPt g ((6 - ((sectorOf g.1 g.2 : Nat) : Int)) % 6) = sectorDist g := rfl
  rw [hsd]
  split
  · next hmem =>
    exact ⟨hinv, fun hno => absurd hmem hno⟩
  · next hno =>
    have hd2 : 0 < (sectorDist g).2 + 1 := by omega
    obtain ⟨mAll, oblAll, charAll⟩ :=
      convexFillSpec (dirVec ((sectorOf g.1 g.2 : Nat) : Int))
        (dirVec ((((sectorOf g.1 g.2 : Nat) : Int) + 1) % 6))
        ((sectorDist g).1 + 1).toNat hd2 hpos
    have hKI : ((((sectorDist g).1 + 1).toNat : Nat) : Int) = (sectorDist g).1 + 1 :=
      Int.toNat_of_nonneg (by omega)
    constructor
    · intro p hp a b ha hb hA hB
      rcases charAll p hp with hold | ⟨a0, b0, ha01, ha02, hb01, hb02, heq⟩
      · exact monoExt_mem mAll (hinv p hold a b ha hb hA hB)
      · by_cases ha0pos : 1 ≤ a0
        · obtain ⟨hsec, hdist⟩ :=
            cellPt_sector (sectorOf g.1 g.2) (sectorOf_lt g.1 g.2) a0 b0 ha0pos hb01
          have heq' : p = cellPt (sectorOf g.1 g.2) a0 b0 := heq
          subst heq'
          rw [hsec]
          have hA' : a ≤ a0 := by
            rw [hdist] at hA
            exact hA
          have hB' : b ≤ b0 := by
            rw [hdist] at hB
            exact hB
          exact (oblAll a b ha (by omega) hb (by omega)).1
        · have ha00 : a0 = 0 := by omega
          subst ha00
          by_cases hb0pos : 1 ≤ b0
          · have heq' : p = cellPt ((sectorOf g.1 g.2 + 1) % 6) b0 0 := by
              rw [heq]
              exact cellPt_axis (sectorOf g.1 g.2) b0
            obtain ⟨hsec, hdist⟩ :=
              cellPt_sector ((sectorOf g.1 g.2 + 1) % 6) (Nat.mod_lt _ (by omega)) b0 0
                hb0pos le_rfl
            subst heq'
            rw [hsec]
            have hA' : a ≤ b0 := by
              rw [hdist] at hA
              exact hA
            have hB' : b ≤ 0 := by
              rw [hdist] at hB
              exact hB
            have hb00 : b = 0 := by omega
            subst hb00
            rw [← cellPt_axis (sectorOf g.1 g.2) a]
            exact (oblAll 0 a (by omega) (by omega) ha (by omega)).1
          · have hb00 : b0 = 0 := by omega
            subst hb00
            have heq' : p = ((0 : Int), (0 : Int)) := by
              rw [heq]
              exact cellPt_zero (sectorOf g.1 g.2)
            subst heq'
            have h5 : sectorOf ((0 : Int), (0 : Int)).1 ((0 : Int), (0 : Int)).2 = 5 := by
              decide
            have hsd0 : sectorDist ((0 : Int), (0 : Int)) = (0, 0) := by decide
            rw [h5]
            have hA' : a ≤ 0 := by
              rw [hsd0] at hA
              exact hA
            have hB' : b ≤ 0 := by
              rw [hsd0] at hB
              exact hB
            have ha00 : a = 0 := by omega
            have hb00 : b = 0 := by omega
            subst ha00
            subst hb00
            rw [cellPt_zero 5, ← cellPt_zero (sectorOf g.1 g.2)]
            exact (oblAll 0 0 (by omega) (by omega) (by omega) (by omega)).1
    · intro hno2 a b ha hA hb hB
      exact oblAll a b ha (by omega) hb hB

theorem c4_convex_preserved_witness :
    SCInv { pos := (0, 0), nodes := [(0, 0)], edges := [], faces := [] } ∧
    (SCInv (add_node_convex
        { pos := (0, 0), nodes := [(0, 0)], edges := [], faces := [] } (1, 1)) ∧
      ((1, 1) ∉ ({ pos := (0, 0), nodes := [(0, 0)], edges := [], faces := [] } : Mesh).nodes →
        parFilled (add_node_convex
            { pos := (0, 0), nodes := [(0, 0)], edges := [], faces := [] } (1, 1))
          (sectorOf (1 : Int) (1 : Int))
          ((sectorDist (1, 1)).1 + 1) ((sectorDist (1, 1)).2 + 1))) := by
  have hinv : SCInv { pos := (0, 0), nodes := [(0, 0)], edges := [], faces := [] } := by
    intro p hp a b ha hb hA hB
    simp only [List.mem_singleton] at hp
    subst hp
    have h1 : (sectorDist ((0 : Int), (0 : Int))).1 = 0 := by decide
    have h2 : (sectorDist ((0 : Int), (0 : Int))).2 = 0 := by decide
    rw [h1] at hA
    rw [h2] at hB
    have ha0 : a = 0 := by omega
    have hb0 : b = 0 := by omega
    subst ha0
    subst hb0
    show cellPt (sectorOf 0 0) 0 0 ∈ [((0 : Int), (0 : Int))]
    decide
  exact ⟨hinv, c4_convex_preserved (1, 1) rfl hinv⟩

/-! ### The `Snowflake` layer: shifted shapes, clicks, dependency tree -/

/-- A shape as `gen_shifted_shape` builds it: its edge and face index
tuples are Python ints (the search loops write `-1` sentinels when a
node is not found, and nothing converts them back). -/
structure IMesh where
  pos : Coord
  nodes : List Coord
  edges : List (Int × Int)
  faces : List (Int × Int × Int)
deriving DecidableEq

/-- View an ordinary mesh as an `IMesh` (the indices are genuine). -/
def toIMesh (m : Mesh) : IMesh :=
  { pos := m.pos
    nodes := m.nodes
    edges := m.edges.map fun e => ((e.1 : Int), (e.2 : Int))
    faces := m.faces.map fun f => ((f.1 : Int), (f.2.1 : Int), (f.2.2 : Int)) }

/-- `Shape.contains_edge` on Python-int index pairs. -/
def containsEdgeLI (es : List (Int × Int)) (e : Int × Int) : Bool :=
  es.any fun x => (x.1 == e.1 && x.2 == e.2) || (x.1 == e.2 && x.2 == e.1)

/-- Membership in a Python-int face triple. -/
def memTI (a : Int) (f : Int × Int × Int) : Bool :=
  a == f.1 || a == f.2.1 || a == f.2.2

/-- Python `set(f) == set(g)` on int face triples. -/
def setEqTI (f g : Int × Int × Int) : Bool :=
  memTI f.1 g && memTI f.2.1 g && memTI f.2.2 g &&
  memTI g.1 f && memTI g.2.1 f && memTI g.2.2 f

/-- `Snowflake.gen_shifted_shape(pos, rot, shift_dir)` as a pure
function of the receiver's lists.  `none` models an uncaught exception
(a failing rotation lookup, an out-of-range edge index, or
`DIR_VECS.index` raising `ValueError`); the receiver itself is never
written (see the heap model below). -/
def gen_shifted_shape (m : IMesh) (pos : Coord) (rot : Int) (shift_dir : Int) :
    Option IMesh :=
  let edges := m.edges
  let faces := m.faces
  (if 0 < rot then m.nodes.mapM (fun p => rotate_grid_point p.1 p.2 rot)
    else some m.nodes).bind fun nodes =>
  (pyIdx DIR_VECS shift_dir).bind fun vec =>
  let st1 := (List.range nodes.length).foldl
    (fun (st : List Coord × List (Int × Int) × Nat) i =>
      let node := nodes.getD i (0, 0)
      let shifted := (node.1 + vec.1, node.2 + vec.2)
      match idxFirst nodes shifted with
      | none => (st.1 ++ [shifted], st.2.1 ++ [((i : Int), (st.2.2 : Int))], st.2.2 + 1)
      | some j =>
        if containsEdgeLI m.edges ((i : Int), (j : Int)) then st
        else (st.1, st.2.1 ++ [((i : Int), (j : Int))], st.2.2))
    ([], [], nodes.length)
  let shifted_nodes := st1.1
  let shifted_edges := st1.2.1
  let all_nodes := nodes ++ shifted_nodes
  (edges.foldlM
    (fun (st : List (Int × Int) × List (Int × Int × Int)) (e : Int × Int) =>
      match pyIdx nodes e.1, pyIdx nodes e.2 with
      | some n1, some n2 =>
        let v := (n2.1 - n1.1, n2.2 - n1.2)
        match idxFirst DIR_VECS v with
        | none => none
        | some direction =>
          if (direction : Int) = shift_dir ∨ ((direction : Int) + 3) % 6 = shift_dir then
            some st
          else
            let n1s := (n1.1 + vec.1, n1.2 + vec.2)
            let n2s := (n2.1 + vec.1, n2.2 + vec.2)
            let i : Int := match idxLast all_nodes n1s with | some k => (k : Int) | none => -1
            let j : Int := match idxLast all_nodes n2s with | some k => (k : Int) | none => -1
            let edge_exists : Bool :=
              (decide (i < (all_nodes.length : Int)) && decide (j < (all_nodes.length : Int))) &&
              ((edges ++ shifted_edges ++ st.1).any fun x =>
                x = (i, j) ∨ x = (j, i))
            let add_edges1 := if edge_exists then st.1 else st.1 ++ [(i, j)]
            let e1 := (n2s.1 - n1.1, n2s.2 - n1.2)
            let dfs := if e1 ∈ DIR_VECS then
                ((e.1, j), (e.1, j, e.2), (e.1, j, i))
              else ((e.2, i), (e.2, i, e.1), (e.2, i, j))
            let diag := dfs.1
            let f1 := dfs.2.1
            let f2 := dfs.2.2
            let have_edge := (edges ++ add_edges1).any fun x => x = diag ∨ (x.2, x.1) = diag
            let add_edges2 := if have_edge then add_edges1 else add_edges1 ++ [diag]
            let have_f1 := have_edge && (faces ++ st.2).any fun f => setEqTI f f1
            let have_f2 := have_edge && (faces ++ st.2).any fun f => setEqTI f f2
            let add_faces1 := if have_f1 then st.2 else st.2 ++ [f1]
            let add_faces2 := if have_f2 then add_faces1 else add_faces1 ++ [f2]
            some (add_edges2, add_faces2)
      | _, _ => none)
    ([], [])).map fun (st2 : List (Int × Int) × List (Int × Int × Int)) =>
  { pos := pos
    nodes := all_nodes
    edges := edges ++ shifted_edges ++ st2.1
    faces := faces ++ st2.2 }

/-- One snowflake's state.  Other snowflakes are referenced by arena
index (`Fin n`), mirroring Python object identity. -/
structure SF (n : Nat) where
  mesh : Mesh
  arms : List Int
  children : Fin 6 → List (Int × Int × Fin n)
  parents : List (Fin n)
  selected_edge : Option Nat
  selected_edge_start : Nat
  selected_edge_dir : Int
  child_candidate : Option (Fin n)
  child_rot : Int
  preview_shape : Option IMesh

/-- A fixed population of snowflakes. -/
def Arena (n : Nat) : Type := Fin n → SF n

instance {n : Nat} : DecidableEq (SF n) := fun a b => by
  cases a
  cases b
  simp only [SF.mk.injEq]
  infer_instance

def updateSF {n : Nat} (A : Arena n) (i : Fin n) (f : SF n → SF n) : Arena n :=
  fun j => if j = i then f (A j) else A j

/-- `Snowflake.get_children()`: the children sets of all six directions
(Python returns a set; this list has the same membership). -/
def getChildren {n : Nat} (A : Arena n) (x : Fin n) : List (Fin n) :=
  (List.finRange 6).foldl (fun acc d => acc ++ ((A x).children d).map fun c => c.2.2) []

/-- `Snowflake.get_children_recursive()` with explicit recursion fuel:
the Python recursion terminates exactly when the child relation is
acyclic, and on acyclic arenas any fuel of at least `n` saturates. -/
def childrenRec {n : Nat} (A : Arena n) : Nat → Fin n → List (Fin n)
  | 0, x => getChildren A x
  | fuel + 1, x =>
    (getChildren A x).foldl (fun acc c => acc ++ childrenRec A fuel c) (getChildren A x)

/-- `Snowflake.get_parents_recursive()`, same shape. -/
def parentsRec {n : Nat} (A : Arena n) : Nat → Fin n → List (Fin n)
  | 0, x => (A x).parents
  | fuel + 1, x =>
    (A x).parents.foldl (fun acc c => acc ++ parentsRec A fuel c) ((A x).parents)

/-- `Shape._test_node_arm(node, is_global)`: the arm direction and
distance of a node on one of the six axes, `(-1, -1)` otherwise. -/
def test_node_arm (m : Mesh) (node0 : Coord) (gl : Bool) : Int × Int :=
  let node := if gl then (node0.1 - m.pos.1, node0.2 - m.pos.2) else node0
  if node.2 = 0 then (if node.1 ≥ 0 then 0 else 3, |node.1|)
  else if node.1 = 0 then (if node.2 ≥ 0 then 1 else 4, |node.2|)
  else if node.1 + node.2 = 0 then (if node.2 ≥ 0 then 2 else 5, |node.1|)
  else (-1, -1)

/-- The per-direction walk of `Snowflake._update_arms`: follow nodes
`vec * 1, vec * 2, ...` while both the next node and the edge to it
exist.  Each successful step strictly increases `dist`, and a node list
of length `L` holds at most `L` distinct points of the ray, so fuel
`L + 1` never runs out. -/
def armWalk (m : Mesh) (vec : Coord) : Nat → Int → Nat → Int
  | 0, dist, _ => dist
  | fuel + 1, dist, prev =>
    let next_node := (vec.1 * (dist + 1), vec.2 * (dist + 1))
    match idxFirst m.nodes next_node with
    | none => dist
    | some nid =>
      if contains_edge m (prev, nid) then armWalk m vec fuel (dist + 1) nid
      else dist

/-- `Snowflake._update_arms()`: recompute all six arm lengths. -/
def update_arms (m : Mesh) : List Int :=
  (List.range 6).map fun d => armWalk m (dirVec (d : Int)) (m.nodes.length + 1) 0 0

/-- Merging a shifted shape back into a snowflake
(`self.merge_with(shape)` inside `recalculate_shape`).  The node
substitution dictionary of `merge_with` is keyed by the other shape's
node indices, so an edge or face index outside that range raises
`KeyError`; the exception is modelled transactionally as `none`. -/
def mergeWithI (m : Mesh) (other : IMesh) : Option Mesh :=
  if (∀ e ∈ other.edges, 0 ≤ e.1 ∧ e.1 < (other.nodes.length : Int) ∧
      0 ≤ e.2 ∧ e.2 < (other.nodes.length : Int)) ∧
     (∀ f ∈ other.faces, 0 ≤ f.1 ∧ f.1 < (other.nodes.length : Int) ∧
      0 ≤ f.2.1 ∧ f.2.1 < (other.nodes.length : Int) ∧
      0 ≤ f.2.2 ∧ f.2.2 < (other.nodes.length : Int)) then
    some (merge_with m
      { pos := other.pos
        nodes := other.nodes
        edges := other.edges.map fun e => (e.1.toNat, e.2.toNat)
        faces := other.faces.map fun f => (f.1.toNat, f.2.1.toNat, f.2.2.toNat) })
  else none

/-- `Snowflake.recalculate_shape()`: rebuild the mesh from the arm
lengths, then merge every child's shifted shape in direction order,
refreshing the arm lengths after each merge. -/
def recalculate_shape {n : Nat} (A : Arena n) (p : Fin n) : Option (Arena n) :=
  let base := (List.range 6).foldl
    (fun (st : List Coord × List (Nat × Nat)) (d : Nat) =>
      let vec := dirVec (d : Int)
      (List.range ((A p).arms.getD d 0).toNat).foldl
        (fun (st2 : List Coord × List (Nat × Nat)) k =>
          let dist : Int := (k : Int) + 1
          let node := (vec.1 * dist, vec.2 * dist)
          let idx := st2.1.length
          (st2.1 ++ [node], st2.2 ++ [(if dist = 1 then 0 else idx - 1, idx)]))
        st)
    ([(0, 0)], [])
  let m0 : Mesh := { pos := (A p).mesh.pos, nodes := base.1, edges := base.2, faces := [] }
  ((List.finRange 6).foldlM
    (fun (st : Mesh × List Int) d =>
      ((A p).children d).foldlM
        (fun (st2 : Mesh × List Int) c =>
          let vec := dirVec ((d : Nat) : Int)
          let cpos := ((A p).mesh.pos.1 + vec.1 * c.1, (A p).mesh.pos.2 + vec.2 * c.1)
          (gen_shifted_shape (toIMesh (A c.2.2).mesh) cpos c.2.1 ((d : Nat) : Int)).bind
            fun sh => (mergeWithI st2.1 sh).map fun m' => (m', update_arms m'))
        st)
    (m0, (A p).arms)).map fun st =>
  updateSF A p fun s => { s with mesh := st.1, arms := st.2 }

/-- The picking loop of `Snowflake.recalculate_parent_shapes()`: in each
round recalculate the first parent without children among the remaining
parents.  The Python `for`/`break` pair leaks the loop variable, so when
no parent qualifies the LAST one visited is removed and recalculated
anyway. -/
def recalcLoop {n : Nat} (cfuel : Nat) : Nat → Arena n → List (Fin n) → Option (Arena n)
  | _, A, [] => some A
  | 0, _, _ :: _ => none
  | fuel + 1, A, p0 :: rest =>
    let parents := p0 :: rest
    let pick := (parents.find? fun p =>
      (childrenRec A cfuel p).all fun c => decide (c ∉ parents)).getD
      (parents.getLast (by simp))
    (recalculate_shape A pick).bind fun A' =>
      recalcLoop cfuel fuel A' (parents.erase pick)

/-- `Snowflake.recalculate_parent_shapes()`. -/
def recalcParentShapes {n : Nat} (A : Arena n) (i : Fin n) (fuel : Nat) : Option (Arena n) :=
  let parents := (parentsRec A fuel i).dedup
  recalcLoop fuel parents.length A parents

/-- The `for sf in snowflakes` loop of CASE 2 of `Snowflake._node_click`:
find the first other snowflake whose root was clicked; reject the
attachment when `self` is one of its recursive children, otherwise
record the child candidate and generate the preview shape. -/
def case2Loop {n : Nat} (A : Arena n) (i : Fin n) (node : Coord) (fuel : Nat) :
    List (Fin n) → Option (Bool × Arena n)
  | [] => some (false, A)
  | sf :: rest =>
    if sf = i then case2Loop A i node fuel rest
    else if node = (A sf).mesh.pos then
      if i ∈ childrenRec A fuel sf then some (false, A)
      else
        match (A i).selected_edge with
        | none => none
        | some se =>
          match (A i).mesh.edges.get? se with
          | none => none
          | some edge =>
            (if (A i).selected_edge_start = 0 then some edge.1
              else if (A i).selected_edge_start = 1 then some edge.2 else none).bind
              fun startIdx =>
            ((A i).mesh.nodes.get? startIdx).bind fun start_node =>
            (gen_shifted_shape (toIMesh (A sf).mesh)
              ((A i).mesh.pos.1 + start_node.1, (A i).mesh.pos.2 + start_node.2)
              0 (A i).selected_edge_dir).map fun pv =>
            (true, updateSF A i fun s =>
              { s with
                child_candidate := some sf
                child_rot := 0
                preview_shape := some pv })
    else case2Loop A i node fuel rest

/-- `Snowflake._node_click(node, snowflakes)`. -/
def nodeClick {n : Nat} (A : Arena n) (i : Fin n) (node : Coord) (sfs : List (Fin n))
    (fuel : Nat) : Option (Bool × Arena n) :=
  let td := test_node_arm (A i).mesh node true
  let direction := td.1
  let dist := td.2
  if direction ≠ -1 ∧ (A i).arms.getD direction.toNat 0 < dist then
    let d := (A i).arms.getD direction.toNat 0
    let vec := dirVec direction
    let start := (vec.1 * d, vec.2 * d)
    match idxFirst (A i).mesh.nodes start with
    | none => none
    | some prev0 =>
      let steps := (List.range (dist - d).toNat).map fun k => d + 1 + (k : Int)
      let st := steps.foldl
        (fun (st : List Coord × List (Nat × Nat) × Nat) step =>
          let endp := (vec.1 * step, vec.2 * step)
          let new_idx := st.1.length
          (st.1 ++ [endp], st.2.1 ++ [(st.2.2, new_idx)], new_idx))
        ((A i).mesh.nodes, (A i).mesh.edges, prev0)
      let A1 := updateSF A i fun s =>
        { s with
          mesh := { s.mesh with nodes := st.1, edges := st.2.1 }
          arms := s.arms.set direction.toNat dist }
      (recalcParentShapes A1 i fuel).map fun A2 => (true, A2)
  else
    if (A i).selected_edge ≠ none then case2Loop A i node fuel sfs
    else some (false, A)

/-- Python `list.index` (first match, `None` for `ValueError`), for any
element type. -/
def idxOf {α : Type} [DecidableEq α] : List α → α → Option Nat
  | [], _ => none
  | a :: as, x => if a = x then some 0 else (idxOf as x).map (· + 1)

/-- One child reference of a dependency-tree entry. -/
structure DTChild where
  childIdx : Nat
  direction : Nat
  distance : Int
  rotation : Int
deriving DecidableEq

/-- One entry of the dependency tree: the snowflake's arms plus its
child references. -/
structure DTEntry where
  arms : List Int
  children : List DTChild
deriving DecidableEq

/-- The topological-ordering loop of `gen_dependency_tree`: repeatedly
append the first remaining snowflake all of whose recursive children are
already ordered; `none` both for the `return None` branch (no candidate
found) and for exhausted fuel (unreachable when the fuel is the number
of remaining elements, since every round removes one). -/
def topoLoop {n : Nat} (A : Arena n) (cfuel : Nat) :
    Nat → List (Fin n) → List (Fin n) → Option (List (Fin n))
  | _, [], ord => some ord
  | 0, _ :: _, _ => none
  | fuel + 1, remaining@(_ :: _), ord =>
    match remaining.find? fun child =>
        (childrenRec A cfuel child).all fun c => decide (c ∈ ord) with
    | none => none
    | some child => topoLoop A cfuel fuel (remaining.erase child) (ord ++ [child])

/-- One dependency-tree entry: the `arms` array plus one
`{childIdx, direction, distance, rotation}` per recorded attachment,
with `childIdx` resolved by `top_order.index` (`none` models the
`ValueError` when the child is missing from the ordering). -/
def mkEntry {n : Nat} (A : Arena n) (ord : List (Fin n)) (x : Fin n) : Option DTEntry :=
  ((List.finRange 6).foldlM
    (fun (acc : List DTChild) d =>
      ((A x).children d).foldlM
        (fun (acc2 : List DTChild) c =>
          (idxOf ord c.2.2).map fun k =>
            acc2 ++ [{ childIdx := k, direction := (d : Nat), distance := c.1, rotation := c.2.1 }])
        acc)
    []).map fun cs => { arms := (A x).arms, children := cs }

/-- `Snowflake.gen_dependency_tree()`.  The outer `Option` is an
uncaught exception; the inner `Option` is the function's own `None`
result when the topological sort fails. -/
def gen_dependency_tree {n : Nat} (A : Arena n) (i : Fin n) (fuel : Nat) :
    Option (Option (List DTEntry)) :=
  let all0 := (childrenRec A fuel i).dedup
  let all := if i ∈ all0 then all0 else all0 ++ [i]
  match topoLoop A fuel all.length all [] with
  | none => some none
  | some ord =>
    match ord.mapM (mkEntry A ord) with
    | none => none
    | some entries => some (some entries)

/-- The serialized document of `Snowflake.to_json`: the shape lists plus
the dependency tree, which is JSON `null` (here `none`) exactly when
`gen_dependency_tree` returned `None`. -/
structure SFDoc where
  docNodes : List Coord
  docEdges : List (Nat × Nat)
  docFaces : List (Nat × Nat × Nat)
  dependencyTree : Option (List DTEntry)
deriving DecidableEq

/-- `Snowflake.to_json` (the data of the dumped document; `none` is an
uncaught exception before any document is produced). -/
def to_json {n : Nat} (A : Arena n) (i : Fin n) (fuel : Nat) : Option SFDoc :=
  (gen_dependency_tree A i fuel).map fun dt =>
    { docNodes := (A i).mesh.nodes
      docEdges := (A i).mesh.edges
      docFaces := (A i).mesh.faces
      dependencyTree := dt }

/-- A well-formed serialized snowflake document carries a dependency
tree list (the schema's `dependencyTree: [entries...]`), not `null`. -/
def wellFormedDoc (d : SFDoc) : Prop :=
  d.dependencyTree ≠ none

/-- C5: clicking the root of snowflake `sf` (the first candidate in the
list) while `self` is one of `sf`'s recursive children is rejected: the
click reports no structural change and the whole arena — meshes, arms,
children, parents, selections of every snowflake — is returned
untouched, keeping the parent/child relation acyclic. -/
theorem c5_cycle_rejected {n : Nat} (A : Arena n) (i : Fin n) (node : Coord)
    (fuel : Nat) (pre : List (Fin n)) (sf : Fin n) (rest : List (Fin n))
    (hcase1 : ¬((test_node_arm (A i).mesh node true).1 ≠ -1 ∧
      (A i).arms.getD (test_node_arm (A i).mesh node true).1.toNat 0 <
        (test_node_arm (A i).mesh node true).2))
    (hsel : (A i).selected_edge ≠ none)
    (hpre : ∀ x ∈ pre, x = i ∨ node ≠ (A x).mesh.pos)
    (hsf : sf ≠ i) (hroot : node = (A sf).mesh.pos)
    (hcyc : i ∈ childrenRec A fuel sf) :
    nodeClick A i node (pre ++ sf :: rest) fuel = some (false, A) := by
  have loop : ∀ pre' : List (Fin n), (∀ x ∈ pre', x = i ∨ node ≠ (A x).mesh.pos) →
      case2Loop A i node fuel (pre' ++ sf :: rest) = some (false, A) := by
    intro pre'
    induction pre' with
    | nil =>
      intro _
      rw [List.nil_append]
      simp only [case2Loop]
      rw [if_neg hsf, if_pos hroot, if_pos hcyc]
    | cons x xs ih =>
      intro hpre'
      rw [List.cons_append]
      by_cases hxi : x = i
      · subst hxi
        simp only [case2Loop]
        rw [if_pos trivial]
        exact ih fun y hy => hpre' y (List.mem_cons_of_mem x hy)
      · have hnp : node ≠ (A x).mesh.pos := by
          rcases hpre' x (List.mem_cons_self x xs) with h | h
          · exact absurd h hxi
          · exact h
        simp only [case2Loop]
        rw [if_neg hxi, if_neg hnp]
        exact ih fun y hy => hpre' y (List.mem_cons_of_mem x hy)
  simp only [nodeClick]
  rw [if_neg hcase1, if_pos hsel]
  exact loop pre hpre

/-- A two-snowflake arena: snowflake 1 has snowflake 0 recorded as a
child in direction 0, and snowflake 0 has an edge selected. -/
def arenaTwo : Arena 2 := fun j =>
  if j = 0 then
    { mesh := { pos := (0, 0), nodes := [(0, 0), (1, 0)], edges := [(0, 1)], faces := [] }
      arms := [1, 0, 0, 0, 0, 0]
      children := fun _ => []
      parents := [1]
      selected_edge := some 0
      selected_edge_start := 0
      selected_edge_dir := 0
      child_candidate := none
      child_rot := 0
      preview_shape := none }
  else
    { mesh := { pos := (1, 2), nodes := [(0, 0)], edges := [], faces := [] }
      arms := [0, 0, 0, 0, 0, 0]
      children := fun d => if d = 0 then [(1, 0, (0 : Fin 2))] else []
      parents := []
      selected_edge := none
      selected_edge_start := 0
      selected_edge_dir := 0
      child_candidate := none
      child_rot := 0
      preview_shape := none }

theorem c5_cycle_rejected_witness :
    (¬((test_node_arm (arenaTwo 0).mesh (1, 2) true).1 ≠ -1 ∧
      (arenaTwo 0).arms.getD (test_node_arm (arenaTwo 0).mesh (1, 2) true).1.toNat 0 <
        (test_node_arm (arenaTwo 0).mesh (1, 2) true).2)) ∧
    (arenaTwo 0).selected_edge ≠ none ∧
    (0 : Fin 2) ∈ childrenRec arenaTwo 0 1 ∧
    nodeClick arenaTwo 0 (1, 2) ([0] ++ 1 :: []) 0 = some (false, arenaTwo) :=
  ⟨by decide, by decide, by decide,
    c5_cycle_rejected arenaTwo 0 (1, 2) 0 [0] 1 [] (by decide) (by decide)
      (by decide) (by decide) (by decide) (by decide)⟩

/-! Helper lemmas for the dependency-tree proof. -/

theorem exists_rank_min {α : Type} (f : α → Nat) :
    ∀ l : List α, l ≠ [] → ∃ a ∈ l, ∀ b ∈ l, f a ≤ f b := by
  intro l
  induction l with
  | nil => intro h; exact absurd rfl h
  | cons x xs ih =>
    intro _
    by_cases hxs : xs = []
    · subst hxs
      refine ⟨x, by simp, ?_⟩
      intro b hb
      simp at hb
      subst hb
      exact le_rfl
    · obtain ⟨a, ha, hmin⟩ := ih hxs
      rcases Nat.le_total (f x) (f a) with h | h
      · refine ⟨x, by simp, ?_⟩
        intro b hb
        rcases List.mem_cons.mp hb with rfl | hb
        · exact le_rfl
        · exact le_trans h (hmin b hb)
      · refine ⟨a, List.mem_cons_of_mem x ha, ?_⟩
        intro b hb
        rcases List.mem_cons.mp hb with rfl | hb
        · exact h
        · exact hmin b hb

theorem mem_foldl_append {α β : Type} (l : List β) (f : β → List α) (x : α) :
    ∀ init : List α, x ∈ init → x ∈ l.foldl (fun acc c => acc ++ f c) init := by
  induction l with
  | nil => intro init h; exact h
  | cons a as ih =>
    intro init h
    rw [List.foldl_cons]
    exact ih (init ++ f a) (List.mem_append_left _ h)

theorem mem_foldl_append_iff {α β : Type} (l : List β) (f : β → List α) (x : α) :
    ∀ init : List α, (x ∈ l.foldl (fun acc c => acc ++ f c) init ↔
      x ∈ init ∨ ∃ c ∈ l, x ∈ f c) := by
  induction l with
  | nil => intro init; simp
  | cons a as ih =>
    intro init
    rw [List.foldl_cons, ih]
    simp only [List.mem_append, List.mem_cons]
    constructor
    · rintro ((h | h) | ⟨c, hc, hxc⟩)
      · exact Or.inl h
      · exact Or.inr ⟨a, Or.inl rfl, h⟩
      · exact Or.inr ⟨c, Or.inr hc, hxc⟩
    · rintro (h | ⟨c, (rfl | hc), hxc⟩)
      · exact Or.inl (Or.inl h)
      · exact Or.inl (Or.inr hxc)
      · exact Or.inr ⟨c, hc, hxc⟩

theorem getChildren_subset_childrenRec {n : Nat} (A : Arena n) (fuel : Nat) (x c : Fin n)
    (h : c ∈ getChildren A x) : c ∈ childrenRec A fuel x := by
  cases fuel with
  | zero => exact h
  | succ fuel => exact mem_foldl_append _ _ _ _ h

theorem childrenRec_succ_iff {n : Nat} (A : Arena n) (fuel : Nat) (x c : Fin n) :
    c ∈ childrenRec A (fuel + 1) x ↔
      c ∈ getChildren A x ∨ ∃ y ∈ getChildren A x, c ∈ childrenRec A fuel y := by
  show c ∈ (getChildren A x).foldl _ _ ↔ _
  rw [mem_foldl_append_iff]

theorem childrenRec_rank_lt {n : Nat} (A : Arena n) {rank : Fin n → Nat}
    (hrk : ∀ x c, c ∈ getChildren A x → rank c < rank x) :
    ∀ (fuel : Nat) (x c : Fin n), c ∈ childrenRec A fuel x → rank c < rank x := by
  intro fuel
  induction fuel with
  | zero => exact fun x c h => hrk x c h
  | succ fuel ih =>
    intro x c h
    rcases (childrenRec_succ_iff A fuel x c).mp h with h | ⟨y, hy, hc⟩
    · exact hrk x c h
    · exact lt_trans (ih y c hc) (hrk x y hy)

theorem find?_isSome_of_mem {α : Type} {l : List α} {p : α → Bool} {a : α}
    (ha : a ∈ l) (hp : p a = true) : ∃ b, l.find? p = some b := by
  have : (l.find? p).isSome := List.find?_isSome.mpr ⟨a, ha, hp⟩
  cases h : l.find? p with
  | some b => exact ⟨b, rfl⟩
  | none => rw [h] at this; exact absurd this (by simp)

theorem idxOf_get? {α : Type} [DecidableEq α] {l : List α} {c : α} {k : Nat}
    (h : idxOf l c = some k) : l.get? k = some c := by
  induction l generalizing k with
  | nil => simp [idxOf] at h
  | cons a as ih =>
    by_cases ha : a = c
    · rw [idxOf, if_pos ha] at h
      injection h with h
      subst h
      simpa using ha
    · rw [idxOf, if_neg ha, Option.map_eq_some'] at h
      obtain ⟨k', hk', rfl⟩ := h
      simpa using ih hk'

theorem idxOf_isSome_of_mem {α : Type} [DecidableEq α] {l : List α} {c : α}
    (h : c ∈ l) : ∃ k, idxOf l c = some k := by
  induction l with
  | nil => simp at h
  | cons a as ih =>
    by_cases ha : a = c
    · exact ⟨0, by rw [idxOf, if_pos ha]⟩
    · rcases List.mem_cons.mp h with h | h
      · exact absurd h.symm ha
      · obtain ⟨k, hk⟩ := ih h
        exact ⟨k + 1, by rw [idxOf, if_neg ha, hk]; rfl⟩

theorem mem_children_getChildren {n : Nat} (A : Arena n) (x : Fin n) (d : Fin 6)
    {c : Int × Int × Fin n} (hc : c ∈ (A x).children d) : c.2.2 ∈ getChildren A x := by
  rw [getChildren, mem_foldl_append_iff]
  exact Or.inr ⟨d, List.mem_finRange d, List.mem_map_of_mem _ hc⟩

theorem innerFold_spec {n : Nat} (A : Arena n) (ord : List (Fin n)) (x : Fin n) (d : Fin 6) :
    ∀ cs : List (Int × Int × Fin n), (∀ c ∈ cs, c.2.2 ∈ ord) →
    ∀ acc : List DTChild,
      ∃ out, cs.foldlM
        (fun (acc2 : List DTChild) c =>
          (idxOf ord c.2.2).map fun k =>
            acc2 ++ [{ childIdx := k, direction := (d : Nat), distance := c.1, rotation := c.2.1 }])
        acc = some out ∧
      ∀ ch ∈ out, ch ∈ acc ∨ ∃ c ∈ cs, ∃ k, idxOf ord c.2.2 = some k ∧
        ch = { childIdx := k, direction := (d : Nat), distance := c.1, rotation := c.2.1 } := by
  intro cs
  induction cs with
  | nil => intro _ acc; exact ⟨acc, rfl, fun ch hch => Or.inl hch⟩
  | cons c cs ih =>
    intro hmem acc
    obtain ⟨k, hk⟩ := idxOf_isSome_of_mem (hmem c (List.mem_cons_self c cs))
    obtain ⟨out, hout, hprop⟩ := ih (fun c' hc' => hmem c' (List.mem_cons_of_mem c hc'))
      (acc ++ [{ childIdx := k, direction := (d : Nat), distance := c.1, rotation := c.2.1 }])
    refine ⟨out, ?_, ?_⟩
    · rw [List.foldlM_cons]
      simp only [hk, Option.map_some']
      exact hout
    · intro ch hch
      rcases hprop ch hch with h | h
      · rcases List.mem_append.mp h with h | h
        · exact Or.inl h
        · simp only [List.mem_singleton] at h
          exact Or.inr ⟨c, List.mem_cons_self c cs, k, hk, h⟩
      · obtain ⟨c', hc', k', hk', hch'⟩ := h
        exact Or.inr ⟨c', List.mem_cons_of_mem c hc', k', hk', hch'⟩

theorem outerFold_spec {n : Nat} (A : Arena n) (ord : List (Fin n)) (x : Fin n) :
    ∀ ds : List (Fin 6), (∀ d ∈ ds, ∀ c ∈ (A x).children d, c.2.2 ∈ ord) →
    ∀ acc : List DTChild,
      ∃ out, ds.foldlM
        (fun (acc : List DTChild) d =>
          ((A x).children d).foldlM
            (fun (acc2 : List DTChild) c =>
              (idxOf ord c.2.2).map fun k =>
                acc2 ++ [{ childIdx := k, direction := (d : Nat), distance := c.1, rotation := c.2.1 }])
            acc)
        acc = some out ∧
      ∀ ch ∈ out, ch ∈ acc ∨ ∃ d ∈ ds, ∃ c ∈ (A x).children d, ∃ k,
        idxOf ord c.2.2 = some k ∧
        ch = { childIdx := k, direction := (d : Nat), distance := c.1, rotation := c.2.1 } := by
  intro ds
  induction ds with
  | nil => intro _ acc; exact ⟨acc, rfl, fun ch hch => Or.inl hch⟩
  | cons d ds ih =>
    intro hmem acc
    obtain ⟨mid, hmid, hmidprop⟩ := innerFold_spec A ord x d ((A x).children d)
      (hmem d (List.mem_cons_self d ds)) acc
    obtain ⟨out, hout, hprop⟩ := ih (fun d' hd' => hmem d' (List.mem_cons_of_mem d hd')) mid
    refine ⟨out, ?_, ?_⟩
    · rw [List.foldlM_cons]
      simp only [hmid]
      exact hout
    · intro ch hch
      rcases hprop ch hch with h | h
      · rcases hmidprop ch h with h | h
        · exact Or.inl h
        · obtain ⟨c, hc, k, hk, hch'⟩ := h
          exact Or.inr ⟨d, List.mem_cons_self d ds, c, hc, k, hk, hch'⟩
      · obtain ⟨d', hd', c, hc, k, hk, hch'⟩ := h
        exact Or.inr ⟨d', List.mem_cons_of_mem d hd', c, hc, k, hk, hch'⟩

theorem mkEntry_spec {n : Nat} (A : Arena n) (ord : List (Fin n)) (x : Fin n)
    (h : ∀ y ∈ getChildren A x, y ∈ ord) :
    ∃ e, mkEntry A ord x = some e ∧ e.arms = (A x).arms ∧
      ∀ ch ∈ e.children, ∃ y, ord.get? ch.childIdx = some y ∧ y ∈ getChildren A x := by
  obtain ⟨out, hout, hprop⟩ := outerFold_spec A ord x (List.finRange 6)
    (fun d _ c hc => h _ (mem_children_getChildren A x d hc)) []
  refine ⟨{ arms := (A x).arms, children := out }, ?_, rfl, ?_⟩
  · rw [mkEntry, hout]
    rfl
  · intro ch hch
    rcases hprop ch hch with h0 | ⟨d, _, c, hc, k, hk, hch'⟩
    · simp at h0
    · subst hch'
      exact ⟨c.2.2, idxOf_get? hk, mem_children_getChildren A x d hc⟩

theorem mapM_option_spec {α β : Type} (f : α → Option β) :
    ∀ l : List α, (∀ x ∈ l, ∃ y, f x = some y) →
      ∃ res, l.mapM f = some res ∧ res.length = l.length ∧
        ∀ k x, l.get? k = some x → ∃ y, res.get? k = some y ∧ f x = some y := by
  intro l
  induction l with
  | nil => intro _; exact ⟨[], rfl, rfl, fun k x h => by simp at h⟩
  | cons a as ih =>
    intro h
    obtain ⟨y, hy⟩ := h a (List.mem_cons_self a as)
    obtain ⟨res, hres, hlen, hprop⟩ := ih fun x hx => h x (List.mem_cons_of_mem a hx)
    refine ⟨y :: res, ?_, by simp [hlen], ?_⟩
    · simp only [List.mapM_cons, hy, hres, Option.bind_some]
      rfl
    · intro k x hk
      cases k with
      | zero =>
        have hx : a = x := by
          have : some a = some x := hk
          exact Option.some.inj this
        subst hx
        exact ⟨y, rfl, hy⟩
      | succ k =>
        have hk' : as.get? k = some x := hk
        obtain ⟨y', h1, h2⟩ := hprop k x hk'
        exact ⟨y', h1, h2⟩

theorem get?_append_lt {α : Type} (l m : List α) (k : Nat) (h : k < l.length) :
    (l ++ m).get? k = l.get? k := by
  rw [List.get?_eq_getElem?, List.get?_eq_getElem?, List.getElem?_append_left h]

theorem get?_concat_len {α : Type} (l : List α) (a : α) :
    (l ++ [a]).get? l.length = some a := by
  rw [List.get?_eq_getElem?]
  exact List.getElem?_concat_length l a

theorem topoLoop_success {n : Nat} (A : Arena n) (cfuel : Nat) (rank : Fin n → Nat)
    (hrk : ∀ x c, c ∈ getChildren A x → rank c < rank x) :
    ∀ (fuel : Nat) (remaining ord : List (Fin n)),
      remaining.length = fuel →
      remaining.Nodup → ord.Nodup →
      (∀ x ∈ remaining, x ∉ ord) →
      (∀ x ∈ remaining, ∀ c ∈ childrenRec A cfuel x, c ∈ ord ∨ c ∈ remaining) →
      (∀ k x, ord.get? k = some x → ∀ c ∈ childrenRec A cfuel x,
        ∃ k2, k2 < k ∧ ord.get? k2 = some c) →
      ∃ out, topoLoop A cfuel fuel remaining ord = some out ∧
        out.length = ord.length + remaining.length ∧
        (∀ x, x ∈ out ↔ x ∈ ord ∨ x ∈ remaining) ∧
        (∀ k x, out.get? k = some x → ∀ c ∈ childrenRec A cfuel x,
          ∃ k2, k2 < k ∧ out.get? k2 = some c) ∧
        out.Nodup := by
  intro fuel
  induction fuel with
  | zero =>
    intro remaining ord hlen _ hnodO _ _ hordP
    have hrem : remaining = [] := List.length_eq_zero.mp hlen
    subst hrem
    exact ⟨ord, rfl, by simp, fun x => by simp, hordP, hnodO⟩
  | succ fuel ih =>
    intro remaining ord hlen hnodR hnodO hdisj hclo hordP
    cases remaining with
    | nil => simp at hlen
    | cons r rs =>
      obtain ⟨m, hm, hmin⟩ := exists_rank_min rank (r :: rs) (by simp)
      have hmsat : (childrenRec A cfuel m).all (fun c => decide (c ∈ ord)) = true := by
        rw [List.all_eq_true]
        intro c hc
        rcases hclo m hm c hc with h | h
        · exact decide_eq_true h
        · exact absurd (hmin c h) (not_le_of_lt (childrenRec_rank_lt A hrk cfuel m c hc))
      obtain ⟨child, hfind⟩ := @find?_isSome_of_mem (Fin n) (r :: rs)
        (fun child => (childrenRec A cfuel child).all fun c => decide (c ∈ ord)) m hm hmsat
      have hchildR : child ∈ r :: rs := List.mem_of_find?_eq_some hfind
      have hchildO : ∀ c ∈ childrenRec A cfuel child, c ∈ ord := by
        have := List.find?_some hfind
        rw [List.all_eq_true] at this
        intro c hc
        exact of_decide_eq_true (this c hc)
      have hstep : topoLoop A cfuel (fuel + 1) (r :: rs) ord =
          topoLoop A cfuel fuel ((r :: rs).erase child) (ord ++ [child]) := by
        rw [topoLoop, hfind]
      have hlen' : ((r :: rs).erase child).length = fuel := by
        rw [List.length_erase_of_mem hchildR]
        simpa using hlen
      have hmemE : ∀ x, x ∈ (r :: rs).erase child ↔ x ≠ child ∧ x ∈ r :: rs :=
        fun x => hnodR.mem_erase_iff
      have hchildNO : child ∉ ord := hdisj child hchildR
      obtain ⟨out, hout, houtlen, houtmem, houtP, houtnod⟩ :=
        ih ((r :: rs).erase child) (ord ++ [child]) hlen' (hnodR.erase child)
          (by rw [List.nodup_append]; exact ⟨hnodO, by simp, by
            intro a ha hb; simp at hb; subst hb
            exact hchildNO ha⟩)
          (by intro x hx
              rw [hmemE] at hx
              intro hmem
              rcases List.mem_append.mp hmem with h | h
              · exact hdisj x hx.2 h
              · simp at h; exact hx.1 h)
          (by intro x hx c hc
              rw [hmemE] at hx
              rcases hclo x hx.2 c hc with h | h
              · exact Or.inl (List.mem_append_left _ h)
              · by_cases hcc : c = child
                · subst hcc; exact Or.inl (List.mem_append_right _ (by simp))
                · exact Or.inr ((hmemE c).mpr ⟨hcc, h⟩))
          (by intro k x hk c hc
              have hkl : k < (ord ++ [child]).length := (List.get?_eq_some.mp hk).1
              rw [List.length_append, List.length_singleton] at hkl
              by_cases hko : k < ord.length
              · rw [get?_append_lt _ _ _ hko] at hk
                obtain ⟨k2, hk2, hk2e⟩ := hordP k x hk c hc
                exact ⟨k2, hk2, by rw [get?_append_lt _ _ _ (lt_trans hk2 hko)]; exact hk2e⟩
              · have hkeq : k = ord.length := by omega
                subst hkeq
                rw [get?_concat_len] at hk
                have hx : x = child := (Option.some.inj hk).symm
                subst hx
                have hcm := hchildO c hc
                obtain ⟨k2, hk2e⟩ := List.mem_iff_get?.mp hcm
                have hk2l : k2 < ord.length := (List.get?_eq_some.mp hk2e).1
                exact ⟨k2, hk2l, by rw [get?_append_lt _ _ _ hk2l]; exact hk2e⟩)
      refine ⟨out, by rw [hstep]; exact hout, ?_, ?_, houtP, houtnod⟩
      · rw [houtlen, List.length_append, List.length_singleton,
          List.length_erase_of_mem hchildR]
        simp only [List.length_cons]
        omega
      · intro x
        rw [houtmem x, List.mem_append, hmemE x]
        constructor
        · rintro ((h | h) | h)
          · exact Or.inl h
          · simp at h; subst h; exact Or.inr hchildR
          · exact Or.inr h.2
        · rintro (h | h)
          · exact Or.inl (Or.inl h)
          · by_cases hxc : x = child
            · subst hxc; exact Or.inl (Or.inr (by simp))
            · exact Or.inr ⟨hxc, h⟩

theorem c6_topo_entries {n : Nat} (A : Arena n) (i : Fin n) (fuel : Nat)
    (rank : Fin n → Nat)
    (hrk : ∀ x c, c ∈ getChildren A x → rank c < rank x)
    (htr : ∀ x y, x ∈ childrenRec A fuel i → y ∈ childrenRec A fuel x →
      y ∈ childrenRec A fuel i)
    (all : List (Fin n)) (hnodA : all.Nodup)
    (hmemA : ∀ x, x ∈ all ↔ x = i ∨ x ∈ childrenRec A fuel i) :
    ∃ out entries,
      topoLoop A fuel all.length all [] = some out ∧
      out.mapM (mkEntry A out) = some entries ∧
      out.Nodup ∧
      (∀ x, x ∈ out ↔ x = i ∨ x ∈ childrenRec A fuel i) ∧
      (∀ k x, out.get? k = some x → ∀ c ∈ childrenRec A fuel x,
        ∃ k2, k2 < k ∧ out.get? k2 = some c) ∧
      entries.length = out.length ∧
      (∀ k x, out.get? k = some x → ∃ e, entries.get? k = some e ∧
        mkEntry A out x = some e ∧ e.arms = (A x).arms ∧
        ∀ ch ∈ e.children, ∃ y, out.get? ch.childIdx = some y ∧ y ∈ getChildren A x) := by
  have hclo : ∀ x ∈ all, ∀ c ∈ childrenRec A fuel x, c ∈ ([] : List (Fin n)) ∨ c ∈ all := by
    intro x hx c hc
    right
    rw [hmemA]
    rcases (hmemA x).mp hx with rfl | hx'
    · exact Or.inr hc
    · exact Or.inr (htr x c hx' hc)
  obtain ⟨out, htopo, hlen, hmem, hordP, hnod⟩ :=
    topoLoop_success A fuel rank hrk all.length all [] rfl hnodA List.nodup_nil
      (by intro x _ h; simp at h) hclo (by intro k x hk; simp at hk)
  have hmem' : ∀ x, x ∈ out ↔ x = i ∨ x ∈ childrenRec A fuel i := by
    intro x
    rw [hmem x]
    simp only [List.not_mem_nil, false_or]
    exact hmemA x
  have hchl : ∀ x ∈ out, ∀ y ∈ getChildren A x, y ∈ out := by
    intro x hx y hy
    have hy' := getChildren_subset_childrenRec A fuel x y hy
    rw [hmem']
    rcases (hmem' x).mp hx with rfl | hx'
    · exact Or.inr hy'
    · exact Or.inr (htr x y hx' hy')
  obtain ⟨entries, hmapM, hentlen, hentP⟩ := mapM_option_spec (mkEntry A out) out
    (fun x hx => (mkEntry_spec A out x (hchl x hx)).elim fun e he => ⟨e, he.1⟩)
  refine ⟨out, entries, htopo, hmapM, hnod, hmem', hordP, hentlen, ?_⟩
  intro k x hk
  obtain ⟨y, h1, h2⟩ := hentP k x hk
  obtain ⟨e, he, harms, hch⟩ := mkEntry_spec A out x (hchl x (List.get?_mem hk))
  have hye : e = y := Option.some.inj (he.symm.trans h2)
  subst hye
  exact ⟨e, h1, he, harms, hch⟩

/-- C6: on an acyclic snowflake population (witnessed by a rank function
decreasing along the child relation, with enough recursion fuel to make
the recursive-children sets transitively closed),
`gen_dependency_tree` succeeds and returns an ordering of the snowflake
itself plus all of its transitive descendants, without duplicates, in
which every snowflake appears only after all of its own transitive
children, and one entry per ordered snowflake carrying its `arms` array
plus one `{childIdx, direction, distance, rotation}` reference per
recorded attachment whose `childIdx` resolves in the ordering to that
very child. -/
theorem c6_dependency_tree {n : Nat} (A : Arena n) (i : Fin n) (fuel : Nat)
    (rank : Fin n → Nat)
    (hrk : ∀ x c, c ∈ getChildren A x → rank c < rank x)
    (htr : ∀ x y, x ∈ childrenRec A fuel i → y ∈ childrenRec A fuel x →
      y ∈ childrenRec A fuel i) :
    ∃ (ord : List (Fin n)) (entries : List DTEntry),
      gen_dependency_tree A i fuel = some (some entries) ∧
      ord.Nodup ∧
      (∀ x, x ∈ ord ↔ x = i ∨ x ∈ childrenRec A fuel i) ∧
      (∀ k x, ord.get? k = some x → ∀ c ∈ childrenRec A fuel x,
        ∃ k2, k2 < k ∧ ord.get? k2 = some c) ∧
      entries.length = ord.length ∧
      (∀ k x, ord.get? k = some x → ∃ e, entries.get? k = some e ∧
        e.arms = (A x).arms ∧
        ∀ ch ∈ e.children, ∃ y, ord.get? ch.childIdx = some y ∧ y ∈ getChildren A x) := by
  have hnodA : (if i ∈ (childrenRec A fuel i).dedup then (childrenRec A fuel i).dedup
      else (childrenRec A fuel i).dedup ++ [i]).Nodup := by
    by_cases hi : i ∈ (childrenRec A fuel i).dedup
    · rw [if_pos hi]
      exact List.nodup_dedup _
    · rw [if_neg hi, List.nodup_append]
      exact ⟨List.nodup_dedup _, List.nodup_singleton i, by
        intro a ha hb
        simp at hb
        subst hb
        exact hi ha⟩
  have hmemA : ∀ x, (x ∈ (if i ∈ (childrenRec A fuel i).dedup then (childrenRec A fuel i).dedup
      else (childrenRec A fuel i).dedup ++ [i])) ↔ (x = i ∨ x ∈ childrenRec A fuel i) := by
    intro x
    by_cases hi : i ∈ (childrenRec A fuel i).dedup
    · rw [if_pos hi, List.mem_dedup]
      constructor
      · exact Or.inr
      · rintro (rfl | h)
        · exact List.mem_dedup.mp hi
        · exact h
    · rw [if_neg hi, List.mem_append, List.mem_dedup]
      constructor
      · rintro (h | h)
        · exact Or.inr h
        · simp at h
          exact Or.inl h
      · rintro (rfl | h)
        · exact Or.inr (by simp)
        · exact Or.inl h
  obtain ⟨out, entries, htopo, hmapM, hnod, hmem, hordP, hentlen, hentP⟩ :=
    c6_topo_entries A i fuel rank hrk htr _ hnodA hmemA
  refine ⟨out, entries, ?_, hnod, hmem, hordP, hentlen,
    fun k x hk => (hentP k x hk).elim fun e he => ⟨e, he.1, he.2.2.1, he.2.2.2⟩⟩
  have e1 : gen_dependency_tree A i fuel =
      (match topoLoop A fuel
          (if i ∈ (childrenRec A fuel i).dedup then (childrenRec A fuel i).dedup
            else (childrenRec A fuel i).dedup ++ [i]).length
          (if i ∈ (childrenRec A fuel i).dedup then (childrenRec A fuel i).dedup
            else (childrenRec A fuel i).dedup ++ [i]) [] with
        | none => some none
        | some ord =>
          match ord.mapM (mkEntry A ord) with
          | none => none
          | some entries => some (some entries)) := rfl
  rw [e1, htopo]
  show (match out.mapM (mkEntry A out) with
      | none => (none : Option (Option (List DTEntry)))
      | some es => some (some es)) = some (some entries)
  rw [hmapM]

/-- A rank function witnessing that `arenaTwo`'s child relation is
acyclic: snowflake 1 ranks above its child 0. -/
def rankTwo : Fin 2 → Nat := fun j => if j = 1 then 1 else 0

theorem c6_dependency_tree_witness :
    (∀ x c, c ∈ getChildren arenaTwo x → rankTwo c < rankTwo x) ∧
    (∀ x y, x ∈ childrenRec arenaTwo 0 1 → y ∈ childrenRec arenaTwo 0 x →
      y ∈ childrenRec arenaTwo 0 1) ∧
    (∃ (ord : List (Fin 2)) (entries : List DTEntry),
      gen_dependency_tree arenaTwo 1 0 = some (some entries) ∧
      ord.Nodup ∧
      (∀ x, x ∈ ord ↔ x = 1 ∨ x ∈ childrenRec arenaTwo 0 1) ∧
      (∀ k x, ord.get? k = some x → ∀ c ∈ childrenRec arenaTwo 0 x,
        ∃ k2, k2 < k ∧ ord.get? k2 = some c) ∧
      entries.length = ord.length ∧
      (∀ k x, ord.get? k = some x → ∃ e, entries.get? k = some e ∧
        e.arms = (arenaTwo x).arms ∧
        ∀ ch ∈ e.children, ∃ y, ord.get? ch.childIdx = some y ∧
          y ∈ getChildren arenaTwo x)) :=
  ⟨by decide, by decide,
    c6_dependency_tree arenaTwo 1 0 rankTwo (by decide) (by decide)⟩

/-- `Shape._get_node_idx(node)`: first index of the node, `-1` when the
node is absent (the caught `ValueError` branch). -/
def get_node_idx (m : Mesh) (node : Coord) : Int :=
  match idxFirst m.nodes node with
  | none => -1
  | some k => (k : Int)

/-- `Shape.contains_edge` as called on possibly-`-1` indices inside
`gen_constituents`. -/
def containsEdgeI (m : Mesh) (e : Int × Int) : Bool :=
  m.edges.any fun e0 =>
    decide ((((e0.1 : Int) = e.1) ∧ ((e0.2 : Int) = e.2)) ∨
      (((e0.1 : Int) = e.2) ∧ ((e0.2 : Int) = e.1)))

/-- One constituent dictionary of `StarConvex.gen_constituents`. -/
structure Constituent where
  shapeType : Int
  directionW : Int
  directionH : Int
  a : Int
  d : Int
  c : Int
  a2 : Int
  a3 : Int
deriving DecidableEq

/-- `StarConvex._construct_constituent(sector, angles, distances)`; the
`angles[k]`/`distances[k]` accesses can raise `IndexError`, modelled as
`none`. -/
def construct_constituent (sector : Int) (angles distances : List Int) : Option Constituent :=
  let dir_w := sector * 2
  let dir_h := ((sector + 1) % 6) * 2
  (angles.get? 0).bind fun a0 =>
  if a0 = 1 then
    (angles.get? 1).bind fun a1 =>
    if a1 = 1 then
      (distances.get? 0).map fun d0 =>
        { shapeType := 0, directionW := dir_w, directionH := dir_h,
          a := d0, d := 0, c := 0, a2 := 0, a3 := 0 }
    else
      (distances.get? 0).bind fun d0 =>
      (distances.get? 1).map fun d1 =>
        { shapeType := 2, directionW := dir_w, directionH := dir_h,
          a := d0, d := d1, c := 0, a2 := 0, a3 := 0 }
  else
    (angles.get? 1).bind fun a1 =>
    if a1 = 1 then
      (distances.get? 0).bind fun d0 =>
      (distances.get? 1).map fun d1 =>
        { shapeType := 1, directionW := dir_w, directionH := dir_h,
          a := d0, d := d1, c := 0, a2 := 0, a3 := 0 }
    else
      (angles.get? 2).bind fun a2 =>
      if a2 = 1 then
        (distances.get? 0).bind fun d0 =>
        (distances.get? 1).map fun d1 =>
          { shapeType := 2, directionW := dir_h, directionH := dir_w,
            a := d0 + d1, d := d0, c := 0, a2 := 0, a3 := 0 }
      else
        (distances.get? 0).bind fun d0 =>
        (distances.get? 1).bind fun d1 =>
        (distances.get? 2).map fun d2 =>
          { shapeType := 3, directionW := dir_w, directionH := dir_h,
            a := d0, d := d1 + d2, c := d1, a2 := d0 + d1, a3 := d0 + 1 }

/-- The first `while` loop of a `gen_constituents` sector: walk the
`vec1` ray, tracking the last position with an edge to the top side.
Each iteration consumes one node of the ray, and the ray's points are
pairwise distinct, so fuel `nodes.length + 1` always reaches the
`break`. -/
def scanLoop (m : Mesh) (vec1 : Coord) :
    Nat → Coord → Coord → Coord → Int → Int → Bool → Int × Int
  | 0, _, _, _, idx, last_edge_idx, _ => (idx, last_edge_idx)
  | fuel + 1, node, nbr_top_1, nbr_top_2, idx, last_edge_idx, last_edge_found =>
    let node' := (node.1 + vec1.1, node.2 + vec1.2)
    let node_idx := get_node_idx m node'
    if node_idx = -1 then (idx, last_edge_idx)
    else
      let idx' := idx + 1
      let nt1 := nbr_top_2
      let nt2 := (nbr_top_2.1 + vec1.1, nbr_top_2.2 + vec1.2)
      if ¬ last_edge_found then
        let idx_top_1 := get_node_idx m nbr_top_1
        let idx_top_2 := get_node_idx m nbr_top_2
        if idx_top_1 ≠ -1 ∧ containsEdgeI m (node_idx, idx_top_1) = true then
          scanLoop m vec1 fuel node' nt1 nt2 idx' idx' false
        else if idx_top_2 ≠ -1 ∧ containsEdgeI m (node_idx, idx_top_2) = true then
          scanLoop m vec1 fuel node' nt1 nt2 idx' idx' false
        else
          scanLoop m vec1 fuel node' nt1 nt2 idx' last_edge_idx true
      else scanLoop m vec1 fuel node' nt1 nt2 idx' last_edge_idx true

/-- The `(idx, last_edge_idx)` pair computed by a sector's scan loop. -/
def sectorScan (m : Mesh) (sector : Int) : Int × Int :=
  let vec1 := dirVec sector
  let vec2 := dirVec ((sector + 1) % 6)
  scanLoop m vec1 (m.nodes.length + 1) (0, 0) vec2 (vec1.1 + vec2.1, vec1.2 + vec2.2) 0 0 false

/-- The three candidate traversal directions `[vec2, vec3, vec4]`. -/
def sectorDirections (sector : Int) : List Coord :=
  [dirVec ((sector + 1) % 6), dirVec ((sector + 2) % 6), dirVec ((sector + 3) % 6)]

/-- The traversal start node `last_edge_idx * vec1`. -/
def sectorStartNode (m : Mesh) (sector : Int) : Coord :=
  let idx := (sectorScan m sector).2
  ((dirVec sector).1 * idx, (dirVec sector).2 * idx)

/-- The initial-direction search of the boundary traversal: direction 0
with an obtuse angle along `vec2`, else direction 1 with an acute angle
along `vec3`, else `none` — the `raise ValueError` branch. -/
def initialDir (m : Mesh) (sector : Int) : Option (Nat × Int) :=
  let node2 := sectorStartNode m sector
  let node_idx2 := get_node_idx m node2
  let nbrs := (sectorDirections sector).map fun d => (node2.1 + d.1, node2.2 + d.2)
  let idxs := nbrs.map (get_node_idx m)
  let i0 := idxs.getD 0 (-1)
  let i1 := idxs.getD 1 (-1)
  if i0 ≠ -1 ∧ containsEdgeI m (node_idx2, i0) = true then some (0, 0)
  else if i1 ≠ -1 ∧ containsEdgeI m (node_idx2, i1) = true then some (1, 1)
  else none

/-- The boundary-traversal `while` loop of one `gen_constituents`
sector.  `none` is exhausted fuel (the Python loop's termination is not
settled here); `Except.error` is an uncaught exception. -/
def traverseLoop (m : Mesh) (sector : Int) (directions : List Coord) :
    Nat → Coord → Int → List Coord → List Int → Nat → List Int → List Int → Int →
    List Constituent → Option (Except String (List Constituent))
  | 0, _, _, _, _, _, _, _, _, _ => none
  | fuel + 1, node, _, nbrs, _, direction, angles, distances, dist, acc =>
    let dir_vec := directions.getD direction (0, 0)
    let new_node := (node.1 + dir_vec.1, node.2 + dir_vec.2)
    let new_idx := get_node_idx m new_node
    let dist' := dist + 1
    match rotate_grid_point new_node.1 new_node.2 ((6 - sector) % 6) with
    | none => some (Except.error "IndexError")
    | some rx =>
      if rx.1 ≤ 0 then
        if direction ≠ 2 then
          match construct_constituent sector (angles ++ [1]) (distances ++ [dist']) with
          | none => some (Except.error "IndexError")
          | some con => some (Except.ok (acc ++ [con]))
        else some (Except.ok acc)
      else
        let new_nbrs := nbrs.map fun nb => (nb.1 + dir_vec.1, nb.2 + dir_vec.2)
        let new_nbr_idxs := new_nbrs.map (get_node_idx m)
        let num_nbrs := (new_nbr_idxs.filter fun i =>
          decide (i ≠ -1) && containsEdgeI m (new_idx, i)).length
        if direction = 0 ∧ num_nbrs < 3 then
          if num_nbrs = 2 then
            traverseLoop m sector directions fuel new_node new_idx new_nbrs new_nbr_idxs 1
              (angles ++ [0]) (distances ++ [dist']) 0 acc
          else
            match construct_constituent sector (angles ++ [1]) (distances ++ [dist']) with
            | none => some (Except.error "IndexError")
            | some con =>
              traverseLoop m sector directions fuel new_node new_idx new_nbrs new_nbr_idxs 2
                [] [] 0 (acc ++ [con])
        else if direction = 1 ∧ num_nbrs ≠ 2 then
          match construct_constituent sector (angles ++ [0]) (distances ++ [dist']) with
          | none => some (Except.error "IndexError")
          | some con =>
            if num_nbrs < 2 then
              traverseLoop m sector directions fuel new_node new_idx new_nbrs new_nbr_idxs 2
                [] [] 0 (acc ++ [con])
            else
              traverseLoop m sector directions fuel new_node new_idx new_nbrs new_nbr_idxs 0
                [0] [rx.1] rx.2 (acc ++ [con])
        else if direction = 2 ∧ num_nbrs > 1 then
          let angles' := angles ++ [0]
          let distances' := distances ++ [rx.1]
          let dist'' := rx.2
          if num_nbrs = 2 then
            traverseLoop m sector directions fuel new_node new_idx new_nbrs new_nbr_idxs 1
              (angles' ++ [0]) (distances' ++ [dist'']) 0 acc
          else
            traverseLoop m sector directions fuel new_node new_idx new_nbrs new_nbr_idxs 0
              angles' distances' dist'' acc
        else
          traverseLoop m sector directions fuel new_node new_idx new_nbrs new_nbr_idxs
            direction angles distances dist' acc

/-- One sector of `StarConvex.gen_constituents`: the scan loop, the
optional line parallelogram, the `continue` when no top edge was found,
the initial-direction search with its `raise`, and the boundary
traversal. -/
def sectorConstituents (m : Mesh) (sector : Int) : Option (Except String (List Constituent)) :=
  let vec1 := dirVec sector
  let vec2 := dirVec ((sector + 1) % 6)
  let scan := sectorScan m sector
  let idx := scan.1
  let last_edge_idx := scan.2
  let node := (vec1.1 * idx, vec1.2 * idx)
  let node_idx := get_node_idx m node
  let lineCons : List Constituent :=
    if idx > last_edge_idx then
      let nbr_bot_1 := (node.1 - vec2.1, node.2 - vec2.2)
      let nbr_bot_2 := (nbr_bot_1.1 + vec1.1, nbr_bot_1.2 + vec1.2)
      let idx_bot_1 := get_node_idx m nbr_bot_1
      let idx_bot_2 := get_node_idx m nbr_bot_2
      if (idx_bot_1 = -1 ∨ containsEdgeI m (node_idx, idx_bot_1) = false) ∧
         (idx_bot_2 = -1 ∨ containsEdgeI m (node_idx, idx_bot_2) = false) then
        [{ shapeType := 1, directionW := sector * 2, directionH := ((sector + 1) % 6) * 2,
           a := idx, d := 0, c := 0, a2 := 0, a3 := 0 }]
      else []
    else []
  if last_edge_idx = 0 then some (Except.ok lineCons)
  else
    let node2 := sectorStartNode m sector
    let node_idx2 := get_node_idx m node2
    let directions := sectorDirections sector
    let nbrs := directions.map fun d => (node2.1 + d.1, node2.2 + d.2)
    let idxs := nbrs.map (get_node_idx m)
    match initialDir m sector with
    | none => some (Except.error "Traversal failed, found no initial direction")
    | some da =>
      (traverseLoop m sector directions (m.nodes.length * 6 + 6) node2 node_idx2 nbrs idxs
        da.1 [da.2] [last_edge_idx] 0 []).map
        (Except.map fun cs => lineCons ++ cs)

/-- The `for sector in range(6)` loop of `gen_constituents`: an
exception in one sector propagates, skipping the remaining sectors. -/
def gen_constituents_go (m : Mesh) :
    List Int → List Constituent → Option (Except String (List Constituent))
  | [], acc => some (Except.ok acc)
  | s :: ss, acc =>
    match sectorConstituents m s with
    | none => none
    | some (Except.error e) => some (Except.error e)
    | some (Except.ok cs) => gen_constituents_go m ss (acc ++ cs)

/-- `StarConvex.gen_constituents()` (the computed constituent list). -/
def gen_constituents (m : Mesh) : Option (Except String (List Constituent)) :=
  gen_constituents_go m [0, 1, 2, 3, 4, 5] []

/-- A two-snowflake population whose parent/child relation is cyclic:
0 records 1 as a child and 1 records 0. -/
def arenaCyc : Arena 2 := fun j =>
  if j = 0 then
    { mesh := { pos := (0, 0), nodes := [(0, 0)], edges := [], faces := [] }
      arms := [0, 0, 0, 0, 0, 0]
      children := fun d => if d = 0 then [(1, 0, (1 : Fin 2))] else []
      parents := [1]
      selected_edge := none
      selected_edge_start := 0
      selected_edge_dir := 0
      child_candidate := none
      child_rot := 0
      preview_shape := none }
  else
    { mesh := { pos := (1, 0), nodes := [(0, 0)], edges := [], faces := [] }
      arms := [0, 0, 0, 0, 0, 0]
      children := fun d => if d = 0 then [(1, 0, (0 : Fin 2))] else []
      parents := [0]
      selected_edge := none
      selected_edge_start := 0
      selected_edge_dir := 0
      child_candidate := none
      child_rot := 0
      preview_shape := none }

/-- C9: failed invariant checks are signaled, not swallowed.  When the
topological sort of `gen_dependency_tree` finds no valid next node the
function returns its `None` result, and any document `to_json` then
dumps carries a `null` dependency tree, so it is not well formed.  On
the star-convex side, for every mesh and sector either the sector's
boundary traversal is never started (`last_edge_idx = 0`), or an
initial direction exists, or the sector computation stops with the
uncaught `ValueError` — which `gen_constituents` propagates, aborting
the remaining sectors. -/
theorem c9_failures_signaled {n : Nat} (A : Arena n) (i : Fin n) (fuel : Nat)
    (m : Mesh) (sector : Int)
    (htopo : topoLoop A fuel
      (if i ∈ (childrenRec A fuel i).dedup then (childrenRec A fuel i).dedup
        else (childrenRec A fuel i).dedup ++ [i]).length
      (if i ∈ (childrenRec A fuel i).dedup then (childrenRec A fuel i).dedup
        else (childrenRec A fuel i).dedup ++ [i]) [] = none) :
    gen_dependency_tree A i fuel = some none ∧
    (∀ doc, to_json A i fuel = some doc → ¬ wellFormedDoc doc) ∧
    ((sectorScan m sector).2 = 0 ∨ initialDir m sector ≠ none ∨
      (sectorConstituents m sector =
          some (Except.error "Traversal failed, found no initial direction") ∧
        (sector = 0 → gen_constituents m =
          some (Except.error "Traversal failed, found no initial direction")))) := by
  have hdt : gen_dependency_tree A i fuel = some none := by
    have e1 : gen_dependency_tree A i fuel =
        (match topoLoop A fuel
            (if i ∈ (childrenRec A fuel i).dedup then (childrenRec A fuel i).dedup
              else (childrenRec A fuel i).dedup ++ [i]).length
            (if i ∈ (childrenRec A fuel i).dedup then (childrenRec A fuel i).dedup
              else (childrenRec A fuel i).dedup ++ [i]) [] with
          | none => some none
          | some ord =>
            match ord.mapM (mkEntry A ord) with
            | none => none
            | some entries => some (some entries)) := rfl
    rw [e1, htopo]
  refine ⟨hdt, ?_, ?_⟩
  · intro doc hdoc hwf
    have e2 : to_json A i fuel = (gen_dependency_tree A i fuel).map fun dt =>
        { docNodes := (A i).mesh.nodes
          docEdges := (A i).mesh.edges
          docFaces := (A i).mesh.faces
          dependencyTree := dt } := rfl
    rw [e2, hdt] at hdoc
    simp only [Option.map_some'] at hdoc
    have hd := Option.some.inj hdoc
    apply hwf
    rw [← hd]
  · by_cases h0 : (sectorScan m sector).2 = 0
    · exact Or.inl h0
    · by_cases h1 : initialDir m sector = none
      · right
        right
        have hsec : sectorConstituents m sector =
            some (Except.error "Traversal failed, found no initial direction") := by
          simp only [sectorConstituents]
          rw [if_neg h0, h1]
        refine ⟨hsec, ?_⟩
        intro hs0
        subst hs0
        have e4 : gen_constituents m =
            (match sectorConstituents m 0 with
              | none => none
              | some (Except.error e) => some (Except.error e)
              | some (Except.ok cs) => gen_constituents_go m [1, 2, 3, 4, 5] ([] ++ cs)) := rfl
        rw [e4, hsec]
      · exact Or.inr (Or.inl h1)

theorem c9_failures_signaled_witness :
    (topoLoop arenaCyc 1
      (if (0 : Fin 2) ∈ (childrenRec arenaCyc 1 0).dedup then (childrenRec arenaCyc 1 0).dedup
        else (childrenRec arenaCyc 1 0).dedup ++ [0]).length
      (if (0 : Fin 2) ∈ (childrenRec arenaCyc 1 0).dedup then (childrenRec arenaCyc 1 0).dedup
        else (childrenRec arenaCyc 1 0).dedup ++ [0]) [] = none) ∧
    (gen_dependency_tree arenaCyc 0 1 = some none ∧
    (∀ doc, to_json arenaCyc 0 1 = some doc → ¬ wellFormedDoc doc) ∧
    ((sectorScan { pos := (0, 0), nodes := [(0, 0)], edges := [], faces := [] } 0).2 = 0 ∨
      initialDir { pos := (0, 0), nodes := [(0, 0)], edges := [], faces := [] } 0 ≠ none ∨
      (sectorConstituents { pos := (0, 0), nodes := [(0, 0)], edges := [], faces := [] } 0 =
          some (Except.error "Traversal failed, found no initial direction") ∧
        ((0 : Int) = 0 → gen_constituents { pos := (0, 0), nodes := [(0, 0)], edges := [], faces := [] } =
          some (Except.error "Traversal failed, found no initial direction"))))) :=
  ⟨by decide,
    c9_failures_signaled arenaCyc 0 1 { pos := (0, 0), nodes := [(0, 0)], edges := [], faces := [] } 0
      (by decide)⟩

/-- A heap of list containers: one cell per Python list object, so
aliasing and in-place mutation are observable. -/
structure Store where
  nodeH : List (List Coord)
  edgeH : List (List (Int × Int))
  faceH : List (List (Int × Int × Int))
deriving DecidableEq

/-- A shape object: its position plus the cells holding its three
lists. -/
structure ShapeRef where
  rpos : Coord
  nref : Nat
  eref : Nat
  fref : Nat
deriving DecidableEq

/-- The mesh currently denoted by a shape reference. -/
def meshAt (σ : Store) (r : ShapeRef) : IMesh :=
  { pos := r.rpos
    nodes := σ.nodeH.getD r.nref []
    edges := σ.edgeH.getD r.eref []
    faces := σ.faceH.getD r.fref [] }

/-- `Snowflake.gen_shifted_shape` at the heap level.  `nodes.copy()` /
`edges.copy()` / `faces.copy()` allocate three fresh cells; the in-place
rotation `nodes[i] = rotate_grid_point(...)` writes the fresh nodes cell
only; the value of the computation is the validated pure translation
`gen_shifted_shape`, whose result lists (`all_nodes`, the `+`
concatenations) are again freshly allocated and handed to the `Shape`
constructor, which aliases exactly the lists it is given. -/
def genShiftedHeap (σ : Store) (r : ShapeRef) (pos : Coord) (rot shift_dir : Int) :
    Option (Store × ShapeRef) :=
  let nodes0 := σ.nodeH.getD r.nref []
  let edges0 := σ.edgeH.getD r.eref []
  let faces0 := σ.faceH.getD r.fref []
  let a1 := σ.nodeH.length
  (if 0 < rot then
    (nodes0.mapM fun p => rotate_grid_point p.1 p.2 rot).map fun rotated =>
      ({ nodeH := (σ.nodeH ++ [nodes0]).set a1 rotated
         edgeH := σ.edgeH ++ [edges0]
         faceH := σ.faceH ++ [faces0] } : Store)
  else
    some ({ nodeH := σ.nodeH ++ [nodes0]
            edgeH := σ.edgeH ++ [edges0]
            faceH := σ.faceH ++ [faces0] } : Store)).bind fun st =>
  (gen_shifted_shape (meshAt σ r) pos rot shift_dir).map fun res =>
    (({ nodeH := st.nodeH ++ [res.nodes]
        edgeH := st.edgeH ++ [res.edges]
        faceH := st.faceH ++ [res.faces] } : Store),
     ({ rpos := res.pos
        nref := st.nodeH.length
        eref := st.edgeH.length
        fref := st.faceH.length } : ShapeRef))

theorem genShiftedHeap_aux (σ σmid : Store) (r : ShapeRef) (pos : Coord)
    (rot shift_dir : Int) (σ2 : Store) (r2 : ShapeRef)
    (hlen : σmid.nodeH.length = σ.nodeH.length + 1)
    (hget : ∀ k, k < σ.nodeH.length → σmid.nodeH.get? k = σ.nodeH.get? k)
    (hmide : σmid.edgeH = σ.edgeH ++ [σ.edgeH.getD r.eref []])
    (hmidf : σmid.faceH = σ.faceH ++ [σ.faceH.getD r.fref []])
    (hF : (gen_shifted_shape (meshAt σ r) pos rot shift_dir).map (fun res =>
      (({ nodeH := σmid.nodeH ++ [res.nodes]
          edgeH := σmid.edgeH ++ [res.edges]
          faceH := σmid.faceH ++ [res.faces] } : Store),
       ({ rpos := res.pos
          nref := σmid.nodeH.length
          eref := σmid.edgeH.length
          fref := σmid.faceH.length } : ShapeRef))) = some (σ2, r2)) :
    (∀ k, k < σ.nodeH.length → σ2.nodeH.get? k = σ.nodeH.get? k) ∧
    (∀ k, k < σ.edgeH.length → σ2.edgeH.get? k = σ.edgeH.get? k) ∧
    (∀ k, k < σ.faceH.length → σ2.faceH.get? k = σ.faceH.get? k) ∧
    (r.nref < σ.nodeH.length → r.eref < σ.edgeH.length → r.fref < σ.faceH.length →
      meshAt σ2 r = meshAt σ r) ∧
    σ.nodeH.length < r2.nref ∧ σ.edgeH.length < r2.eref ∧ σ.faceH.length < r2.fref ∧
    (∃ res, gen_shifted_shape (meshAt σ r) pos rot shift_dir = some res ∧
      r2.rpos = res.pos ∧
      σ2.nodeH.get? r2.nref = some res.nodes ∧
      σ2.edgeH.get? r2.eref = some res.edges ∧
      σ2.faceH.get? r2.fref = some res.faces) := by
  obtain ⟨res, hres, hg⟩ := Option.map_eq_some'.mp hF
  have hA : ({ nodeH := σmid.nodeH ++ [res.nodes]
               edgeH := σmid.edgeH ++ [res.edges]
               faceH := σmid.faceH ++ [res.faces] } : Store) = σ2 := congrArg Prod.fst hg
  have hB : ({ rpos := res.pos
               nref := σmid.nodeH.length
               eref := σmid.edgeH.length
               fref := σmid.faceH.length } : ShapeRef) = r2 := congrArg Prod.snd hg
  subst hA
  subst hB
  have hlene : σmid.edgeH.length = σ.edgeH.length + 1 := by
    rw [hmide, List.length_append, List.length_singleton]
  have hlenf : σmid.faceH.length = σ.faceH.length + 1 := by
    rw [hmidf, List.length_append, List.length_singleton]
  have c1 : ∀ k, k < σ.nodeH.length →
      (σmid.nodeH ++ [res.nodes]).get? k = σ.nodeH.get? k := by
    intro k hk
    rw [get?_append_lt _ _ _ (by omega), hget k hk]
  have c2 : ∀ k, k < σ.edgeH.length →
      (σmid.edgeH ++ [res.edges]).get? k = σ.edgeH.get? k := by
    intro k hk
    rw [get?_append_lt _ _ _ (by omega), hmide, get?_append_lt _ _ _ hk]
  have c3 : ∀ k, k < σ.faceH.length →
      (σmid.faceH ++ [res.faces]).get? k = σ.faceH.get? k := by
    intro k hk
    rw [get?_append_lt _ _ _ (by omega), hmidf, get?_append_lt _ _ _ hk]
  refine ⟨c1, c2, c3, ?_, by simp [hlen], by simp [hlene], by simp [hlenf],
    res, hres, rfl, ?_, ?_, ?_⟩
  · intro hn he hf
    simp only [meshAt]
    rw [List.getD_eq_get?, List.getD_eq_get?, List.getD_eq_get?, List.getD_eq_get?,
      List.getD_eq_get?, List.getD_eq_get?, c1 r.nref hn, c2 r.eref he, c3 r.fref hf]
  · exact get?_concat_len σmid.nodeH res.nodes
  · exact get?_concat_len σmid.edgeH res.edges
  · exact get?_concat_len σmid.faceH res.faces

/-- C10: `gen_shifted_shape` never mutates its receiver.  Whenever the
heap-level run succeeds, every pre-existing heap cell — in particular
each list of the receiver and of every other shape — holds exactly its
old value, the receiver's mesh reads back unchanged, the returned
shape's three list cells are strictly fresh (so they share no container
with any existing shape), and their contents are exactly the node, edge
and face lists of the pure translation's result. -/
theorem c10_gen_shifted_frame (σ : Store) (r : ShapeRef) (pos : Coord)
    (rot shift_dir : Int) (σ2 : Store) (r2 : ShapeRef)
    (hrun : genShiftedHeap σ r pos rot shift_dir = some (σ2, r2)) :
    (∀ k, k < σ.nodeH.length → σ2.nodeH.get? k = σ.nodeH.get? k) ∧
    (∀ k, k < σ.edgeH.length → σ2.edgeH.get? k = σ.edgeH.get? k) ∧
    (∀ k, k < σ.faceH.length → σ2.faceH.get? k = σ.faceH.get? k) ∧
    (r.nref < σ.nodeH.length → r.eref < σ.edgeH.length → r.fref < σ.faceH.length →
      meshAt σ2 r = meshAt σ r) ∧
    σ.nodeH.length < r2.nref ∧ σ.edgeH.length < r2.eref ∧ σ.faceH.length < r2.fref ∧
    (∃ res, gen_shifted_shape (meshAt σ r) pos rot shift_dir = some res ∧
      r2.rpos = res.pos ∧
      σ2.nodeH.get? r2.nref = some res.nodes ∧
      σ2.edgeH.get? r2.eref = some res.edges ∧
      σ2.faceH.get? r2.fref = some res.faces) := by
  simp only [genShiftedHeap] at hrun
  by_cases hrot : 0 < rot
  · rw [if_pos hrot] at hrun
    obtain ⟨σmid, hmid, hF⟩ := Option.bind_eq_some.mp hrun
    obtain ⟨rotated, _, hσmid⟩ := Option.map_eq_some'.mp hmid
    refine genShiftedHeap_aux σ σmid r pos rot shift_dir σ2 r2 ?_ ?_ ?_ ?_ hF
    · rw [← hσmid]
      simp [List.length_set]
    · intro k hk
      rw [← hσmid]
      show (((σ.nodeH ++ [σ.nodeH.getD r.nref []]).set σ.nodeH.length rotated)).get? k =
        σ.nodeH.get? k
      rw [List.get?_set_ne _ _ (by omega), get?_append_lt _ _ _ hk]
    · rw [← hσmid]
    · rw [← hσmid]
  · rw [if_neg hrot] at hrun
    obtain ⟨σmid, hmid, hF⟩ := Option.bind_eq_some.mp hrun
    have hσmid := Option.some.inj hmid
    refine genShiftedHeap_aux σ σmid r pos rot shift_dir σ2 r2 ?_ ?_ ?_ ?_ hF
    · rw [← hσmid]
      simp
    · intro k hk
      rw [← hσmid]
      exact get?_append_lt _ _ _ hk
    · rw [← hσmid]
    · rw [← hσmid]

/-- A one-shape store for exercising the heap-level frame theorem. -/
def storeW : Store := { nodeH := [[(0, 0), (1, 0)]], edgeH := [[(0, 1)]], faceH := [[]] }

/-- The reference of the single shape in `storeW`. -/
def refW : ShapeRef := { rpos := (0, 0), nref := 0, eref := 0, fref := 0 }

/-- The store after `genShiftedHeap storeW refW (5,0) 0 1`. -/
def storeW2 : Store :=
  { nodeH := [[(0, 0), (1, 0)], [(0, 0), (1, 0)], [(0, 0), (1, 0), (0, 1), (1, 1)]]
    edgeH := [[(0, 1)], [(0, 1)], [(0, 1), (0, 2), (1, 3), (2, 3), (1, 2)]]
    faceH := [[], [], [(1, 2, 0), (1, 2, 3)]] }

/-- The reference returned by `genShiftedHeap storeW refW (5,0) 0 1`. -/
def refW2 : ShapeRef := { rpos := (5, 0), nref := 2, eref := 2, fref := 2 }

theorem c10_gen_shifted_frame_witness :
    genShiftedHeap storeW refW (5, 0) 0 1 = some (storeW2, refW2) ∧
    ((∀ k, k < storeW.nodeH.length → storeW2.nodeH.get? k = storeW.nodeH.get? k) ∧
    (∀ k, k < storeW.edgeH.length → storeW2.edgeH.get? k = storeW.edgeH.get? k) ∧
    (∀ k, k < storeW.faceH.length → storeW2.faceH.get? k = storeW.faceH.get? k) ∧
    (refW.nref < storeW.nodeH.length → refW.eref < storeW.edgeH.length →
      refW.fref < storeW.faceH.length → meshAt storeW2 refW = meshAt storeW refW) ∧
    storeW.nodeH.length < refW2.nref ∧ storeW.edgeH.length < refW2.eref ∧
    storeW.faceH.length < refW2.fref ∧
    (∃ res, gen_shifted_shape (meshAt storeW refW) (5, 0) 0 1 = some res ∧
      refW2.rpos = res.pos ∧
      storeW2.nodeH.get? refW2.nref = some res.nodes ∧
      storeW2.edgeH.get? refW2.eref = some res.edges ∧
      storeW2.faceH.get? refW2.fref = some res.faces)) :=
  ⟨by decide, c10_gen_shifted_frame storeW refW (5, 0) 0 1 storeW2 refW2 (by decide)⟩
